import Mathlib

/-!
Verification development for the TutorCode graph library (GraphExample.py).

The library offers two undirected-graph representations:
a vertex-list/edge-list representation (Graph1) and an adjacency-dictionary
representation (Graph2), plus factory constructors and two connectivity
algorithms (direct partition merge and union-find with path compression).

Every definition below is a shallow embedding of the corresponding Python
code.  Mutable dictionaries become association lists, Python exceptions that
escape a method become Option results (none = the call raises), and the
unbounded while loops of the connectivity algorithms become fuel-indexed
loops; theorems prove that the fuel shown never runs out, matching the
termination of the Python loops.
-/

namespace TutorGraph

/-- Edge normalization used by Graph1: a pair is stored as (min, max). -/
def normPair (e : Int × Int) : Int × Int := (min e.1 e.2, max e.1 e.2)

/-- First-occurrence deduplication, matching the key set of a Python dict
built by successive insertion. -/
def dedupFirst : List Int → List Int
  | [] => []
  | a :: l => a :: (dedupFirst l).filter (fun x => decide (x ≠ a))

/-! ## Association-list model of a Python dict with Int keys -/

/-- Lookup of a key in an association list (Python `d[a]` / `a in d`). -/
def alook {β : Type} : List (Int × β) → Int → Option β
  | [], _ => none
  | (k, x) :: rest, a => if k = a then some x else alook rest a

/-- Assignment `d[a] = x`: overwrite the first binding of the key, or append
a new binding. -/
def aput {β : Type} : List (Int × β) → Int → β → List (Int × β)
  | [], a, x => [(a, x)]
  | (k, y) :: rest, a, x =>
      if k = a then (k, x) :: rest else (k, y) :: aput rest a x

/-- Deletion `del d[a]`: remove the first binding of the key. -/
def adel {β : Type} : List (Int × β) → Int → List (Int × β)
  | [], _ => []
  | (k, y) :: rest, a => if k = a then rest else (k, y) :: adel rest a

/-- The key list of an association list (Python `d.keys()`). -/
def akeys {β : Type} (d : List (Int × β)) : List Int := d.map Prod.fst

/-! ## Graph1: the edge-list representation -/

/-- `Graph1`: a list of vertices and a list of (normalized) edge pairs. -/
structure Graph1 where
  vertices : List Int
  edges : List (Int × Int)
deriving DecidableEq

/-- `Graph1.__init__`: stores the vertex list as given and normalizes every
edge to (min, max). -/
def Graph1.mk1 (vertices : List Int) (edges : List (Int × Int)) : Graph1 :=
  ⟨vertices, edges.map normPair⟩

/-- `Graph1.__len__`. -/
def Graph1.size (g : Graph1) : Nat := g.vertices.length

/-- `Graph1.hasVertex`. -/
def Graph1.hasVertex (g : Graph1) (a : Int) : Bool := decide (a ∈ g.vertices)

/-- `Graph1.hasEdge`: normalizes the query pair and scans the edge list. -/
def Graph1.hasEdge (g : Graph1) (a b : Int) : Bool :=
  decide ((min a b, max a b) ∈ g.edges)

/-- `Graph1.addVertex`: unconditional append. -/
def Graph1.addVertex (g : Graph1) (a : Int) : Graph1 :=
  ⟨g.vertices ++ [a], g.edges⟩

/-- `Graph1.addVertexCleanly`: append only when absent; returns the flag. -/
def Graph1.addVertexCleanly (g : Graph1) (a : Int) : Graph1 × Bool :=
  if a ∈ g.vertices then (g, false) else (⟨g.vertices ++ [a], g.edges⟩, true)

/-- `Graph1.deleteVertex`: remove one occurrence of the vertex and drop every
incident edge; silently does nothing when the vertex is absent. -/
def Graph1.deleteVertex (g : Graph1) (a : Int) : Graph1 :=
  if a ∈ g.vertices then
    ⟨g.vertices.erase a, g.edges.filter (fun e => decide (¬(a = e.1 ∨ a = e.2)))⟩
  else g

/-- `Graph1.addEdge`: add the normalized pair unless present, appending any
missing endpoint to the vertex list; returns true iff the edge was added. -/
def Graph1.addEdge (g : Graph1) (a b : Int) : Graph1 × Bool :=
  if g.hasEdge a b then (g, false)
  else if a ∈ g.vertices ∧ b ∈ g.vertices then
    (⟨g.vertices, g.edges ++ [(min a b, max a b)]⟩, true)
  else if a ∈ g.vertices then
    (⟨g.vertices ++ [b], g.edges ++ [(min a b, max a b)]⟩, true)
  else if b ∈ g.vertices then
    (⟨g.vertices ++ [a], g.edges ++ [(min a b, max a b)]⟩, true)
  else
    (⟨g.vertices ++ [a, b], g.edges ++ [(min a b, max a b)]⟩, true)

/-- `Graph1.addEdges`. -/
def Graph1.addEdges (g : Graph1) (es : List (Int × Int)) : Graph1 :=
  es.foldl (fun h e => (h.addEdge e.1 e.2).1) g

/-- `Graph1.deleteEdge`: remove the first occurrence of the normalized pair;
the ValueError of an absent edge is caught, so this never fails. -/
def Graph1.deleteEdge (g : Graph1) (a b : Int) : Graph1 :=
  ⟨g.vertices, g.edges.erase (min a b, max a b)⟩

/-- `Graph1.degree`: the number of stored edges having the vertex as an
endpoint. -/
def Graph1.degree (g : Graph1) (v : Int) : Nat :=
  (g.edges.filter (fun e => decide (v = e.1 ∨ v = e.2))).length

/-- `Graph1.degreeFn`: the dict of vertex/degree pairs (dict keys are the
distinct vertices, first occurrence first). -/
def Graph1.degreeFn (g : Graph1) : List (Int × Nat) :=
  (dedupFirst g.vertices).map (fun v => (v, g.degree v))

/-! ## Graph2: the adjacency-dictionary representation -/

/-- The backing store of Graph2: a dict from vertex to neighbor list. -/
abbrev Adj := List (Int × List Int)

/-- The dict built by `Graph2.__init__` before edges are inserted:
`dict([(v, []) for v in vertices])`. -/
def graph2InitVerts (vs : List Int) : Adj :=
  vs.foldl (fun d v => aput d v []) []

/-- One directed insertion `self.graph[a].append(b)`; a missing key raises
KeyError, modelled as none. -/
def graph2AddArc (d : Adj) (a b : Int) : Option Adj :=
  match alook d a with
  | none => none
  | some ns => some (aput d a (ns ++ [b]))

/-- The edge loop of `Graph2.__init__`: each edge appends both directions. -/
def graph2InsEdges : Adj → List (Int × Int) → Option Adj
  | d, [] => some d
  | d, e :: es =>
    match graph2AddArc d e.1 e.2 with
    | none => none
    | some d₁ =>
      match graph2AddArc d₁ e.2 e.1 with
      | none => none
      | some d₂ => graph2InsEdges d₂ es

/-- `Graph2.__init__`: build the vertex dict, then insert the edges; an edge
endpoint that is not a vertex raises KeyError (none). -/
def mkGraph2 (vs : List Int) (es : List (Int × Int)) : Option Adj :=
  graph2InsEdges (graph2InitVerts vs) es

/-- `Graph2.hasVertex`. -/
def Graph2.hasVertex (d : Adj) (a : Int) : Bool := (alook d a).isSome

/-- The neighbor list of a vertex (empty for a missing key); used only where
the Python code has already checked the key. -/
def Graph2.adj (d : Adj) (a : Int) : List Int := (alook d a).getD []

/-- `Graph2.hasEdge`: `a in self.graph and b in self.graph[a]`. -/
def Graph2.hasEdge (d : Adj) (a b : Int) : Bool :=
  match alook d a with
  | none => false
  | some ns => decide (b ∈ ns)

/-- `Graph2.vertices`: the key list. -/
def Graph2.vertices (d : Adj) : List Int := akeys d

/-- `Graph2.edges`: the derived edge list, one pair (u, v) with u < v per
adjacency entry. -/
def Graph2.edges (d : Adj) : List (Int × Int) :=
  d.flatMap (fun p => ((p.2.filter (fun v => decide (p.1 < v))).map (fun v => (p.1, v))))

/-- `Graph2.addVertex`: unconditional `self.graph[a] = []`, wiping any
existing adjacency list. -/
def Graph2.addVertex (d : Adj) (a : Int) : Adj := aput d a []

/-- `Graph2.addVertexCleanly`. -/
def Graph2.addVertexCleanly (d : Adj) (a : Int) : Adj × Bool :=
  if (alook d a).isSome then (d, false) else (aput d a [], true)

/-- `Graph2.addEdge`: four branches depending on which endpoints are already
keys; both directions are appended (sequentially, so a loop edge appends to
the same list twice). -/
def Graph2.addEdge (d : Adj) (a b : Int) : Adj × Bool :=
  if Graph2.hasEdge d a b then (d, false)
  else
    match alook d a, alook d b with
    | some na, some _ =>
      let d₁ := aput d a (na ++ [b])
      (aput d₁ b ((alook d₁ b).getD [] ++ [a]), true)
    | some na, none =>
      (aput (aput d a (na ++ [b])) b [a], true)
    | none, some _ =>
      let d₁ := aput d a [b]
      (aput d₁ b ((alook d₁ b).getD [] ++ [a]), true)
    | none, none =>
      (aput (aput d a [b]) b [a], true)

/-- `Graph2.addEdges`. -/
def Graph2.addEdges (d : Adj) (es : List (Int × Int)) : Adj :=
  es.foldl (fun h e => (Graph2.addEdge h e.1 e.2).1) d

/-- `Graph2.deleteEdge`.  `self.graph[a]` with `a` not a key raises KeyError,
which the method does not catch (none); a ValueError from `list.remove` is
caught and leaves the remaining state as is. -/
def Graph2.deleteEdge (d : Adj) (a b : Int) : Option Adj :=
  match alook d a with
  | none => none
  | some na =>
    if b ∈ na then
      let d₁ := aput d a (na.erase b)
      match alook d₁ b with
      | none => none
      | some nb => if a ∈ nb then some (aput d₁ b (nb.erase a)) else some d₁
    else some d

/-- The strip loop of `Graph2.deleteVertex`: remove the deleted vertex from
each former neighbor's list.  A KeyError (neighbor no longer a key) is caught
by the surrounding handler and silently aborts the loop; a ValueError from
`list.remove` is not caught and the call fails (none). -/
def Graph2.stripFrom (a : Int) : Adj → List Int → Option Adj
  | d, [] => some d
  | d, x :: xs =>
    match alook d x with
    | none => some d
    | some nx =>
      if a ∈ nx then Graph2.stripFrom a (aput d x (nx.erase a)) xs
      else none

/-- `Graph2.deleteVertex`: no-op when the vertex is absent; otherwise delete
the key and strip the vertex from its former neighbors' lists. -/
def Graph2.deleteVertex (d : Adj) (a : Int) : Option Adj :=
  match alook d a with
  | none => some d
  | some ns => Graph2.stripFrom a (adel d a) ns

/-- `Graph2.degree`: the length of the neighbor list; a missing key raises
KeyError (none). -/
def Graph2.degree (d : Adj) (v : Int) : Option Nat :=
  (alook d v).map List.length

/-- `Graph2.degreeFn`. -/
def Graph2.degreeFn (d : Adj) : List (Int × Nat) :=
  d.map (fun p => (p.1, p.2.length))

/-! ## Factory methods (GraphObject classmethods) -/

/-- Python `range(n)` for an int argument: empty when n is nonpositive. -/
def intRange (n : Int) : List Int := (List.range n.toNat).map Nat.cast

/-- The (vertices, edges) data built by `GraphObject.cycle(length)`:
`range(length)` vertices and edges `(i, i+1)` for i in `range(length - 1)`
plus the closing pair `(0, length - 1)`, which is appended unconditionally. -/
def cycleData (len : Int) : List Int × List (Int × Int) :=
  (intRange len, (intRange (len - 1)).map (fun i => (i, i + 1)) ++ [(0, len - 1)])

/-- `Graph1.cycle`. -/
def Graph1.cycle (len : Int) : Graph1 :=
  Graph1.mk1 (cycleData len).1 (cycleData len).2

/-- `GraphObject.collapseEdge` instantiated at Graph1.  When the edge is
present the vertex list loses one occurrence of b (`list.remove` raises an
uncaught ValueError when b is not a vertex, modelled as none) and the three
comprehensions rebuild the edge list; otherwise the original graph is
returned unchanged. -/
def Graph1.collapseEdge (g : Graph1) (a b : Int) : Option Graph1 :=
  if g.hasEdge a b then
    if b ∈ g.vertices then
      some (Graph1.mk1 (g.vertices.erase b)
        ((g.edges.filter (fun e => decide (¬(e.1 = b ∨ e.2 = b)))) ++
         ((g.edges.filter (fun e => decide (e.1 ≠ a ∧ e.2 = b))).map (fun e => (e.1, a))) ++
         ((g.edges.filter (fun e => decide (e.1 = b ∧ a ≠ e.2))).map (fun e => (a, e.2)))))
    else none
  else some g

/-! ## fromFile: text import

Lines are modelled as character lists.  A missing or unreadable file is the
`none` input (the IOError branch).  Inside the loop, `int()` applied to a
non-integer token raises an uncaught ValueError, so the whole call fails. -/

/-- The whitespace characters stripped by Python `str.strip()` and by
`int()`. -/
def isPySpace (c : Char) : Bool :=
  c = ' ' || c = '\t' || c = '\n' || c = '\r' || c = '\x0b' || c = '\x0c'

/-- Python `str.strip()`. -/
def pyStrip (l : List Char) : List Char :=
  ((l.dropWhile isPySpace).reverse.dropWhile isPySpace).reverse

/-- Python `str.split(" ")`: split on every single space character; empty
tokens are kept. -/
def pySplitSp : List Char → List (List Char)
  | [] => [[]]
  | c :: cs =>
    if c = ' ' then [] :: pySplitSp cs
    else
      match pySplitSp cs with
      | [] => [[c]]
      | t :: ts => (c :: t) :: ts

/-- Digit accumulation for `int()`: none as soon as a non-digit appears. -/
def pyDigits (l : List Char) : Option Nat :=
  l.foldl
    (fun acc c =>
      match acc with
      | none => none
      | some n => if c.isDigit then some (n * 10 + (c.toNat - 48)) else none)
    (some 0)

/-- Python `int(token)`: strip whitespace, allow one optional sign, then
require a nonempty run of digits; anything else raises (none). -/
def pyInt (l : List Char) : Option Int :=
  match pyStrip l with
  | [] => none
  | '+' :: rest => if rest = [] then none else (pyDigits rest).map Int.ofNat
  | '-' :: rest => if rest = [] then none else (pyDigits rest).map (fun n => -(n : Int))
  | c :: rest => (pyDigits (c :: rest)).map Int.ofNat

/-- Insertion into the vertex set accumulated by `fromFile` (a Python set;
only membership matters, modelled as append-if-absent). -/
def vertsAdd (vs : List Int) (a : Int) : List Int :=
  if a ∈ vs then vs else vs ++ [a]

/-- The line loop of `GraphObject.fromFile`: a stripped line splitting into
exactly two tokens is parsed with `int()` (failure aborts the whole call);
every other line is skipped. -/
def fromFileLoop : List (List Char) → List Int → List (Int × Int) →
    Option (List Int × List (Int × Int))
  | [], vs, es => some (vs, es)
  | l :: ls, vs, es =>
    match pySplitSp (pyStrip l) with
    | [s, t] =>
      match pyInt s, pyInt t with
      | some a, some b => fromFileLoop ls (vertsAdd (vertsAdd vs a) b) (es ++ [(a, b)])
      | _, _ => none
    | _ => fromFileLoop ls vs es

/-- `Graph1.fromFile`: an unreadable file (IOError) yields the empty graph;
otherwise the parsed vertex set and edge list feed the constructor. -/
def Graph1.fromFile (file : Option (List (List Char))) : Option Graph1 :=
  match file with
  | none => some (Graph1.mk1 [] [])
  | some lines => (fromFileLoop lines [] []).map (fun p => Graph1.mk1 p.1 p.2)

/-- The pair contributed by one line, as §6 of the spec describes it: a line
whose stripped form splits into exactly two integer tokens. -/
def parsedLine (l : List Char) : Option (Int × Int) :=
  match pySplitSp (pyStrip l) with
  | [s, t] =>
    match pyInt s, pyInt t with
    | some a, some b => some (a, b)
    | _, _ => none
  | _ => none

/-- All pairs contributed by a line list. -/
def parsedPairs (lines : List (List Char)) : List (Int × Int) :=
  lines.filterMap parsedLine

/-- A line the import loop survives: if it splits into exactly two tokens,
both tokens parse as integers. -/
def goodLine (l : List Char) : Bool :=
  match pySplitSp (pyStrip l) with
  | [s, t] => (pyInt s).isSome && (pyInt t).isSome
  | _ => true

/-! ## Connectivity algorithms

`buckets` is modelled as a total relabelling function on Int; the Python
dict holds exactly its restriction to the vertex list, and every lookup the
code performs is at a vertex (the KeyError-freedom assumed by the
algorithms' precondition that edge endpoints are vertices). -/

/-- A labelling of vertices by component representatives. -/
abbrev Lbl := Int → Int

/-- The inner relabelling of `isConnected1` (Graph1): every vertex carrying
the second endpoint's label moves to the first endpoint's label. -/
def remapOne (b : Lbl) (src tgt : Int) : Lbl :=
  fun x => if b x = src then tgt else b x

/-- One full scan of the edge list in `Graph1.isConnected1`. -/
def passMerge : List (Int × Int) → Lbl → Bool → Lbl × Bool
  | [], b, ch => (b, ch)
  | e :: es, b, ch =>
    if b e.1 = b e.2 then passMerge es b ch
    else passMerge es (remapOne b (b e.2) (b e.1)) true

/-- The `while change` loop of `Graph1.isConnected1`, fuel-indexed. -/
def loopMerge : Nat → List (Int × Int) → Lbl → Option Lbl
  | 0, _, _ => none
  | fuel + 1, es, b =>
    match passMerge es b false with
    | (b₂, true) => loopMerge fuel es b₂
    | (b₂, false) => some b₂

/-- `len(set(buckets.values())) `: the number of distinct labels carried by
the vertices. -/
def distinctCount (b : Lbl) (vs : List Int) : Nat := (vs.map b).dedup.length

/-- `Graph1.isConnected1`: direct partition merge. -/
def Graph1.isConnected1 (g : Graph1) : Option Bool :=
  (loopMerge 3 g.edges (fun v => v)).map (fun b => decide (distinctCount b g.vertices = 1))

/-- The batch relabelling of `Graph2.isConnected1`: every vertex whose label
lies in the collected set moves to the scanned vertex's label. -/
def remapSet (b : Lbl) (srcs : List Int) (tgt : Int) : Lbl :=
  fun x => if b x ∈ srcs then tgt else b x

/-- One full scan over the vertices in `Graph2.isConnected1`: for each
vertex u, collect the differing labels of u's neighbors and merge them all
into u's label. -/
def passMerge2 (adj : Int → List Int) : List Int → Lbl → Bool → Lbl × Bool
  | [], b, ch => (b, ch)
  | u :: us, b, ch =>
    match ((adj u).filter (fun v => decide (b u ≠ b v))).map b with
    | [] => passMerge2 adj us b ch
    | nc => passMerge2 adj us (remapSet b nc (b u)) true

/-- The `while change` loop of `Graph2.isConnected1`, fuel-indexed. -/
def loopMerge2 : Nat → (Int → List Int) → List Int → Lbl → Option Lbl
  | 0, _, _, _ => none
  | fuel + 1, adj, us, b =>
    match passMerge2 adj us b false with
    | (b₂, true) => loopMerge2 fuel adj us b₂
    | (b₂, false) => some b₂

/-- `Graph2.isConnected1`. -/
def Graph2.isConnected1 (d : Adj) : Option Bool :=
  (loopMerge2 3 (Graph2.adj d) (akeys d) (fun v => v)).map
    (fun b => decide (distinctCount b (akeys d) = 1))

/-- The recursive `find` with path compression, fuel-indexed: follow parent
links to the root and redirect each visited vertex to the root on the way
back. -/
def ufFind : Nat → Lbl → Int → Option (Int × Lbl)
  | 0, _, _ => none
  | fuel + 1, b, v =>
    if b v = v then some (v, b)
    else
      match ufFind fuel b (b v) with
      | none => none
      | some (r, b₂) => some (r, fun x => if x = v then r else b₂ x)

/-- The union-find loop state: the parent map, the running distinct-root
count, and the change flag of the current scan. -/
structure UFSt where
  par : Lbl
  cnt : Int
  ch : Bool

/-- One scan over a list of vertex pairs in `isConnected2`: find both roots
and union them when they differ, decrementing the counter. -/
def ufProcess (fuel : Nat) : List (Int × Int) → UFSt → Option UFSt
  | [], st => some st
  | e :: es, st =>
    match ufFind fuel st.par e.1 with
    | none => none
    | some (fu, b₁) =>
      match ufFind fuel b₁ e.2 with
      | none => none
      | some (fv, b₂) =>
        if fu = fv then ufProcess fuel es ⟨b₂, st.cnt, st.ch⟩
        else ufProcess fuel es ⟨fun x => if x = fv then fu else b₂ x, st.cnt - 1, true⟩

/-- The `while change` loop of `isConnected2`, fuel-indexed. -/
def ufLoop : Nat → Nat → List (Int × Int) → UFSt → Option UFSt
  | 0, _, _, _ => none
  | fuel + 1, ffuel, es, st =>
    match ufProcess ffuel es ⟨st.par, st.cnt, false⟩ with
    | none => none
    | some st₂ => if st₂.ch then ufLoop fuel ffuel es st₂ else some st₂

/-- `Graph1.isConnected2`: union-find with path compression; the counter
starts at `len(self.vertices)` (duplicates included). -/
def Graph1.isConnected2 (g : Graph1) : Option Bool :=
  (ufLoop 3 (g.vertices.length + 1) g.edges
      ⟨fun v => v, (g.vertices.length : Int), false⟩).map
    (fun st => decide (st.cnt = 1))

/-- The (u, v) pairs scanned by `Graph2.isConnected2`: every vertex paired
with each entry of its neighbor list, in dictionary order. -/
def Graph2.arcs (d : Adj) : List (Int × Int) :=
  d.flatMap (fun p => p.2.map (fun v => (p.1, v)))

/-- `Graph2.isConnected2`: union-find over the adjacency scan; the counter
starts at `len(self.graph)`. -/
def Graph2.isConnected2 (d : Adj) : Option Bool :=
  (ufLoop 3 ((akeys d).length + 1) (Graph2.arcs d)
      ⟨fun v => v, ((akeys d).length : Int), false⟩).map
    (fun st => decide (st.cnt = 1))

/-! ## Call sequences on a Graph2 instance (for the adjacency invariant) -/

/-- The multiplicity of y in x's neighbor list (0 when x is not a key). -/
def countAdj (d : Adj) (x y : Int) : Nat := ((alook d x).getD []).count y

/-- The mutating Graph2 calls quantified over by the symmetry invariant. -/
inductive G2Op where
  | addVC : Int → G2Op
  | addE : Int → Int → G2Op
  | addEs : List (Int × Int) → G2Op
  | delV : Int → G2Op
  | delE : Int → Int → G2Op
deriving DecidableEq

/-- One call; none when the call raises. -/
def Graph2.step (d : Adj) : G2Op → Option Adj
  | G2Op.addVC a => some (Graph2.addVertexCleanly d a).1
  | G2Op.addE a b => some (Graph2.addEdge d a b).1
  | G2Op.addEs es => some (Graph2.addEdges d es)
  | G2Op.delV a => Graph2.deleteVertex d a
  | G2Op.delE a b => Graph2.deleteEdge d a b

/-- A call sequence; a raised exception aborts it. -/
def Graph2.run : Adj → List G2Op → Option Adj
  | d, [] => some d
  | d, op :: ops =>
    match Graph2.step d op with
    | none => none
    | some d₁ => Graph2.run d₁ ops

/-- The call introduces no self-loop edge. -/
def G2Op.noLoop : G2Op → Bool
  | G2Op.addE a b => decide (a ≠ b)
  | G2Op.addEs es => es.all (fun e => decide (e.1 ≠ e.2))
  | _ => true

/-! ## Graph semantics: adjacency, reachability, connectedness -/

/-- Two vertices joined by a stored edge in either orientation. -/
def adjRel (es : List (Int × Int)) (x y : Int) : Prop :=
  (x, y) ∈ es ∨ (y, x) ∈ es

/-- Reachability: the reflexive-transitive closure of adjacency. -/
def Reach (es : List (Int × Int)) : Int → Int → Prop :=
  Relation.ReflTransGen (adjRel es)

/-- The connectivity both algorithms decide: a nonempty vertex list all of
whose members reach each other. -/
def ConnSpec (vs : List Int) (es : List (Int × Int)) : Prop :=
  vs ≠ [] ∧ ∀ x ∈ vs, ∀ y ∈ vs, Reach es x y

/-- Every edge endpoint appears among the vertices. -/
def edgeClosed (es : List (Int × Int)) (vs : List Int) : Prop :=
  ∀ e ∈ es, e.1 ∈ vs ∧ e.2 ∈ vs

instance (es : List (Int × Int)) (vs : List Int) : Decidable (edgeClosed es vs) :=
  inferInstanceAs (Decidable (∀ e ∈ es, e.1 ∈ vs ∧ e.2 ∈ vs))

/-- The Graph2 soft invariant: every neighbor is a key. -/
def Graph2.closed (d : Adj) : Prop :=
  ∀ p ∈ d, ∀ v ∈ p.2, v ∈ akeys d

instance (d : Adj) : Decidable (Graph2.closed d) :=
  inferInstanceAs (Decidable (∀ p ∈ d, ∀ v ∈ p.2, v ∈ akeys d))

/-- The Graph2 well-formedness package carried by the symmetry claim:
duplicate-free keys, every neighbor a key, symmetric adjacency
multiplicities, and no self-loop arcs. -/
structure G2Inv (d : Adj) : Prop where
  nodup : (akeys d).Nodup
  closed : Graph2.closed d
  symm : ∀ x y : Int, countAdj d x y = countAdj d y x
  noloop : ∀ x : Int, countAdj d x x = 0

/-! ## Union-find semantics -/

/-- A root of the parent map. -/
def IsRoot (b : Lbl) (r : Int) : Prop := b r = r

/-- The parent chain from x eventually reaches a root. -/
def Terminates (b : Lbl) (x : Int) : Prop := ∃ n, IsRoot b (b^[n] x)

/-- r is the root reached from x. -/
def RootedAt (b : Lbl) (x r : Int) : Prop := (∃ n, b^[n] x = r) ∧ IsRoot b r

/-- Two vertices currently in the same union-find class. -/
def SameRoot (b : Lbl) (x y : Int) : Prop :=
  ∃ r, RootedAt b x r ∧ RootedAt b y r

/-- The union-find invariant over vertex list vs and semantic edge list es:
parents stay inside vs, every vertex reaches its parent in the graph, and
every parent chain terminates. -/
structure UFInv (vs : List Int) (es : List (Int × Int)) (b : Lbl) : Prop where
  close : ∀ x ∈ vs, b x ∈ vs
  reach : ∀ x ∈ vs, Reach es x (b x)
  term : ∀ x ∈ vs, Terminates b x

/-- The number of current union-find roots among the vertices. -/
def rootCount (b : Lbl) (vs : List Int) : Nat :=
  (vs.filter (fun v => decide (b v = v))).length

/-! ## Statement helpers for collapseEdge -/

/-- Rewiring of a single endpoint by the collapse b into a. -/
def renTo (b a t : Int) : Int := if t = b then a else t

/-- Unordered equality of the pairs (p₁, p₂) and (q₁, q₂). -/
def uEq (p₁ p₂ q₁ q₂ : Int) : Bool :=
  decide ((p₁ = q₁ ∧ p₂ = q₂) ∨ (p₁ = q₂ ∧ p₂ = q₁))

/-! ## Heap model

Graph objects hold references to mutable list/dict cells; the Python-level
aliasing behavior of `copy` is only visible at this level.  Cells are store
indices; reading an unallocated cell never happens in the verified runs. -/

/-- The store: int-list cells, pair-list cells, and dict cells (a Graph2
dict maps each vertex to the index of its neighbor-list cell). -/
structure St where
  ilists : List (List Int)
  plists : List (List (Int × Int))
  dicts : List (List (Int × Nat))
deriving DecidableEq

/-- The empty store. -/
def St.mt : St := ⟨[], [], []⟩

/-- Read an int-list cell. -/
def readI (s : St) (i : Nat) : List Int := s.ilists.getD i []

/-- Overwrite an int-list cell. -/
def writeI (s : St) (i : Nat) (l : List Int) : St :=
  { s with ilists := s.ilists.set i l }

/-- Allocate a fresh int-list cell. -/
def allocI (s : St) (l : List Int) : Nat × St :=
  (s.ilists.length, { s with ilists := s.ilists ++ [l] })

/-- Read a pair-list cell. -/
def readP (s : St) (i : Nat) : List (Int × Int) := s.plists.getD i []

/-- Overwrite a pair-list cell. -/
def writeP (s : St) (i : Nat) (l : List (Int × Int)) : St :=
  { s with plists := s.plists.set i l }

/-- Allocate a fresh pair-list cell. -/
def allocP (s : St) (l : List (Int × Int)) : Nat × St :=
  (s.plists.length, { s with plists := s.plists ++ [l] })

/-- Read a dict cell. -/
def readD (s : St) (j : Nat) : List (Int × Nat) := s.dicts.getD j []

/-- Overwrite a dict cell. -/
def writeD (s : St) (j : Nat) (d : List (Int × Nat)) : St :=
  { s with dicts := s.dicts.set j d }

/-- Allocate a fresh dict cell. -/
def allocD (s : St) (d : List (Int × Nat)) : Nat × St :=
  (s.dicts.length, { s with dicts := s.dicts ++ [d] })

/-- A Graph1 object: a reference to its vertex list and to its edge list. -/
structure G1 where
  vref : Nat
  eref : Nat
deriving DecidableEq

/-- A Graph2 object: a reference to its dict. -/
structure G2 where
  dref : Nat
deriving DecidableEq

/-- `Graph1.__init__` at the heap level: the vertex list OBJECT passed in is
stored as is (`self.vertices = vertices`), while the edge comprehension
builds a fresh list. -/
def hg1Init (vref : Nat) (es : List (Int × Int)) (s : St) : G1 × St :=
  match allocP s (es.map normPair) with
  | (e, s₁) => (⟨vref, e⟩, s₁)

/-- A caller-side construction `Graph1(vs, es)` from fresh list literals. -/
def hg1New (vs : List Int) (es : List (Int × Int)) (s : St) : G1 × St :=
  match allocI s vs with
  | (v, s₁) => hg1Init v es s₁

/-- The vertex view of a heap Graph1. -/
def hg1Vertices (g : G1) (s : St) : List Int := readI s g.vref

/-- The edge view of a heap Graph1. -/
def hg1Edges (g : G1) (s : St) : List (Int × Int) := readP s g.eref

/-- `Graph1.copy`: `Graph1(self.vertices, self.edges)` — the vertex list
object is passed through to the constructor, the edges are re-read. -/
def hg1Copy (g : G1) (s : St) : G1 × St := hg1Init g.vref (hg1Edges g s) s

/-- `Graph1.addVertex` at the heap level: append to the vertex cell. -/
def hg1AddVertex (g : G1) (a : Int) (s : St) : St :=
  writeI s g.vref (readI s g.vref ++ [a])

/-- `Graph1.deleteVertex` at the heap level: remove from the vertex cell and
rebind `self.edges` to a freshly built filtered list. -/
def hg1DeleteVertex (g : G1) (a : Int) (s : St) : G1 × St :=
  if a ∈ readI s g.vref then
    match writeI s g.vref ((readI s g.vref).erase a) with
    | s₁ =>
      match allocP s₁ ((readP s₁ g.eref).filter (fun e => decide (¬(a = e.1 ∨ a = e.2)))) with
      | (e, s₂) => (⟨g.vref, e⟩, s₂)
  else (g, s)

/-- `Graph1.addEdge` at the heap level: append missing endpoints to the
vertex cell, then append the normalized pair to the edge cell. -/
def hg1AddEdge (g : G1) (a b : Int) (s : St) : St :=
  if (min a b, max a b) ∈ readP s g.eref then s
  else
    match
      (if a ∈ readI s g.vref ∧ b ∈ readI s g.vref then s
       else if a ∈ readI s g.vref then writeI s g.vref (readI s g.vref ++ [b])
       else if b ∈ readI s g.vref then writeI s g.vref (readI s g.vref ++ [a])
       else writeI s g.vref (readI s g.vref ++ [a, b])) with
    | s₁ => writeP s₁ g.eref (readP s₁ g.eref ++ [(min a b, max a b)])

/-- `Graph1.deleteEdge` at the heap level. -/
def hg1DeleteEdge (g : G1) (a b : Int) (s : St) : St :=
  writeP s g.eref ((readP s g.eref).erase (min a b, max a b))

/-- The key-allocation loop of `Graph2.__init__`: one fresh empty
neighbor-list cell per vertex. -/
def hg2AllocKeys : List Int → List (Int × Nat) → St → (List (Int × Nat)) × St
  | [], d, s => (d, s)
  | v :: vs, d, s =>
    match allocI s [] with
    | (i, s₁) => hg2AllocKeys vs (aput d v i) s₁

/-- `self.graph[a].append(b)` at the heap level. -/
def hg2ArcIns (d : List (Int × Nat)) (a b : Int) (s : St) : Option St :=
  match alook d a with
  | none => none
  | some i => some (writeI s i (readI s i ++ [b]))

/-- The edge loop of `Graph2.__init__` at the heap level. -/
def hg2InsEdges (d : List (Int × Nat)) : List (Int × Int) → St → Option St
  | [], s => some s
  | e :: es, s =>
    match hg2ArcIns d e.1 e.2 s with
    | none => none
    | some s₁ =>
      match hg2ArcIns d e.2 e.1 s₁ with
      | none => none
      | some s₂ => hg2InsEdges d es s₂

/-- `Graph2.__init__` at the heap level. -/
def hg2Init (vs : List Int) (es : List (Int × Int)) (s : St) : Option (G2 × St) :=
  match hg2AllocKeys vs [] s with
  | (d, s₁) =>
    match hg2InsEdges d es s₁ with
    | none => none
    | some s₂ =>
      match allocD s₂ d with
      | (j, s₃) => some (⟨j⟩, s₃)

/-- The dict of a heap Graph2. -/
def hg2Dict (g : G2) (s : St) : List (Int × Nat) := readD s g.dref

/-- The vertex view (`self.graph.keys()`, a fresh list of the keys). -/
def hg2Vertices (g : G2) (s : St) : List Int := (hg2Dict g s).map Prod.fst

/-- The neighbor list of one vertex, by reading its cell. -/
def hg2AdjOf (g : G2) (s : St) (a : Int) : List Int :=
  match alook (hg2Dict g s) a with
  | none => []
  | some i => readI s i

/-- The edge view (the `edges` property) of a heap Graph2. -/
def hg2Edges (g : G2) (s : St) : List (Int × Int) :=
  (hg2Dict g s).flatMap
    (fun p => ((readI s p.2).filter (fun v => decide (p.1 < v))).map (fun v => (p.1, v)))

/-- `Graph2.copy`: reconstruct from the computed vertex and edge views. -/
def hg2Copy (g : G2) (s : St) : Option (G2 × St) :=
  hg2Init (hg2Vertices g s) (hg2Edges g s) s

/-- `Graph2.addVertex` at the heap level: bind the key to a fresh empty
cell. -/
def hg2AddVertex (g : G2) (a : Int) (s : St) : St :=
  match allocI s [] with
  | (i, s₁) => writeD s₁ g.dref (aput (readD s₁ g.dref) a i)

/-- `Graph2.addVertexCleanly` at the heap level. -/
def hg2AddVertexCleanly (g : G2) (a : Int) (s : St) : St :=
  if (alook (hg2Dict g s) a).isSome then s else hg2AddVertex g a s

/-- `Graph2.hasEdge` at the heap level. -/
def hg2HasEdge (g : G2) (a b : Int) (s : St) : Bool :=
  match alook (hg2Dict g s) a with
  | none => false
  | some i => decide (b ∈ readI s i)

/-- `Graph2.addEdge` at the heap level. -/
def hg2AddEdge (g : G2) (a b : Int) (s : St) : St :=
  if hg2HasEdge g a b s then s
  else
    match alook (hg2Dict g s) a, alook (hg2Dict g s) b with
    | some i, some _ =>
      match writeI s i (readI s i ++ [b]) with
      | s₁ =>
        match alook (hg2Dict g s₁) b with
        | some j => writeI s₁ j (readI s₁ j ++ [a])
        | none => s₁
    | some i, none =>
      match writeI s i (readI s i ++ [b]) with
      | s₁ =>
        match allocI s₁ [a] with
        | (j, s₂) => writeD s₂ g.dref (aput (readD s₂ g.dref) b j)
    | none, some j =>
      match allocI s [b] with
      | (i, s₁) =>
        match writeD s₁ g.dref (aput (readD s₁ g.dref) a i) with
        | s₂ => writeI s₂ j (readI s₂ j ++ [a])
    | none, none =>
      match allocI s [b] with
      | (i, s₁) =>
        match writeD s₁ g.dref (aput (readD s₁ g.dref) a i) with
        | s₂ =>
          match allocI s₂ [a] with
          | (j, s₃) => writeD s₃ g.dref (aput (readD s₃ g.dref) b j)

/-- `Graph2.deleteEdge` at the heap level (none = uncaught KeyError). -/
def hg2DeleteEdge (g : G2) (a b : Int) (s : St) : Option St :=
  match alook (hg2Dict g s) a with
  | none => none
  | some i =>
    if b ∈ readI s i then
      match writeI s i ((readI s i).erase b) with
      | s₁ =>
        match alook (hg2Dict g s₁) b with
        | none => none
        | some j =>
          if a ∈ readI s₁ j then some (writeI s₁ j ((readI s₁ j).erase a)) else some s₁
    else some s

/-- The strip loop of `Graph2.deleteVertex` at the heap level. -/
def hg2StripGo (g : G2) (a : Int) : List Int → St → Option St
  | [], s => some s
  | x :: xs, s =>
    match alook (hg2Dict g s) x with
    | none => some s
    | some j =>
      if a ∈ readI s j then hg2StripGo g a xs (writeI s j ((readI s j).erase a))
      else none

/-- `Graph2.deleteVertex` at the heap level. -/
def hg2DeleteVertex (g : G2) (a : Int) (s : St) : Option St :=
  match alook (hg2Dict g s) a with
  | none => some s
  | some i =>
    match writeD s g.dref (adel (readD s g.dref) a) with
    | s₁ => hg2StripGo g a (readI s i) s₁

/-- The mutating calls available on a heap Graph2 instance. -/
inductive HOp where
  | addV : Int → HOp
  | addVC : Int → HOp
  | addE : Int → Int → HOp
  | addEs : List (Int × Int) → HOp
  | delV : Int → HOp
  | delE : Int → Int → HOp
deriving DecidableEq

/-- One heap-level call on a Graph2 instance. -/
def hg2Step (g : G2) (s : St) : HOp → Option St
  | HOp.addV a => some (hg2AddVertex g a s)
  | HOp.addVC a => some (hg2AddVertexCleanly g a s)
  | HOp.addE a b => some (hg2AddEdge g a b s)
  | HOp.addEs es => some (es.foldl (fun t e => hg2AddEdge g e.1 e.2 t) s)
  | HOp.delV a => hg2DeleteVertex g a s
  | HOp.delE a b => hg2DeleteEdge g a b s

/-- A heap-level call sequence on a Graph2 instance. -/
def hg2Run (g : G2) : List HOp → St → Option St
  | [], s => some s
  | op :: ops, s =>
    match hg2Step g s op with
    | none => none
    | some s₁ => hg2Run g ops s₁

/-- The list-cell footprint of a heap Graph2: the cells its dict points to. -/
def hg2Fp (g : G2) (s : St) : List Nat := (hg2Dict g s).map Prod.snd

/-- Well-formed references of a heap Graph2: the dict cell and every
neighbor cell are allocated. -/
def hg2Valid (g : G2) (s : St) : Prop :=
  g.dref < s.dicts.length ∧ ∀ i ∈ hg2Fp g s, i < s.ilists.length

/-- Two heap Graph2 instances sharing no mutable cell. -/
def hg2Disj (g h : G2) (s : St) : Prop :=
  g.dref ≠ h.dref ∧ ∀ i ∈ hg2Fp g s, i ∉ hg2Fp h s

/-- A state change that leaves a heap Graph2 untouched: its dict cell reads
the same and so does every neighbor cell it points to. -/
def hg2Frame (g : G2) (s s' : St) : Prop :=
  hg2Dict g s' = hg2Dict g s ∧ ∀ i ∈ hg2Fp g s, readI s' i = readI s i

/-- Graph1 heap references point into the store. -/
def hg1Valid (g : G1) (s : St) : Prop :=
  g.vref < s.ilists.length ∧ g.eref < s.plists.length

/-- One mutation on the heap Graph2 c, seen from a disjoint g: g's cells are
untouched, the store only grows, and c's footprint gains only fresh cells. -/
def hg2StepOk (c g : G2) (s s' : St) : Prop :=
  hg2Frame g s s' ∧ s.ilists.length ≤ s'.ilists.length ∧
  s.dicts.length ≤ s'.dicts.length ∧
  ∀ i ∈ hg2Fp c s', i ∈ hg2Fp c s ∨ (s.ilists.length ≤ i ∧ i < s'.ilists.length)

instance (g : G2) (s : St) : Decidable (hg2Valid g s) :=
  inferInstanceAs (Decidable (g.dref < s.dicts.length ∧
    ∀ i ∈ hg2Fp g s, i < s.ilists.length))

instance (g : G1) (s : St) : Decidable (hg1Valid g s) :=
  inferInstanceAs (Decidable (g.vref < s.ilists.length ∧
    g.eref < s.plists.length))

/-- The bindings produced by a run of consecutive fresh allocations: each
key paired with the next cell index, starting at n. -/
def idxFrom : List Int → Nat → List (Int × Nat)
  | [], _ => []
  | v :: vs, n => (v, n) :: idxFrom vs (n + 1)

/-! # Theorems -/

/-! ## Basic arithmetic and list helpers -/

theorem mem_intRange {x n : Int} : x ∈ intRange n ↔ 0 ≤ x ∧ x < n := by
  unfold intRange
  rw [List.mem_map]
  constructor
  · rintro ⟨m, hm, rfl⟩
    rw [List.mem_range] at hm
    omega
  · rintro ⟨h0, hn⟩
    refine ⟨x.toNat, ?_, by omega⟩
    rw [List.mem_range]
    omega

theorem normPair_of_le {u v : Int} (h : u ≤ v) : normPair (u, v) = (u, v) := by
  unfold normPair
  simp [min_eq_left h, max_eq_right h]

theorem minmax_eq_iff {a b u v : Int} (huv : u ≤ v) :
    (min a b, max a b) = (u, v) ↔ ((a = u ∧ b = v) ∨ (a = v ∧ b = u)) := by
  rw [Prod.mk.injEq]
  rcases le_total a b with h | h
  · rw [min_eq_left h, max_eq_right h]
    omega
  · rw [min_eq_right h, max_eq_left h]
    omega

theorem minmax_pair_cases (a b : Int) :
    (min a b, max a b) = (a, b) ∨ (min a b, max a b) = (b, a) := by
  rcases le_total a b with h | h
  · left
    rw [min_eq_left h, max_eq_right h]
  · right
    rw [min_eq_right h, max_eq_left h]

/-! ## C8: the cycle factory -/

/-- C8 (corrected).  For every length the cycle factory produces
`range(length)` vertices and the edges (i, i+1) plus the unconditionally
appended closing pair (0, length-1); for length at least 2 the stored edges
are exactly the claimed cycle edges.  The degenerate cases are NOT loop-free
empty/single-vertex graphs: `cycle(1)` carries the self-loop (0,0) and
`cycle(0)` carries the edge (-1,0) with no vertices at all. -/
theorem c8_amended_cycle : ∀ (len a b : Int),
    (2 ≤ len →
      ((Graph1.cycle len).vertices = intRange len ∧
       ((Graph1.cycle len).hasEdge a b = true ↔
         ((b = a + 1 ∧ 0 ≤ a ∧ a ≤ len - 2) ∨ (a = b + 1 ∧ 0 ≤ b ∧ b ≤ len - 2) ∨
          (a = 0 ∧ b = len - 1) ∨ (b = 0 ∧ a = len - 1))))) ∧
    (Graph1.cycle 1).hasEdge 0 0 = true ∧
    (Graph1.cycle 0).vertices = [] ∧ (Graph1.cycle 0).edges = [(-1, 0)] := by
  intro len a b
  refine ⟨fun hlen => ⟨rfl, ?_⟩, by decide, by decide, by decide⟩
  show decide ((min a b, max a b) ∈ _) = true ↔ _
  rw [decide_eq_true_eq]
  unfold Graph1.cycle Graph1.mk1 cycleData
  have hnc : ∀ i : Int, normPair (i, i + 1) = (i, i + 1) :=
    fun i => normPair_of_le (by omega)
  have hn0 : normPair (0, len - 1) = (0, len - 1) := normPair_of_le (by omega)
  have key : ∀ u v : Int, u ≤ v →
      (((u, v) = (min a b, max a b)) ↔ ((a = u ∧ b = v) ∨ (a = v ∧ b = u))) := by
    intro u v huv
    rw [eq_comm]
    exact minmax_eq_iff huv
  simp only [List.map_append, List.map_map, List.mem_append, List.mem_map,
    Function.comp_apply, List.map_cons, List.map_nil, List.mem_singleton, hnc, hn0,
    mem_intRange, show ∀ i : Int, ((i, i + 1) = (min a b, max a b)) ↔
      ((a = i ∧ b = i + 1) ∨ (a = i + 1 ∧ b = i)) from fun i => key i (i + 1) (by omega),
    show ((min a b, max a b) = (0, len - 1)) ↔ ((a = 0 ∧ b = len - 1) ∨ (a = len - 1 ∧ b = 0))
      from minmax_eq_iff (by omega)]
  constructor
  · rintro (⟨i, hi, he⟩ | he) <;> omega
  · intro h
    rcases h with ⟨h1, h0, h2⟩ | ⟨h1, h0, h2⟩ | ⟨h1, h2⟩ | ⟨h1, h2⟩
    · refine Or.inl ⟨a, ⟨?_, ?_⟩, ?_⟩ <;> omega
    · refine Or.inl ⟨b, ⟨?_, ?_⟩, ?_⟩ <;> omega
    · refine Or.inr ?_
      omega
    · refine Or.inr ?_
      omega

/-- Witness for C8: the cycle of length 4 at the closing edge. -/
theorem c8_amended_cycle_witness :
    (Graph1.cycle 4).vertices = intRange 4 ∧
    ((Graph1.cycle 4).hasEdge 0 3 = true ↔
      (((3 : Int) = 0 + 1 ∧ (0 : Int) ≤ 0 ∧ (0 : Int) ≤ 4 - 2) ∨
       ((0 : Int) = 3 + 1 ∧ (0 : Int) ≤ 3 ∧ (3 : Int) ≤ 4 - 2) ∨
       ((0 : Int) = 0 ∧ (3 : Int) = 4 - 1) ∨ ((3 : Int) = 0 ∧ (0 : Int) = 4 - 1))) :=
  (c8_amended_cycle 4 0 3).1 (by decide)

/-- C8 counterexample: the claim asserts that every length at most 1 yields
an empty or single-vertex graph with no self-loop, but `cycle(1)` stores the
self-loop (0,0) and `cycle(0)` stores an edge despite having no vertices. -/
theorem c8_counterexample :
    (Graph1.cycle 1).hasEdge 0 0 = true ∧ (Graph1.cycle 0).edges ≠ [] := by decide

/-! ## C9: degree on an absent vertex -/

/-- C9 (corrected).  On Graph1, degree of an absent vertex is 0 provided the
edge endpoints all lie among the vertices (without that soft invariant an
absent vertex can have positive degree, see the counterexample); on Graph2,
degree fails with the unknown-vertex condition exactly when the vertex is
absent. -/
theorem c9_amended_degree_absent : ∀ (g : Graph1) (v : Int) (d : Adj) (w : Int),
    (edgeClosed g.edges g.vertices → g.hasVertex v = false → g.degree v = 0) ∧
    (Graph2.degree d w = none ↔ Graph2.hasVertex d w = false) := by
  intro g v d w
  constructor
  · intro hcl hv
    have hv' : v ∉ g.vertices := by
      simpa [Graph1.hasVertex] using hv
    unfold Graph1.degree
    rw [List.length_eq_zero, List.filter_eq_nil_iff]
    intro e he
    rcases hcl e he with ⟨h1, h2⟩
    simp only [decide_eq_true_eq]
    rintro (rfl | rfl)
    · exact hv' h1
    · exact hv' h2
  · unfold Graph2.degree Graph2.hasVertex
    cases alook d w <;> simp

/-- Witness for C9. -/
theorem c9_amended_degree_absent_witness :
    (Graph1.mk1 [2, 3] [(2, 3)]).degree 5 = 0 ∧
    (Graph2.degree [(2, [3]), (3, [2])] 1 = none ↔
      Graph2.hasVertex [(2, [3]), (3, [2])] 1 = false) :=
  ⟨(c9_amended_degree_absent (Graph1.mk1 [2, 3] [(2, 3)]) 5 [(2, [3]), (3, [2])] 1).1
      (by decide) (by decide),
   (c9_amended_degree_absent (Graph1.mk1 [2, 3] [(2, 3)]) 5 [(2, [3]), (3, [2])] 1).2⟩

/-- C9 counterexample: without the endpoint invariant, Graph1's degree of a
vertex NOT in the graph is not 0 — the claim's unconditional Graph1 clause
fails. -/
theorem c9_counterexample :
    (Graph1.mk1 [] [(1, 2)]).hasVertex 1 = false ∧
    (Graph1.mk1 [] [(1, 2)]).degree 1 = 1 := by decide

/-! ## Association-list lemmas -/

theorem alook_aput_self {β : Type} (d : List (Int × β)) (a : Int) (x : β) :
    alook (aput d a x) a = some x := by
  induction d with
  | nil => simp [aput, alook]
  | cons p rest ih =>
    obtain ⟨k, y⟩ := p
    by_cases h : k = a
    · subst h
      simp [aput, alook]
    · simp [aput, alook, h, ih]

theorem alook_aput_ne {β : Type} (d : List (Int × β)) {a c : Int} (x : β) (h : c ≠ a) :
    alook (aput d a x) c = alook d c := by
  induction d with
  | nil => simp [aput, alook, Ne.symm h]
  | cons p rest ih =>
    obtain ⟨k, y⟩ := p
    by_cases hk : k = a
    · subst hk
      simp [aput, alook, Ne.symm h]
    · by_cases hc : k = c
      · subst hc
        simp [aput, alook, hk]
      · simp [aput, alook, hk, hc, ih]

theorem alook_adel_ne {β : Type} (d : List (Int × β)) {a c : Int} (h : c ≠ a) :
    alook (adel d a) c = alook d c := by
  induction d with
  | nil => simp [adel]
  | cons p rest ih =>
    obtain ⟨k, y⟩ := p
    by_cases hk : k = a
    · subst hk
      simp [adel, alook, Ne.symm h]
    · by_cases hc : k = c
      · subst hc
        simp [adel, alook, hk]
      · simp [adel, alook, hk, hc, ih]

theorem akeys_adel {β : Type} (d : List (Int × β)) (a : Int) :
    akeys (adel d a) = (akeys d).erase a := by
  induction d with
  | nil => simp [adel, akeys]
  | cons p rest ih =>
    obtain ⟨k, y⟩ := p
    by_cases hk : k = a
    · subst hk
      simp [adel, akeys, List.erase_cons_head]
    · simp only [adel, if_neg hk]
      rw [show akeys ((k, y) :: adel rest a) = k :: akeys (adel rest a) from rfl, ih,
        show akeys ((k, y) :: rest) = k :: akeys rest from rfl,
        List.erase_cons_tail (by simp [hk])]

theorem mem_akeys_of_alook {β : Type} {d : List (Int × β)} {a : Int} {x : β}
    (h : alook d a = some x) : a ∈ akeys d := by
  induction d with
  | nil => simp [alook] at h
  | cons p rest ih =>
    obtain ⟨k, y⟩ := p
    by_cases hk : k = a
    · subst hk
      simp [akeys]
    · rw [alook, if_neg hk] at h
      rw [show akeys ((k, y) :: rest) = k :: akeys rest from rfl]
      exact List.mem_cons_of_mem _ (ih h)

theorem alook_isSome_of_mem {β : Type} {d : List (Int × β)} {a : Int}
    (h : a ∈ akeys d) : (alook d a).isSome := by
  induction d with
  | nil => simp [akeys] at h
  | cons p rest ih =>
    obtain ⟨k, y⟩ := p
    by_cases hk : k = a
    · subst hk
      simp [alook]
    · rw [akeys] at h
      simp only [List.map_cons, List.mem_cons] at h
      rcases h with h | h
      · exact absurd h.symm hk
      · rw [alook, if_neg hk]
        exact ih h

theorem alook_adel_self {β : Type} {d : List (Int × β)} {a : Int}
    (hnd : (akeys d).Nodup) : alook (adel d a) a = none := by
  induction d with
  | nil => simp [adel, alook]
  | cons p rest ih =>
    obtain ⟨k, y⟩ := p
    rw [show akeys ((k, y) :: rest) = k :: akeys rest from rfl, List.nodup_cons] at hnd
    by_cases hk : k = a
    · subst hk
      rw [adel, if_pos rfl]
      cases h : alook rest k with
      | none => rfl
      | some x => exact absurd (mem_akeys_of_alook h) hnd.1
    · rw [adel, if_neg hk, alook, if_neg hk]
      exact ih hnd.2

theorem alook_mem {β : Type} {d : List (Int × β)} {a : Int} {x : β}
    (h : alook d a = some x) : (a, x) ∈ d := by
  induction d with
  | nil => simp [alook] at h
  | cons p rest ih =>
    obtain ⟨k, y⟩ := p
    by_cases hk : k = a
    · subst hk
      rw [alook, if_pos rfl] at h
      cases h
      simp
    · rw [alook, if_neg hk] at h
      simp [ih h]

theorem alook_of_mem_nodup {β : Type} {d : List (Int × β)} {a : Int} {x : β}
    (hnd : (akeys d).Nodup) (h : (a, x) ∈ d) : alook d a = some x := by
  induction d with
  | nil => simp at h
  | cons p rest ih =>
    obtain ⟨k, y⟩ := p
    rw [show akeys ((k, y) :: rest) = k :: akeys rest from rfl, List.nodup_cons] at hnd
    rcases List.mem_cons.mp h with h | h
    · cases h
      simp [alook]
    · have hk : k ≠ a := by
        rintro rfl
        exact hnd.1 (List.mem_map.mpr ⟨(k, x), h, rfl⟩)
      rw [alook, if_neg hk]
      exact ih hnd.2 h

theorem akeys_aput_of_mem {β : Type} {d : List (Int × β)} {a : Int} (x : β)
    (h : a ∈ akeys d) : akeys (aput d a x) = akeys d := by
  induction d with
  | nil => simp [akeys] at h
  | cons p rest ih =>
    obtain ⟨k, y⟩ := p
    by_cases hk : k = a
    · subst hk
      simp [aput, akeys]
    · rw [akeys] at h
      simp only [List.map_cons, List.mem_cons] at h
      rcases h with h | h
      · exact absurd h.symm hk
      · simp [aput, akeys, hk]
        exact ih h

theorem akeys_aput_of_not_mem {β : Type} {d : List (Int × β)} {a : Int} (x : β)
    (h : a ∉ akeys d) : akeys (aput d a x) = akeys d ++ [a] := by
  induction d with
  | nil => simp [aput, akeys]
  | cons p rest ih =>
    obtain ⟨k, y⟩ := p
    rw [show akeys ((k, y) :: rest) = k :: akeys rest from rfl] at h ⊢
    simp only [List.mem_cons, not_or] at h
    rw [aput, if_neg (fun hk => h.1 hk.symm)]
    show k :: akeys (aput rest a x) = (k :: akeys rest) ++ [a]
    rw [ih h.2]
    rfl

theorem nodup_akeys_aput {β : Type} {d : List (Int × β)} {a : Int} (x : β)
    (hnd : (akeys d).Nodup) : (akeys (aput d a x)).Nodup := by
  by_cases h : a ∈ akeys d
  · rw [akeys_aput_of_mem x h]
    exact hnd
  · rw [akeys_aput_of_not_mem x h]
    simp [List.nodup_append, hnd, h]

theorem mem_akeys_iff {β : Type} {d : List (Int × β)} {a : Int} :
    a ∈ akeys d ↔ (alook d a).isSome := by
  constructor
  · exact alook_isSome_of_mem
  · intro h
    rcases Option.isSome_iff_exists.mp h with ⟨x, hx⟩
    exact mem_akeys_of_alook hx

/-! ## Structure of the Graph2 constructor -/

theorem initVerts_fold_alook : ∀ (vs : List Int) (d : Adj) (k : Int),
    alook (vs.foldl (fun d v => aput d v []) d) k =
      if k ∈ vs then some [] else alook d k := by
  intro vs
  induction vs with
  | nil => simp
  | cons v vs ih =>
    intro d k
    rw [List.foldl_cons, ih]
    by_cases hv : k ∈ vs
    · simp [hv]
    · by_cases hkv : k = v
      · subst hkv
        simp [hv, alook_aput_self]
      · simp [hv, hkv, alook_aput_ne _ _ hkv]

theorem initVerts_fold_nodup : ∀ (vs : List Int) (d : Adj), (akeys d).Nodup →
    (akeys (vs.foldl (fun d v => aput d v []) d)).Nodup := by
  intro vs
  induction vs with
  | nil => exact fun d h => h
  | cons v vs ih =>
    intro d h
    exact ih _ (nodup_akeys_aput _ h)

theorem initVerts_fold_keys_eq : ∀ (vs : List Int) (d : Adj), vs.Nodup →
    (∀ v ∈ vs, v ∉ akeys d) →
    akeys (vs.foldl (fun d v => aput d v []) d) = akeys d ++ vs := by
  intro vs
  induction vs with
  | nil => simp
  | cons v vs ih =>
    intro d hnd hfresh
    rw [List.nodup_cons] at hnd
    rw [List.foldl_cons, ih _ hnd.2, akeys_aput_of_not_mem _ (hfresh v (by simp))]
    · simp
    · intro w hw
      rw [akeys_aput_of_not_mem _ (hfresh v (by simp))]
      simp only [List.mem_append, List.mem_singleton, not_or]
      exact ⟨hfresh w (by simp [hw]), fun he => hnd.1 (he ▸ hw)⟩

theorem initVerts_alook (vs : List Int) (k : Int) :
    alook (graph2InitVerts vs) k = if k ∈ vs then some [] else none := by
  unfold graph2InitVerts
  rw [initVerts_fold_alook]
  simp [alook]

theorem initVerts_nodup (vs : List Int) : (akeys (graph2InitVerts vs)).Nodup :=
  initVerts_fold_nodup vs [] (by simp [akeys])

theorem initVerts_keys_eq (vs : List Int) (hnd : vs.Nodup) :
    akeys (graph2InitVerts vs) = vs := by
  unfold graph2InitVerts
  rw [initVerts_fold_keys_eq vs [] hnd (by simp [akeys])]
  simp [akeys]

theorem initVerts_mem_keys (vs : List Int) (k : Int) :
    k ∈ akeys (graph2InitVerts vs) ↔ k ∈ vs := by
  rw [mem_akeys_iff, initVerts_alook]
  by_cases h : k ∈ vs <;> simp [h]

theorem initVerts_countAdj (vs : List Int) (x y : Int) :
    countAdj (graph2InitVerts vs) x y = 0 := by
  unfold countAdj
  rw [initVerts_alook]
  by_cases h : x ∈ vs <;> simp [h]

theorem addArc_eq_some {d : Adj} {a b : Int} {d₂ : Adj}
    (h : graph2AddArc d a b = some d₂) :
    ∃ ns, alook d a = some ns ∧ d₂ = aput d a (ns ++ [b]) := by
  unfold graph2AddArc at h
  cases hl : alook d a with
  | none => rw [hl] at h; cases h
  | some ns =>
    rw [hl] at h
    cases h
    exact ⟨ns, rfl, rfl⟩

theorem addArc_keys {d : Adj} {a b : Int} {d₂ : Adj}
    (h : graph2AddArc d a b = some d₂) : akeys d₂ = akeys d := by
  rcases addArc_eq_some h with ⟨ns, hl, rfl⟩
  exact akeys_aput_of_mem _ (mem_akeys_of_alook hl)

theorem addArc_countAdj {d : Adj} {a b : Int} {d₂ : Adj}
    (h : graph2AddArc d a b = some d₂) (x y : Int) :
    countAdj d₂ x y = countAdj d x y + (if x = a ∧ y = b then 1 else 0) := by
  rcases addArc_eq_some h with ⟨ns, hl, rfl⟩
  unfold countAdj
  by_cases hx : x = a
  · subst hx
    rw [alook_aput_self, hl]
    by_cases hy : y = b
    · subst hy
      simp [List.count_append]
    · simp [List.count_append, hy, List.count_cons, Ne.symm hy]
  · rw [alook_aput_ne _ _ hx]
    simp [hx]

theorem insEdges_spec : ∀ (es : List (Int × Int)) (d d₂ : Adj),
    graph2InsEdges d es = some d₂ →
    akeys d₂ = akeys d ∧
    (∀ e ∈ es, e.1 ∈ akeys d ∧ e.2 ∈ akeys d) ∧
    (∀ x y, countAdj d₂ x y = countAdj d x y + es.count (x, y) + es.count (y, x)) := by
  intro es
  induction es with
  | nil =>
    intro d d₂ h
    cases h
    exact ⟨rfl, by simp, by simp⟩
  | cons e es ih =>
    intro d d₂ h
    obtain ⟨e₁, e₂⟩ := e
    unfold graph2InsEdges at h
    dsimp only at h
    cases h₁ : graph2AddArc d e₁ e₂ with
    | none => rw [h₁] at h; cases h
    | some dA =>
      rw [h₁] at h
      dsimp only at h
      cases h₂ : graph2AddArc dA e₂ e₁ with
      | none => rw [h₂] at h; cases h
      | some dB =>
        rw [h₂] at h
        dsimp only at h
        rcases ih dB d₂ h with ⟨hkeys, hcl, hcnt⟩
        have hkA := addArc_keys h₁
        have hkB := addArc_keys h₂
        refine ⟨by rw [hkeys, hkB, hkA], ?_, ?_⟩
        · intro e he
          rcases List.mem_cons.mp he with he | he
          · subst he
            rcases addArc_eq_some h₁ with ⟨ns, hl, _⟩
            rcases addArc_eq_some h₂ with ⟨ms, hm, _⟩
            exact ⟨mem_akeys_of_alook hl, by rw [← hkA]; exact mem_akeys_of_alook hm⟩
          · rcases hcl e he with ⟨ha, hb⟩
            rw [hkB, hkA] at ha hb
            exact ⟨ha, hb⟩
        · intro x y
          rw [hcnt x y, addArc_countAdj h₂ x y, addArc_countAdj h₁ x y]
          simp only [List.count_cons, beq_iff_eq, Prod.mk.injEq]
          split_ifs <;> omega

theorem mk2_keys_nodup {vs : List Int} {es : List (Int × Int)} {d : Adj}
    (h : mkGraph2 vs es = some d) : (akeys d).Nodup := by
  unfold mkGraph2 at h
  rw [(insEdges_spec es _ d h).1]
  exact initVerts_nodup vs

theorem mk2_mem_keys {vs : List Int} {es : List (Int × Int)} {d : Adj}
    (h : mkGraph2 vs es = some d) (x : Int) : x ∈ akeys d ↔ x ∈ vs := by
  unfold mkGraph2 at h
  rw [(insEdges_spec es _ d h).1]
  exact initVerts_mem_keys vs x

theorem mk2_keys_eq {vs : List Int} {es : List (Int × Int)} {d : Adj}
    (h : mkGraph2 vs es = some d) (hnd : vs.Nodup) : akeys d = vs := by
  unfold mkGraph2 at h
  rw [(insEdges_spec es _ d h).1]
  exact initVerts_keys_eq vs hnd

theorem mk2_count {vs : List Int} {es : List (Int × Int)} {d : Adj}
    (h : mkGraph2 vs es = some d) (x y : Int) :
    countAdj d x y = es.count (x, y) + es.count (y, x) := by
  unfold mkGraph2 at h
  rw [(insEdges_spec es _ d h).2.2 x y, initVerts_countAdj]
  omega

theorem mk2_edge_endpoints {vs : List Int} {es : List (Int × Int)} {d : Adj}
    (h : mkGraph2 vs es = some d) : ∀ e ∈ es, e.1 ∈ akeys d ∧ e.2 ∈ akeys d := by
  intro e he
  unfold mkGraph2 at h
  rcases (insEdges_spec es _ d h).2.1 e he with ⟨h1, h2⟩
  rw [(insEdges_spec es _ d h).1]
  exact ⟨h1, h2⟩

theorem mk2_closed {vs : List Int} {es : List (Int × Int)} {d : Adj}
    (h : mkGraph2 vs es = some d) : Graph2.closed d := by
  intro p hp v hv
  have hl : alook d p.1 = some p.2 := by
    have := alook_of_mem_nodup (mk2_keys_nodup h) (by
      show (p.1, p.2) ∈ d
      simpa using hp)
    exact this
  have hcnt : 0 < countAdj d p.1 v := by
    unfold countAdj
    rw [hl]
    simpa [List.count_pos_iff] using hv
  rw [mk2_count h] at hcnt
  have : (p.1, v) ∈ es ∨ (v, p.1) ∈ es := by
    rcases Nat.lt_or_ge 0 (es.count (p.1, v)) with hc | hc
    · exact Or.inl (List.count_pos_iff.mp hc)
    · right
      apply List.count_pos_iff.mp
      omega
  rcases this with he | he
  · exact (mk2_edge_endpoints h _ he).2
  · exact (mk2_edge_endpoints h _ he).1

/-! ## General Graph2 facts -/

theorem hasVertex_iff_mem_keys (d : Adj) (a : Int) :
    Graph2.hasVertex d a = true ↔ a ∈ akeys d := by
  rw [mem_akeys_iff]
  unfold Graph2.hasVertex
  cases alook d a <;> simp

theorem hasEdge_endpoints {d : Adj} (hcl : Graph2.closed d) {u v : Int}
    (h : Graph2.hasEdge d u v = true) : u ∈ akeys d ∧ v ∈ akeys d := by
  unfold Graph2.hasEdge at h
  cases hl : alook d u with
  | none => rw [hl] at h; cases h
  | some ns =>
    rw [hl] at h
    rw [decide_eq_true_eq] at h
    exact ⟨mem_akeys_of_alook hl, hcl (u, ns) (alook_mem hl) v h⟩

theorem closed_alook {d : Adj} (hnd : (akeys d).Nodup) :
    Graph2.closed d ↔ ∀ x ns, alook d x = some ns → ∀ v ∈ ns, v ∈ akeys d := by
  constructor
  · intro hcl x ns h v hv
    exact hcl (x, ns) (alook_mem h) v hv
  · intro h p hp v hv
    exact h p.1 p.2 (alook_of_mem_nodup hnd hp) v hv

theorem mem_akeys_aput_left {β : Type} {d : List (Int × β)} {k a : Int} (x : β)
    (h : k ∈ akeys d) : k ∈ akeys (aput d a x) := by
  by_cases ha : a ∈ akeys d
  · rw [akeys_aput_of_mem x ha]
    exact h
  · rw [akeys_aput_of_not_mem x ha]
    exact List.mem_append_left _ h

theorem mem_akeys_aput_self {β : Type} (d : List (Int × β)) (a : Int) (x : β) :
    a ∈ akeys (aput d a x) :=
  mem_akeys_of_alook (alook_aput_self d a x)

/-! ## Graph1 constructor and addEdge closure -/

theorem normPair_fst_cases (e : Int × Int) :
    (normPair e).1 = e.1 ∨ (normPair e).1 = e.2 := min_choice e.1 e.2

theorem normPair_snd_cases (e : Int × Int) :
    (normPair e).2 = e.1 ∨ (normPair e).2 = e.2 := max_choice e.1 e.2

theorem mk1_closed {vs : List Int} {es : List (Int × Int)}
    (hcl : edgeClosed es vs) :
    edgeClosed (Graph1.mk1 vs es).edges (Graph1.mk1 vs es).vertices := by
  intro e he
  unfold Graph1.mk1 at he ⊢
  rcases List.mem_map.mp he with ⟨f, hf, rfl⟩
  rcases hcl f hf with ⟨h1, h2⟩
  constructor
  · rcases normPair_fst_cases f with h | h <;> rw [h] <;> assumption
  · rcases normPair_snd_cases f with h | h <;> rw [h] <;> assumption

theorem addEdge1_closed {g : Graph1} (a b : Int)
    (hcl : edgeClosed g.edges g.vertices) :
    edgeClosed (g.addEdge a b).1.edges (g.addEdge a b).1.vertices := by
  have hmin : min a b = a ∨ min a b = b := min_choice a b
  have hmax : max a b = a ∨ max a b = b := max_choice a b
  unfold Graph1.addEdge
  split_ifs with h1 h2 h3 h4 <;> intro e he <;> dsimp only at he ⊢
  · exact hcl e he
  · rcases List.mem_append.mp he with he | he
    · exact hcl e he
    · rcases List.mem_singleton.mp he with rfl
      exact ⟨by rcases hmin with h | h <;> rw [h] <;> [exact h2.1; exact h2.2],
        by rcases hmax with h | h <;> rw [h] <;> [exact h2.1; exact h2.2]⟩
  · rcases List.mem_append.mp he with he | he
    · rcases hcl e he with ⟨hu, hv⟩
      exact ⟨List.mem_append_left _ hu, List.mem_append_left _ hv⟩
    · rcases List.mem_singleton.mp he with rfl
      refine ⟨?_, ?_⟩
      · rcases hmin with h | h <;> rw [h]
        · exact List.mem_append_left _ h3
        · simp
      · rcases hmax with h | h <;> rw [h]
        · exact List.mem_append_left _ h3
        · simp
  · rcases List.mem_append.mp he with he | he
    · rcases hcl e he with ⟨hu, hv⟩
      exact ⟨List.mem_append_left _ hu, List.mem_append_left _ hv⟩
    · rcases List.mem_singleton.mp he with rfl
      refine ⟨?_, ?_⟩
      · rcases hmin with h | h <;> rw [h]
        · simp
        · exact List.mem_append_left _ h4
      · rcases hmax with h | h <;> rw [h]
        · simp
        · exact List.mem_append_left _ h4
  · rcases List.mem_append.mp he with he | he
    · rcases hcl e he with ⟨hu, hv⟩
      exact ⟨List.mem_append_left _ hu, List.mem_append_left _ hv⟩
    · rcases List.mem_singleton.mp he with rfl
      refine ⟨?_, ?_⟩
      · rcases hmin with h | h <;> rw [h] <;> simp
      · rcases hmax with h | h <;> rw [h] <;> simp

/-! ## Graph2 addEdge: key set and closure -/

theorem addEdge2_keys_nodup {d : Adj} (a b : Int) (hnd : (akeys d).Nodup) :
    (akeys (Graph2.addEdge d a b).1).Nodup := by
  unfold Graph2.addEdge
  split_ifs with h1
  · exact hnd
  · cases ha : alook d a <;> cases hb : alook d b <;> dsimp only <;>
      exact nodup_akeys_aput _ (nodup_akeys_aput _ hnd)

theorem mem_akeys_aput_cases {β : Type} {d : List (Int × β)} {k a : Int} {x : β}
    (h : k ∈ akeys (aput d a x)) : k ∈ akeys d ∨ k = a := by
  by_cases ha : a ∈ akeys d
  · rw [akeys_aput_of_mem x ha] at h
    exact Or.inl h
  · rw [akeys_aput_of_not_mem x ha] at h
    rcases List.mem_append.mp h with h | h
    · exact Or.inl h
    · exact Or.inr (List.mem_singleton.mp h)

theorem alook_aput_cases {β : Type} {d : List (Int × β)} {c x : Int} {l : β} {ns : β}
    (h : alook (aput d c l) x = some ns) :
    (x = c ∧ ns = l) ∨ (x ≠ c ∧ alook d x = some ns) := by
  by_cases hx : x = c
  · subst hx
    rw [alook_aput_self] at h
    cases h
    exact Or.inl ⟨rfl, rfl⟩
  · rw [alook_aput_ne _ _ hx] at h
    exact Or.inr ⟨hx, h⟩

theorem closed_two_aputs {d : Adj} (hnd : (akeys d).Nodup) (hcl : Graph2.closed d)
    {k₁ k₂ : Int} {l₁ l₂ : List Int}
    (h₁ : ∀ v ∈ l₁, v ∈ akeys d ∨ v = k₁ ∨ v = k₂)
    (h₂ : ∀ v ∈ l₂, v ∈ akeys d ∨ v = k₁ ∨ v = k₂) :
    Graph2.closed (aput (aput d k₁ l₁) k₂ l₂) := by
  have halook := (closed_alook hnd).mp hcl
  have hmem : ∀ v : Int, (v ∈ akeys d ∨ v = k₁ ∨ v = k₂) →
      v ∈ akeys (aput (aput d k₁ l₁) k₂ l₂) := by
    rintro v (hv | rfl | rfl)
    · exact mem_akeys_aput_left _ (mem_akeys_aput_left _ hv)
    · exact mem_akeys_aput_left _ (mem_akeys_aput_self d v l₁)
    · exact mem_akeys_aput_self _ v l₂
  rw [closed_alook (nodup_akeys_aput _ (nodup_akeys_aput _ hnd))]
  intro x ns hx v hv
  rcases alook_aput_cases hx with ⟨rfl, rfl⟩ | ⟨hx2, hx'⟩
  · exact hmem v (h₂ v hv)
  · rcases alook_aput_cases hx' with ⟨rfl, rfl⟩ | ⟨hx1, hx''⟩
    · exact hmem v (h₁ v hv)
    · exact hmem v (Or.inl (halook x ns hx'' v hv))

theorem addEdge2_closed {d : Adj} (a b : Int) (hnd : (akeys d).Nodup)
    (hcl : Graph2.closed d) : Graph2.closed (Graph2.addEdge d a b).1 := by
  have halook := (closed_alook hnd).mp hcl
  unfold Graph2.addEdge
  split_ifs with h1
  · exact hcl
  · cases ha : alook d a <;> cases hb : alook d b <;> dsimp only
    · -- neither endpoint is a key
      refine closed_two_aputs hnd hcl ?_ ?_
      · intro v hv
        rcases List.mem_singleton.mp hv with rfl
        exact Or.inr (Or.inr rfl)
      · intro v hv
        rcases List.mem_singleton.mp hv with rfl
        exact Or.inr (Or.inl rfl)
    · -- only b is a key
      refine closed_two_aputs hnd hcl ?_ ?_
      · intro v hv
        rcases List.mem_singleton.mp hv with rfl
        exact Or.inr (Or.inr rfl)
      · intro v hv
        rcases List.mem_append.mp hv with hv | hv
        · by_cases hba : b = a
          · subst hba
            rw [alook_aput_self, Option.getD_some] at hv
            rcases List.mem_singleton.mp hv with rfl
            exact Or.inr (Or.inr rfl)
          · rw [alook_aput_ne _ _ hba, hb, Option.getD_some] at hv
            exact Or.inl (halook b _ hb v hv)
        · rcases List.mem_singleton.mp hv with rfl
          exact Or.inr (Or.inl rfl)
    · -- only a is a key
      refine closed_two_aputs hnd hcl ?_ ?_
      · intro v hv
        rcases List.mem_append.mp hv with hv | hv
        · exact Or.inl (halook a _ ha v hv)
        · rcases List.mem_singleton.mp hv with rfl
          exact Or.inr (Or.inr rfl)
      · intro v hv
        rcases List.mem_singleton.mp hv with rfl
        exact Or.inr (Or.inl rfl)
    · -- both endpoints are keys
      refine closed_two_aputs hnd hcl ?_ ?_
      · intro v hv
        rcases List.mem_append.mp hv with hv | hv
        · exact Or.inl (halook a _ ha v hv)
        · rcases List.mem_singleton.mp hv with rfl
          exact Or.inr (Or.inr rfl)
      · intro v hv
        rcases List.mem_append.mp hv with hv | hv
        · by_cases hba : b = a
          · subst hba
            rw [alook_aput_self, Option.getD_some] at hv
            rcases List.mem_append.mp hv with hv | hv
            · exact Or.inl (halook b _ ha v hv)
            · rcases List.mem_singleton.mp hv with rfl
              exact Or.inl (mem_akeys_of_alook hb)
          · rw [alook_aput_ne _ _ hba, hb, Option.getD_some] at hv
            exact Or.inl (halook b _ hb v hv)
        · rcases List.mem_singleton.mp hv with rfl
          exact Or.inl (mem_akeys_of_alook ha)

/-! ## C2: the endpoint invariant -/

/-- C2 (corrected).  The constructors only PRESERVE the endpoint invariant:
Graph1's stores whatever edges it is given (see the counterexample), so its
part holds under the hypothesis that the input edges' endpoints lie among
the input vertices, while a successfully constructed Graph2 always
satisfies it (an endpoint that is not a vertex makes the constructor raise
KeyError instead).  addEdge maintains the invariant in both
representations, transparently adding missing endpoints as vertices. -/
theorem c2_amended_invariant : ∀ (vs : List Int) (es : List (Int × Int)) (u v a b : Int)
    (g : Graph1) (d d₀ : Adj),
    (edgeClosed es vs → (u, v) ∈ (Graph1.mk1 vs es).edges →
       (Graph1.mk1 vs es).hasVertex u = true ∧ (Graph1.mk1 vs es).hasVertex v = true) ∧
    (mkGraph2 vs es = some d₀ → Graph2.hasEdge d₀ u v = true →
       Graph2.hasVertex d₀ u = true ∧ Graph2.hasVertex d₀ v = true) ∧
    (edgeClosed g.edges g.vertices → (u, v) ∈ (g.addEdge a b).1.edges →
       (g.addEdge a b).1.hasVertex u = true ∧ (g.addEdge a b).1.hasVertex v = true) ∧
    ((akeys d).Nodup → Graph2.closed d →
       Graph2.hasEdge (Graph2.addEdge d a b).1 u v = true →
       Graph2.hasVertex (Graph2.addEdge d a b).1 u = true ∧
       Graph2.hasVertex (Graph2.addEdge d a b).1 v = true) := by
  intro vs es u v a b g d d₀
  refine ⟨?_, ?_, ?_, ?_⟩
  · intro hcl he
    rcases mk1_closed hcl (u, v) he with ⟨h1, h2⟩
    exact ⟨by simpa [Graph1.hasVertex] using h1, by simpa [Graph1.hasVertex] using h2⟩
  · intro hmk he
    rcases hasEdge_endpoints (mk2_closed hmk) he with ⟨h1, h2⟩
    exact ⟨(hasVertex_iff_mem_keys _ _).mpr h1, (hasVertex_iff_mem_keys _ _).mpr h2⟩
  · intro hcl he
    rcases addEdge1_closed a b hcl (u, v) he with ⟨h1, h2⟩
    exact ⟨by simpa [Graph1.hasVertex] using h1, by simpa [Graph1.hasVertex] using h2⟩
  · intro hnd hcl he
    rcases hasEdge_endpoints (addEdge2_closed a b hnd hcl) he with ⟨h1, h2⟩
    exact ⟨(hasVertex_iff_mem_keys _ _).mpr h1, (hasVertex_iff_mem_keys _ _).mpr h2⟩

/-- Witness for C2. -/
theorem c2_amended_invariant_witness :
    ((Graph1.mk1 [1, 2] [(1, 2)]).hasVertex 1 = true ∧
     (Graph1.mk1 [1, 2] [(1, 2)]).hasVertex 2 = true) ∧
    (Graph2.hasVertex [(1, [2]), (2, [1])] 1 = true ∧
     Graph2.hasVertex [(1, [2]), (2, [1])] 2 = true) ∧
    (((Graph1.mk1 [1] []).addEdge 1 7).1.hasVertex 1 = true ∧
     ((Graph1.mk1 [1] []).addEdge 1 7).1.hasVertex 7 = true) ∧
    (Graph2.hasVertex (Graph2.addEdge [(1, [])] 1 7).1 1 = true ∧
     Graph2.hasVertex (Graph2.addEdge [(1, [])] 1 7).1 7 = true) := by
  have h12 := c2_amended_invariant [1, 2] [(1, 2)] 1 2 1 7 (Graph1.mk1 [1] [])
    [(1, [])] [(1, [2]), (2, [1])]
  have h17 := c2_amended_invariant [1, 2] [(1, 2)] 1 7 1 7 (Graph1.mk1 [1] [])
    [(1, [])] [(1, [2]), (2, [1])]
  exact ⟨h12.1 (by decide) (by decide), (h12.2.1 (by decide) (by decide)),
    h17.2.2.1 (by decide) (by decide), h17.2.2.2 (by decide) (by decide) (by decide)⟩

/-- C2 counterexample: `Graph1([], [(1, 2)])` stores the edge (1, 2) whose
endpoints are not vertices, so the unconditional constructor clause of the
claim fails. -/
theorem c2_counterexample :
    (Graph1.mk1 [] [(1, 2)]).hasEdge 1 2 = true ∧
    (Graph1.mk1 [] [(1, 2)]).hasVertex 1 = false := by decide

/-! ## C7: collapseEdge -/

theorem normPair_eq_normPair_iff {u v x y : Int} :
    normPair (u, v) = normPair (x, y) ↔ ((u = x ∧ v = y) ∨ (u = y ∧ v = x)) := by
  unfold normPair
  dsimp only
  rcases le_total u v with h | h <;> rcases le_total x y with h2 | h2 <;>
    [rw [min_eq_left h, max_eq_right h, min_eq_left h2, max_eq_right h2];
     rw [min_eq_left h, max_eq_right h, min_eq_right h2, max_eq_left h2];
     rw [min_eq_right h, max_eq_left h, min_eq_left h2, max_eq_right h2];
     rw [min_eq_right h, max_eq_left h, min_eq_right h2, max_eq_left h2]] <;>
    rw [Prod.mk.injEq] <;> omega

theorem collapse_edges_mem {g : Graph1} {a b : Int} (hbb : (b, b) ∉ g.edges) (x y : Int) :
    (∃ e ∈ ((g.edges.filter (fun e => decide (¬(e.1 = b ∨ e.2 = b)))) ++
       ((g.edges.filter (fun e => decide (e.1 ≠ a ∧ e.2 = b))).map (fun e => (e.1, a))) ++
       ((g.edges.filter (fun e => decide (e.1 = b ∧ a ≠ e.2))).map (fun e => (a, e.2)))),
       normPair e = normPair (x, y)) ↔
    (∃ f ∈ g.edges, ¬((f.1 = a ∧ f.2 = b) ∨ (f.1 = b ∧ f.2 = a)) ∧
       ((renTo b a f.1 = x ∧ renTo b a f.2 = y) ∨
        (renTo b a f.1 = y ∧ renTo b a f.2 = x))) := by
  constructor
  · rintro ⟨⟨e₁, e₂⟩, he, hp⟩
    rw [List.mem_append, List.mem_append] at he
    rw [normPair_eq_normPair_iff] at hp
    rcases he with (he | he) | he
    · rcases List.mem_filter.mp he with ⟨hef, hcond⟩
      rw [decide_eq_true_eq] at hcond
      push_neg at hcond
      refine ⟨(e₁, e₂), hef, ?_, ?_⟩
      · dsimp only
        rintro (⟨h1, h2⟩ | ⟨h1, h2⟩)
        · exact hcond.2 h2
        · exact hcond.1 h1
      · dsimp only
        rw [renTo, if_neg hcond.1, renTo, if_neg hcond.2]
        exact hp
    · rcases List.mem_map.mp he with ⟨⟨f₁, f₂⟩, hf, hfe⟩
      rcases List.mem_filter.mp hf with ⟨hff, hcond⟩
      rw [decide_eq_true_eq] at hcond
      obtain ⟨hfa, hfb⟩ := hcond
      dsimp only at hfa hfb hfe
      rw [hfb] at hff
      have hf1b : f₁ ≠ b := fun hc => hbb (hc ▸ hff)
      injection hfe with hq1 hq2
      refine ⟨(f₁, b), hff, ?_, ?_⟩
      · dsimp only
        rintro (⟨h1, h2⟩ | ⟨h1, h2⟩)
        · exact hfa h1
        · exact hf1b h1
      · dsimp only
        rw [renTo, if_neg hf1b, renTo, if_pos rfl]
        omega
    · rcases List.mem_map.mp he with ⟨⟨f₁, f₂⟩, hf, hfe⟩
      rcases List.mem_filter.mp hf with ⟨hff, hcond⟩
      rw [decide_eq_true_eq] at hcond
      obtain ⟨hfb, hfa⟩ := hcond
      dsimp only at hfa hfb hfe
      rw [hfb] at hff
      have hf2b : f₂ ≠ b := fun hc => hbb (hc ▸ hff)
      injection hfe with hq1 hq2
      refine ⟨(b, f₂), hff, ?_, ?_⟩
      · dsimp only
        rintro (⟨h1, h2⟩ | ⟨h1, h2⟩)
        · exact hf2b h2
        · exact hfa h2.symm
      · dsimp only
        rw [renTo, if_pos rfl, renTo, if_neg hf2b]
        omega
  · rintro ⟨⟨f₁, f₂⟩, hf, hne, hren⟩
    dsimp only at hne hren
    by_cases h1b : f₁ = b
    · have h2b : f₂ ≠ b := fun hc => hbb (by rw [h1b, hc] at hf; exact hf)
      have h2a : f₂ ≠ a := fun hc => hne (Or.inr ⟨h1b, hc⟩)
      refine ⟨(a, f₂), ?_, ?_⟩
      · rw [List.mem_append, List.mem_append]
        refine Or.inr (List.mem_map.mpr ⟨(f₁, f₂), List.mem_filter.mpr ⟨hf, ?_⟩, rfl⟩)
        rw [decide_eq_true_eq]
        exact ⟨h1b, fun hc => h2a hc.symm⟩
      · rw [h1b] at hren
        rw [renTo, if_pos rfl, renTo, if_neg h2b] at hren
        rw [normPair_eq_normPair_iff]
        exact hren
    · by_cases h2b : f₂ = b
      · have h1a : f₁ ≠ a := fun hc => hne (Or.inl ⟨hc, h2b⟩)
        refine ⟨(f₁, a), ?_, ?_⟩
        · rw [List.mem_append, List.mem_append]
          refine Or.inl (Or.inr (List.mem_map.mpr
            ⟨(f₁, f₂), List.mem_filter.mpr ⟨hf, ?_⟩, rfl⟩))
          rw [decide_eq_true_eq]
          exact ⟨h1a, h2b⟩
        · rw [h2b] at hren
          rw [renTo, if_neg h1b, renTo, if_pos rfl] at hren
          rw [normPair_eq_normPair_iff]
          exact hren
      · refine ⟨(f₁, f₂), ?_, ?_⟩
        · rw [List.mem_append, List.mem_append]
          refine Or.inl (Or.inl (List.mem_filter.mpr ⟨hf, ?_⟩))
          rw [decide_eq_true_eq]
          push_neg
          exact ⟨h1b, h2b⟩
        · rw [renTo, if_neg h1b, renTo, if_neg h2b] at hren
          rw [normPair_eq_normPair_iff]
          exact hren

/-- C7 (corrected).  collapseEdge is a no-op returning g1 itself when the
edge is absent.  When the edge is present (and b is actually a vertex,
otherwise the `vertices.remove` raises), the result removes ONE occurrence
of b from the vertex list, and — provided g1 has no self-loop at b — its
edges are exactly the edges of g1 rewired by the endpoint map b ↦ a,
excluding the collapsed edge itself.  A self-loop (b, b) breaks the claim:
it is rewired into copies of the edge (a, b) instead of being dropped as
the would-be self-loop (a, a) (see the counterexample). -/
theorem c7_amended_collapse : ∀ (g h : Graph1) (a b x y : Int),
    (g.hasEdge a b = false → g.collapseEdge a b = some g) ∧
    (g.hasEdge a b = true → (b, b) ∉ g.edges → g.collapseEdge a b = some h →
      (h.vertices = g.vertices.erase b ∧
       h.hasEdge x y = g.edges.any (fun e =>
         (!(uEq e.1 e.2 a b)) && uEq (renTo b a e.1) (renTo b a e.2) x y))) := by
  intro g h a b x y
  constructor
  · intro hne
    unfold Graph1.collapseEdge
    simp [hne]
  · intro he hbb hcoll
    unfold Graph1.collapseEdge at hcoll
    rw [if_pos he] at hcoll
    by_cases hbv : b ∈ g.vertices
    · rw [if_pos hbv] at hcoll
      have hh := Option.some.inj hcoll
      subst hh
      refine ⟨rfl, ?_⟩
      rw [Bool.eq_iff_iff]
      unfold Graph1.hasEdge Graph1.mk1
      rw [decide_eq_true_eq]
      dsimp only
      rw [show ((min x y, max x y) : Int × Int) = normPair (x, y) from rfl]
      rw [List.mem_map]
      constructor
      · rintro ⟨e, he₀, hp⟩
        have hmem := (collapse_edges_mem hbb x y).mp ⟨e, he₀, hp⟩
        rcases hmem with ⟨f, hf, hne₀, hren⟩
        rw [List.any_eq_true]
        refine ⟨f, hf, ?_⟩
        rw [Bool.and_eq_true, Bool.not_eq_true']
        unfold uEq
        rw [decide_eq_false_iff_not, decide_eq_true_eq]
        exact ⟨hne₀, hren⟩
      · intro hany
        rw [List.any_eq_true] at hany
        rcases hany with ⟨f, hf, hcond⟩
        rw [Bool.and_eq_true, Bool.not_eq_true'] at hcond
        unfold uEq at hcond
        rw [decide_eq_false_iff_not, decide_eq_true_eq] at hcond
        exact (collapse_edges_mem hbb x y).mpr ⟨f, hf, hcond.1, hcond.2⟩
    · rw [if_neg hbv] at hcoll
      cases hcoll

/-- Witness for C7: the spec's Scenario 4 plus the absent-edge no-op. -/
theorem c7_amended_collapse_witness :
    ((Graph1.mk1 [1, 2, 3] [(1, 2), (2, 3)]).collapseEdge 5 7 =
       some (Graph1.mk1 [1, 2, 3] [(1, 2), (2, 3)])) ∧
    (Graph1.mk1 [1, 3] [(1, 3)]).vertices = ([1, 2, 3] : List Int).erase 2 ∧
    (Graph1.mk1 [1, 3] [(1, 3)]).hasEdge 1 3 =
      (Graph1.mk1 [1, 2, 3] [(1, 2), (2, 3)]).edges.any (fun e =>
        (!(uEq e.1 e.2 1 2)) && uEq (renTo 2 1 e.1) (renTo 2 1 e.2) 1 3) := by
  refine ⟨(c7_amended_collapse (Graph1.mk1 [1, 2, 3] [(1, 2), (2, 3)])
      (Graph1.mk1 [1, 3] [(1, 3)]) 5 7 1 3).1 (by decide), ?_⟩
  exact (c7_amended_collapse (Graph1.mk1 [1, 2, 3] [(1, 2), (2, 3)])
      (Graph1.mk1 [1, 3] [(1, 3)]) 1 2 1 3).2 (by decide) (by decide) (by decide)

/-- C7 counterexample: collapsing (1, 2) in a graph with the self-loop
(2, 2) yields two copies of the edge (1, 2) — an edge incident to the
removed vertex 2 — where the claim demands that the would-be self-loop be
dropped (expected edge set empty). -/
theorem c7_counterexample :
    (Graph1.mk1 [1, 2] [(1, 2), (2, 2)]).collapseEdge 1 2 =
      some ⟨[1], [(1, 2), (1, 2)]⟩ ∧
    ((Graph1.mk1 [1, 2] [(1, 2), (2, 2)]).collapseEdge 1 2).map
      (fun h => h.hasEdge 1 2) = some true ∧
    ((Graph1.mk1 [1, 2] [(1, 2), (2, 2)]).collapseEdge 1 2).map
      (fun h => h.hasVertex 2) = some false := by decide

/-! ## C4: fromFile -/

theorem mem_vertsAdd {vs : List Int} {a x : Int} :
    x ∈ vertsAdd vs a ↔ x ∈ vs ∨ x = a := by
  unfold vertsAdd
  by_cases h : a ∈ vs
  · rw [if_pos h]
    constructor
    · exact Or.inl
    · rintro (hx | rfl) <;> [exact hx; exact h]
  · rw [if_neg h]
    simp

theorem parsedPairs_cons_none {l : List Char} (ls : List (List Char))
    (h : parsedLine l = none) : parsedPairs (l :: ls) = parsedPairs ls := by
  simp [parsedPairs, List.filterMap_cons, h]

theorem parsedPairs_cons_some {l : List Char} (ls : List (List Char)) {p : Int × Int}
    (h : parsedLine l = some p) : parsedPairs (l :: ls) = p :: parsedPairs ls := by
  simp [parsedPairs, List.filterMap_cons, h]

theorem fromFileLoop_spec : ∀ (lines : List (List Char)) (vs : List Int)
    (es : List (Int × Int)), (∀ l ∈ lines, goodLine l = true) →
    ∃ vs₂, fromFileLoop lines vs es = some (vs₂, es ++ parsedPairs lines) ∧
      (∀ x, x ∈ vs₂ ↔ x ∈ vs ∨ ∃ p ∈ parsedPairs lines, x = p.1 ∨ x = p.2) := by
  intro lines
  induction lines with
  | nil =>
    intro vs es _
    refine ⟨vs, by simp [fromFileLoop, parsedPairs], by simp [parsedPairs]⟩
  | cons l ls ih =>
    intro vs es hgood
    have hl := hgood l (by simp)
    have hls : ∀ m ∈ ls, goodLine m = true := fun m hm => hgood m (by simp [hm])
    unfold goodLine at hl
    unfold fromFileLoop
    cases hsp : pySplitSp (pyStrip l) with
    | nil =>
      rw [parsedPairs_cons_none ls (by unfold parsedLine; rw [hsp])]
      exact ih vs es hls
    | cons s rest =>
      cases rest with
      | nil =>
        rw [parsedPairs_cons_none ls (by unfold parsedLine; rw [hsp])]
        exact ih vs es hls
      | cons t rest₂ =>
        cases rest₂ with
        | nil =>
          rw [hsp] at hl
          rw [Bool.and_eq_true, Option.isSome_iff_exists, Option.isSome_iff_exists] at hl
          rcases hl with ⟨⟨av, hav⟩, ⟨bv, hbv⟩⟩
          rw [parsedPairs_cons_some ls
            (by unfold parsedLine; rw [hsp]; dsimp only; rw [hav, hbv])]
          dsimp only
          rw [hav, hbv]
          dsimp only
          rcases ih (vertsAdd (vertsAdd vs av) bv) (es ++ [(av, bv)]) hls with
            ⟨vs₂, hrun, hmem⟩
          refine ⟨vs₂, by rw [hrun]; simp, ?_⟩
          intro x
          rw [hmem x, mem_vertsAdd, mem_vertsAdd]
          simp only [List.mem_cons]
          constructor
          · rintro (((hv | rfl) | rfl) | ⟨p, hp, hx⟩)
            · exact Or.inl hv
            · exact Or.inr ⟨(x, bv), Or.inl rfl, Or.inl rfl⟩
            · exact Or.inr ⟨(av, x), Or.inl rfl, Or.inr rfl⟩
            · exact Or.inr ⟨p, Or.inr hp, hx⟩
          · rintro (hv | ⟨p, hpc, hx⟩)
            · exact Or.inl (Or.inl (Or.inl hv))
            · rcases hpc with rfl | hp
              · rcases hx with rfl | rfl
                · exact Or.inl (Or.inl (Or.inr rfl))
                · exact Or.inl (Or.inr rfl)
              · exact Or.inr ⟨p, hp, hx⟩
        | cons u rest₃ =>
          rw [parsedPairs_cons_none ls (by unfold parsedLine; rw [hsp])]
          exact ih vs es hls

/-- C4 (corrected).  An unreadable file yields the empty graph.  Over
readable input the loop only survives lines on which Python `int()`
succeeds: provided every line that splits (on single spaces) into exactly
two tokens has two integer tokens, the graph holds exactly one edge per
such line, with both endpoints as vertices, and every other line is
ignored.  A two-token line with a non-integer token makes the whole call
raise instead of yielding an empty graph (see the counterexample). -/
theorem c4_amended_fromFile : ∀ (lines : List (List Char)) (x : Int) (g : Graph1),
    (Graph1.fromFile none = some (Graph1.mk1 [] [])) ∧
    ((∀ l ∈ lines, goodLine l = true) → (Graph1.fromFile (some lines)).isSome = true) ∧
    ((∀ l ∈ lines, goodLine l = true) → Graph1.fromFile (some lines) = some g →
      (g.edges = (parsedPairs lines).map normPair ∧
       g.hasVertex x = (parsedPairs lines).any (fun p => x == p.1 || x == p.2))) := by
  intro lines x g
  refine ⟨rfl, ?_, ?_⟩
  · intro hgood
    rcases fromFileLoop_spec lines [] [] hgood with ⟨vs₂, hrun, _⟩
    unfold Graph1.fromFile
    dsimp only
    rw [hrun]
    rfl
  · intro hgood hsome
    rcases fromFileLoop_spec lines [] [] hgood with ⟨vs₂, hrun, hmem⟩
    unfold Graph1.fromFile at hsome
    dsimp only at hsome
    rw [hrun] at hsome
    have hg : Graph1.mk1 vs₂ ([] ++ parsedPairs lines) = g := Option.some.inj hsome
    rw [← hg]
    refine ⟨rfl, ?_⟩
    show decide (x ∈ vs₂) = _
    rw [Bool.eq_iff_iff, decide_eq_true_eq, hmem x, List.any_eq_true]
    simp only [List.not_mem_nil, false_or, Bool.or_eq_true, beq_iff_eq]

/-- Witness for C4: a good-int line, an ignored one-token line, an ignored
three-token line, and a line with surrounding whitespace. -/
theorem c4_amended_fromFile_witness :
    (Graph1.fromFile none = some (Graph1.mk1 [] [])) ∧
    (Graph1.fromFile (some [['1', ' ', '2'], ['x'], ['3', ' ', '4', ' ', '5'],
        [' ', '7', ' ', '8', ' ']])).isSome = true ∧
    ((Graph1.mk1 [1, 2, 7, 8] [(1, 2), (7, 8)]).edges =
       (parsedPairs [['1', ' ', '2'], ['x'], ['3', ' ', '4', ' ', '5'],
         [' ', '7', ' ', '8', ' ']]).map normPair ∧
     (Graph1.mk1 [1, 2, 7, 8] [(1, 2), (7, 8)]).hasVertex 7 =
       (parsedPairs [['1', ' ', '2'], ['x'], ['3', ' ', '4', ' ', '5'],
         [' ', '7', ' ', '8', ' ']]).any (fun p => 7 == p.1 || 7 == p.2)) := by
  have h := c4_amended_fromFile [['1', ' ', '2'], ['x'], ['3', ' ', '4', ' ', '5'],
    [' ', '7', ' ', '8', ' ']] 7 (Graph1.mk1 [1, 2, 7, 8] [(1, 2), (7, 8)])
  exact ⟨h.1, h.2.1 (by decide), h.2.2 (by decide) (by decide)⟩

/-- C4 counterexample: the line "x y" splits into exactly two tokens, so
`int()` runs and raises an uncaught ValueError — the call fails instead of
yielding an empty graph; and the line "1  2" (two spaces) does consist of
two whitespace-separated integers yet is ignored, because the code splits
on single spaces and sees three tokens. -/
theorem c4_counterexample :
    Graph1.fromFile (some [['x', ' ', 'y']]) = none ∧
    Graph1.fromFile (some [['1', ' ', ' ', '2']]) = some (Graph1.mk1 [] []) := by decide

/-! ## C6: the degree sum property -/

theorem sum_map_add (vs : List Int) (f g : Int → Nat) :
    (vs.map (fun v => f v + g v)).sum = (vs.map f).sum + (vs.map g).sum := by
  induction vs with
  | nil => simp
  | cons x xs ih =>
    simp only [List.map_cons, List.sum_cons, ih]
    omega

theorem sum_map_indicator (vs : List Int) (p : Int → Prop) [DecidablePred p] :
    (vs.map (fun v => if p v then 1 else 0)).sum =
      (vs.filter (fun v => decide (p v))).length := by
  induction vs with
  | nil => simp
  | cons x xs ih =>
    rw [List.map_cons, List.sum_cons, List.filter_cons, ih]
    by_cases h : p x
    · rw [if_pos h, if_pos (decide_eq_true h), List.length_cons]
      omega
    · rw [if_neg h, if_neg (by simpa using h)]
      omega

theorem countP_or_split (vs : List Int) (a b : Int) (hab : a ≠ b) :
    (vs.filter (fun v => decide (v = a ∨ v = b))).length =
    (vs.filter (fun v => decide (v = a))).length +
    (vs.filter (fun v => decide (v = b))).length := by
  induction vs with
  | nil => simp
  | cons x xs ih =>
    simp only [List.filter_cons]
    by_cases hxa : x = a
    · rw [if_pos (decide_eq_true (Or.inl hxa)), if_pos (decide_eq_true hxa),
        if_neg (by simp [hxa, hab])]
      simp only [List.length_cons, ih]
      omega
    · by_cases hxb : x = b
      · rw [if_pos (decide_eq_true (Or.inr hxb)), if_neg (by simpa using hxa),
          if_pos (decide_eq_true hxb)]
        simp only [List.length_cons, ih]
        omega
      · rw [if_neg (by simp [hxa, hxb]), if_neg (by simpa using hxa),
          if_neg (by simpa using hxb)]
        exact ih

theorem filter_eq_single_length {vs : List Int} {a : Int} (hnd : vs.Nodup)
    (ha : a ∈ vs) : (vs.filter (fun v => decide (v = a))).length = 1 := by
  induction vs with
  | nil => cases ha
  | cons x xs ih =>
    rw [List.nodup_cons] at hnd
    by_cases hxa : x = a
    · subst hxa
      have hnil : xs.filter (fun v => decide (v = x)) = [] := by
        rw [List.filter_eq_nil_iff]
        intro v hv
        simp only [decide_eq_true_eq]
        rintro rfl
        exact hnd.1 hv
      simp [List.filter_cons, hnil]
    · have ha' : a ∈ xs := by
        rcases List.mem_cons.mp ha with h | h
        · exact absurd h.symm hxa
        · exact h
      simp only [List.filter_cons, decide_eq_true_eq]
      rw [if_neg hxa]
      exact ih hnd.2 ha'

theorem filter_pair_length {vs : List Int} {a b : Int} (hnd : vs.Nodup)
    (ha : a ∈ vs) (hb : b ∈ vs) (hab : a ≠ b) :
    (vs.filter (fun v => decide (v = a ∨ v = b))).length = 2 := by
  rw [countP_or_split vs a b hab, filter_eq_single_length hnd ha,
    filter_eq_single_length hnd hb]

theorem degSum_aux : ∀ (es : List (Int × Int)) (vs : List Int), vs.Nodup →
    edgeClosed es vs → (∀ e ∈ es, e.1 ≠ e.2) →
    (vs.map (fun v => (es.filter (fun e => decide (v = e.1 ∨ v = e.2))).length)).sum
      = 2 * es.length := by
  intro es
  induction es with
  | nil =>
    intro vs _ _ _
    simp
  | cons e es ih =>
    intro vs hnd hcl hloop
    have hstep : ∀ v : Int,
        ((e :: es).filter (fun f => decide (v = f.1 ∨ v = f.2))).length
        = (if v = e.1 ∨ v = e.2 then 1 else 0)
          + (es.filter (fun f => decide (v = f.1 ∨ v = f.2))).length := by
      intro v
      rw [List.filter_cons]
      by_cases h : v = e.1 ∨ v = e.2
      · rw [if_pos (decide_eq_true h), if_pos h, List.length_cons]
        omega
      · rw [if_neg (by simpa using h), if_neg h]
        omega
    rw [List.map_congr_left (fun v _ => hstep v), sum_map_add,
      sum_map_indicator vs (fun v => v = e.1 ∨ v = e.2),
      ih vs hnd (fun f hf => hcl f (by simp [hf])) (fun f hf => hloop f (by simp [hf]))]
    have he2 : (vs.filter (fun v => decide (v = e.1 ∨ v = e.2))).length = 2 := by
      rcases hcl e (by simp) with ⟨h1, h2⟩
      have := hloop e (by simp)
      exact filter_pair_length hnd h1 h2 (by omega)
    rw [he2]
    simp only [List.length_cons]
    omega

theorem mem_dedupFirst {l : List Int} {x : Int} : x ∈ dedupFirst l ↔ x ∈ l := by
  induction l with
  | nil => simp [dedupFirst]
  | cons a l ih =>
    unfold dedupFirst
    simp only [List.mem_cons, List.mem_filter, decide_eq_true_eq]
    constructor
    · rintro (rfl | ⟨hm, _⟩)
      · exact Or.inl rfl
      · exact Or.inr (ih.mp hm)
    · rintro (rfl | hm)
      · exact Or.inl rfl
      · by_cases hxa : x = a
        · exact Or.inl hxa
        · exact Or.inr ⟨ih.mpr hm, hxa⟩

theorem dedupFirst_eq_self {l : List Int} (h : l.Nodup) : dedupFirst l = l := by
  induction l with
  | nil => rfl
  | cons a l ih =>
    rw [List.nodup_cons] at h
    unfold dedupFirst
    rw [ih h.2, List.filter_eq_self.mpr]
    intro v hv
    simp only [decide_eq_true_eq]
    rintro rfl
    exact h.1 hv

theorem sumlen_aput {d : Adj} {a : Int} {ns ms : List Int} (h : alook d a = some ns) :
    ((aput d a ms).map (fun p => p.2.length)).sum + ns.length
      = (d.map (fun p => p.2.length)).sum + ms.length := by
  induction d with
  | nil => simp [alook] at h
  | cons p rest ih =>
    obtain ⟨k, y⟩ := p
    by_cases hk : k = a
    · subst hk
      rw [alook, if_pos rfl] at h
      cases h
      rw [aput, if_pos rfl]
      simp only [List.map_cons, List.sum_cons]
      omega
    · rw [alook, if_neg hk] at h
      rw [aput, if_neg hk]
      simp only [List.map_cons, List.sum_cons]
      have := ih h
      omega

theorem insEdges_sumlen : ∀ (es : List (Int × Int)) (d d₂ : Adj),
    graph2InsEdges d es = some d₂ →
    (d₂.map (fun p => p.2.length)).sum
      = (d.map (fun p => p.2.length)).sum + 2 * es.length := by
  intro es
  induction es with
  | nil =>
    intro d d₂ h
    cases h
    simp
  | cons e es ih =>
    intro d d₂ h
    unfold graph2InsEdges at h
    cases h₁ : graph2AddArc d e.1 e.2 with
    | none => rw [h₁] at h; cases h
    | some dA =>
      rw [h₁] at h
      dsimp only at h
      cases h₂ : graph2AddArc dA e.2 e.1 with
      | none => rw [h₂] at h; cases h
      | some dB =>
        rw [h₂] at h
        dsimp only at h
        rcases addArc_eq_some h₁ with ⟨ns, hl, rfl⟩
        rcases addArc_eq_some h₂ with ⟨ms, hm, rfl⟩
        have e1 := @sumlen_aput _ _ _ (ns ++ [e.2]) hl
        have e2 := @sumlen_aput _ _ _ (ms ++ [e.1]) hm
        have e3 := ih _ _ h
        rw [e3]
        simp only [List.length_append, List.length_cons, List.length_nil] at e1 e2 ⊢
        omega

theorem mem_aput_cases {β : Type} {d : List (Int × β)} {a : Int} {x : β} {p : Int × β}
    (h : p ∈ aput d a x) : p = (a, x) ∨ p ∈ d := by
  induction d with
  | nil => simpa [aput] using h
  | cons q rest ih =>
    obtain ⟨k, y⟩ := q
    by_cases hk : k = a
    · subst hk
      rw [aput, if_pos rfl] at h
      rcases List.mem_cons.mp h with rfl | h
      · exact Or.inl rfl
      · exact Or.inr (List.mem_cons_of_mem _ h)
    · rw [aput, if_neg hk] at h
      rcases List.mem_cons.mp h with rfl | h
      · exact Or.inr (by simp)
      · rcases ih h with h | h
        · exact Or.inl h
        · exact Or.inr (List.mem_cons_of_mem _ h)

theorem all_values_foldl_init : ∀ (vs : List Int) (d : Adj),
    (∀ p ∈ d, p.2 = ([] : List Int)) →
    ∀ p ∈ vs.foldl (fun d v => aput d v []) d, p.2 = ([] : List Int) := by
  intro vs
  induction vs with
  | nil => exact fun d h => h
  | cons v vs ih =>
    intro d h
    refine ih _ ?_
    intro p hp
    rcases mem_aput_cases hp with rfl | hp
    · rfl
    · exact h p hp

theorem initVerts_sumlen (vs : List Int) :
    ((graph2InitVerts vs).map (fun p => p.2.length)).sum = 0 := by
  apply List.sum_eq_zero
  intro x hx
  rcases List.mem_map.mp hx with ⟨p, hp, rfl⟩
  rw [all_values_foldl_init vs [] (by simp) p hp]
  rfl

theorem mk2_sumdeg {vs : List Int} {es : List (Int × Int)} {d : Adj}
    (h : mkGraph2 vs es = some d) :
    (d.map (fun p => p.2.length)).sum = 2 * es.length := by
  unfold mkGraph2 at h
  rw [insEdges_sumlen es _ d h, initVerts_sumlen]
  omega

theorem sumlt_aput {d : Adj} {a : Int} {ns ms : List Int} (h : alook d a = some ns) :
    ((aput d a ms).map (fun p => (p.2.filter (fun v => decide (p.1 < v))).length)).sum
        + (ns.filter (fun v => decide (a < v))).length
      = (d.map (fun p => (p.2.filter (fun v => decide (p.1 < v))).length)).sum
        + (ms.filter (fun v => decide (a < v))).length := by
  induction d with
  | nil => simp [alook] at h
  | cons p rest ih =>
    obtain ⟨k, y⟩ := p
    by_cases hk : k = a
    · subst hk
      rw [alook, if_pos rfl] at h
      cases h
      rw [aput, if_pos rfl]
      simp only [List.map_cons, List.sum_cons]
      omega
    · rw [alook, if_neg hk] at h
      rw [aput, if_neg hk]
      simp only [List.map_cons, List.sum_cons]
      have := ih h
      omega

theorem insEdges_sumlt : ∀ (es : List (Int × Int)) (d d₂ : Adj),
    graph2InsEdges d es = some d₂ → (∀ e ∈ es, e.1 ≠ e.2) →
    (d₂.map (fun p => (p.2.filter (fun v => decide (p.1 < v))).length)).sum
      = (d.map (fun p => (p.2.filter (fun v => decide (p.1 < v))).length)).sum
        + es.length := by
  intro es
  induction es with
  | nil =>
    intro d d₂ h _
    cases h
    simp
  | cons e es ih =>
    intro d d₂ h hloop
    unfold graph2InsEdges at h
    cases h₁ : graph2AddArc d e.1 e.2 with
    | none => rw [h₁] at h; cases h
    | some dA =>
      rw [h₁] at h
      dsimp only at h
      cases h₂ : graph2AddArc dA e.2 e.1 with
      | none => rw [h₂] at h; cases h
      | some dB =>
        rw [h₂] at h
        dsimp only at h
        rcases addArc_eq_some h₁ with ⟨ns, hl, rfl⟩
        rcases addArc_eq_some h₂ with ⟨ms, hm, rfl⟩
        have e1 := @sumlt_aput _ _ _ (ns ++ [e.2]) hl
        have e2 := @sumlt_aput _ _ _ (ms ++ [e.1]) hm
        have e3 := ih _ _ h (fun f hf => hloop f (by simp [hf]))
        have hne := hloop e (by simp)
        rw [e3]
        rw [List.filter_append] at e1 e2
        simp only [List.length_append] at e1 e2
        have hs1 : (List.filter (fun v => decide (e.1 < v)) [e.2]).length
            = if e.1 < e.2 then 1 else 0 := by
          by_cases hcw : e.1 < e.2 <;> simp [hcw]
        have hs2 : (List.filter (fun v => decide (e.2 < v)) [e.1]).length
            = if e.2 < e.1 then 1 else 0 := by
          by_cases hcw : e.2 < e.1 <;> simp [hcw]
        rw [hs1] at e1
        rw [hs2] at e2
        simp only [List.length_cons]
        split_ifs at e1 e2 <;> omega

theorem initVerts_sumlt (vs : List Int) :
    ((graph2InitVerts vs).map
      (fun p => (p.2.filter (fun v => decide (p.1 < v))).length)).sum = 0 := by
  apply List.sum_eq_zero
  intro x hx
  rcases List.mem_map.mp hx with ⟨p, hp, rfl⟩
  rw [all_values_foldl_init vs [] (by simp) p hp]
  rfl

theorem edges2_length {vs : List Int} {es : List (Int × Int)} {d : Adj}
    (h : mkGraph2 vs es = some d) (hloop : ∀ e ∈ es, e.1 ≠ e.2) :
    (Graph2.edges d).length = es.length := by
  unfold Graph2.edges
  rw [List.length_flatMap]
  have : (List.map (List.length ∘ fun p =>
      ((p.2.filter (fun v => decide (p.1 < v))).map (fun v => (p.1, v)))) d).sum
      = (d.map (fun p => (p.2.filter (fun v => decide (p.1 < v))).length)).sum := by
    congr 1
    apply List.map_congr_left
    intro p _
    simp
  rw [this]
  unfold mkGraph2 at h
  rw [insEdges_sumlt es _ d h hloop, initVerts_sumlt]
  omega

theorem pair_count_le_one_of_nodup : ∀ {l : List (Int × Int)}, l.Nodup →
    ∀ (z : Int × Int), l.count z ≤ 1 := by
  intro l
  induction l with
  | nil => simp
  | cons w l ih =>
    intro h z
    rw [List.nodup_cons] at h
    rw [List.count_cons]
    by_cases hw : w = z
    · rw [if_pos (by simp [hw]), ← hw, List.count_eq_zero.mpr h.1]
    · rw [if_neg (by simp [hw])]
      have := ih h.2 z
      omega

theorem int_nodup_of_count_le_one : ∀ {l : List Int}, (∀ v, l.count v ≤ 1) →
    l.Nodup := by
  intro l
  induction l with
  | nil => exact fun _ => List.nodup_nil
  | cons w l ih =>
    intro h
    rw [List.nodup_cons]
    constructor
    · intro hw
      have hcw := h w
      rw [List.count_cons, if_pos (by simp)] at hcw
      have hz : l.count w = 0 := by omega
      rw [List.count_eq_zero] at hz
      exact hz hw
    · refine ih (fun v => ?_)
      have := h v
      rw [List.count_cons] at this
      split_ifs at this <;> omega

theorem count_map_ge_two
    (l : List (Int × Int)) (f : (Int × Int) → (Int × Int))
    (x y z : Int × Int) (hx : f x = z) (hy : f y = z)
    (hxy : x ≠ y) : l.count x + l.count y ≤ (l.map f).count z := by
  induction l with
  | nil => simp
  | cons w l ih =>
    by_cases hwx : w = x
    · subst hwx
      rw [List.count_cons, List.count_cons, List.map_cons, List.count_cons]
      rw [if_pos (by simp), if_neg (by simp [hxy]), if_pos (by simp [hx])]
      omega
    · by_cases hwy : w = y
      · subst hwy
        rw [List.count_cons, List.count_cons, List.map_cons, List.count_cons]
        rw [if_neg (by simp [hwx]), if_pos (by simp), if_pos (by simp [hy])]
        omega
      · rw [List.count_cons, List.count_cons, List.map_cons, List.count_cons]
        rw [if_neg (by simp [hwx]), if_neg (by simp [hwy])]
        have : l.count x + l.count y ≤ (l.map f).count z := ih
        split_ifs <;> omega

theorem normPair_swap (u v : Int) : normPair (v, u) = normPair (u, v) := by
  unfold normPair
  dsimp only
  rw [min_comm, max_comm]

theorem mk2_adj_nodup {vs : List Int} {es : List (Int × Int)} {d : Adj}
    (h : mkGraph2 vs es = some d) (hloop : ∀ e ∈ es, e.1 ≠ e.2)
    (hnd : (es.map normPair).Nodup) : ∀ p ∈ d, p.2.Nodup := by
  intro p hp
  apply int_nodup_of_count_le_one
  intro v
  have hl : alook d p.1 = some p.2 := alook_of_mem_nodup (mk2_keys_nodup h) hp
  have hcnt : p.2.count v = countAdj d p.1 v := by
    unfold countAdj
    rw [hl]
    rfl
  rw [hcnt, mk2_count h]
  by_cases hv : p.1 = v
  · have : (p.1, v) ∉ es := by
      intro hc
      exact hloop _ hc hv
    have hz : List.count (p.1, v) es = 0 := List.count_eq_zero.mpr this
    have hz2 : List.count (v, p.1) es = 0 := by
      rw [List.count_eq_zero]
      intro hc
      exact hloop _ hc hv.symm
    omega
  · have hge := count_map_ge_two es normPair (p.1, v) (v, p.1) (normPair (p.1, v))
      rfl (normPair_swap p.1 v) (by simp [Prod.ext_iff]; tauto)
    have hle := pair_count_le_one_of_nodup hnd (normPair (p.1, v))
    omega

theorem edges2_fst_mem {d : Adj} {u v : Int} (h : (u, v) ∈ Graph2.edges d) :
    u ∈ akeys d := by
  unfold Graph2.edges at h
  rcases List.mem_flatMap.mp h with ⟨p, hp, hm⟩
  rcases List.mem_map.mp hm with ⟨w, _, hw⟩
  injection hw with h1 _
  rw [← h1]
  exact List.mem_map.mpr ⟨p, hp, rfl⟩

theorem edges2_nodup_of : ∀ (d : Adj), (akeys d).Nodup →
    (∀ p ∈ d, p.2.Nodup) → (Graph2.edges d).Nodup := by
  intro d
  induction d with
  | nil => intro _ _; simp [Graph2.edges]
  | cons p rest ih =>
    intro hk hadj
    obtain ⟨k, ns⟩ := p
    rw [show akeys ((k, ns) :: rest) = k :: akeys rest from rfl, List.nodup_cons] at hk
    show (((ns.filter (fun v => decide (k < v))).map (fun v => (k, v)))
      ++ Graph2.edges rest).Nodup
    refine List.Nodup.append ?_ (ih hk.2 (fun q hq => hadj q (by simp [hq]))) ?_
    · refine List.Nodup.map ?_ (List.Nodup.filter _ (hadj (k, ns) (by simp)))
      intro x y hxy
      exact congrArg Prod.snd hxy
    · rw [List.disjoint_left]
      rintro ⟨u, v⟩ hm hr
      rcases List.mem_map.mp hm with ⟨w, _, hw⟩
      injection hw with h1 _
      rw [← h1] at hr
      exact hk.1 (edges2_fst_mem hr)

theorem mk2_edges_nodup {vs : List Int} {es : List (Int × Int)} {d : Adj}
    (h : mkGraph2 vs es = some d) (hloop : ∀ e ∈ es, e.1 ≠ e.2)
    (hnd : (es.map normPair).Nodup) : (Graph2.edges d).Nodup :=
  edges2_nodup_of d (mk2_keys_nodup h) (mk2_adj_nodup h hloop hnd)

/-- C6 (corrected).  The degree sum equals twice the number of distinct
edges only on well-formed graphs: on Graph1 when the vertex list and edge
list are duplicate-free, the edges carry no self-loop, and every endpoint
is a vertex (a self-loop alone breaks it, see the counterexample); on a
constructed Graph2 when the edge input is loop-free and duplicate-free up
to normalization.  Both the direct sum over the vertices and the sum of
the degreeFn values are covered. -/
theorem c6_amended_degree_sum : ∀ (g : Graph1) (vs : List Int)
    (es : List (Int × Int)) (d : Adj),
    (g.vertices.Nodup → g.edges.Nodup → edgeClosed g.edges g.vertices →
      (∀ e ∈ g.edges, e.1 ≠ e.2) →
      ((g.vertices.map g.degree).sum = 2 * g.edges.dedup.length ∧
       (g.degreeFn.map Prod.snd).sum = 2 * g.edges.dedup.length)) ∧
    (mkGraph2 vs es = some d → (∀ e ∈ es, e.1 ≠ e.2) → (es.map normPair).Nodup →
      ((Graph2.degreeFn d).map Prod.snd).sum = 2 * (Graph2.edges d).dedup.length) := by
  intro g vs es d
  constructor
  · intro hv he hcl hloop
    have hded : g.edges.dedup = g.edges := List.dedup_eq_self.mpr he
    have hmain : (g.vertices.map g.degree).sum = 2 * g.edges.length := by
      unfold Graph1.degree
      exact degSum_aux g.edges g.vertices hv hcl hloop
    refine ⟨by rw [hded]; exact hmain, ?_⟩
    rw [hded]
    unfold Graph1.degreeFn
    rw [dedupFirst_eq_self hv, List.map_map]
    exact hmain
  · intro hmk hloop hnd
    have hded : (Graph2.edges d).dedup = Graph2.edges d :=
      List.dedup_eq_self.mpr (mk2_edges_nodup hmk hloop hnd)
    rw [hded, edges2_length hmk hloop, ← mk2_sumdeg hmk]
    unfold Graph2.degreeFn
    rw [List.map_map]
    rfl

/-- Witness for C6: the path graph on three vertices. -/
theorem c6_amended_degree_sum_witness :
    (((Graph1.mk1 [0, 1, 2] [(0, 1), (1, 2)]).vertices.map
        (Graph1.mk1 [0, 1, 2] [(0, 1), (1, 2)]).degree).sum =
      2 * (Graph1.mk1 [0, 1, 2] [(0, 1), (1, 2)]).edges.dedup.length ∧
     ((Graph1.mk1 [0, 1, 2] [(0, 1), (1, 2)]).degreeFn.map Prod.snd).sum =
      2 * (Graph1.mk1 [0, 1, 2] [(0, 1), (1, 2)]).edges.dedup.length) ∧
    ((Graph2.degreeFn [(0, [1]), (1, [0, 2]), (2, [1])]).map Prod.snd).sum =
      2 * (Graph2.edges [(0, [1]), (1, [0, 2]), (2, [1])]).dedup.length :=
  ⟨(c6_amended_degree_sum (Graph1.mk1 [0, 1, 2] [(0, 1), (1, 2)]) [0, 1, 2]
      [(0, 1), (1, 2)] [(0, [1]), (1, [0, 2]), (2, [1])]).1
    (by decide) (by decide) (by decide) (by decide),
   (c6_amended_degree_sum (Graph1.mk1 [0, 1, 2] [(0, 1), (1, 2)]) [0, 1, 2]
      [(0, 1), (1, 2)] [(0, [1]), (1, [0, 2]), (2, [1])]).2
    (by decide) (by decide) (by decide)⟩

/-- C6 counterexample: a single self-loop gives degree sum 1 but one
distinct edge, so the unconditional claim fails. -/
theorem c6_counterexample :
    ((Graph1.mk1 [1] [(1, 1)]).vertices.map (Graph1.mk1 [1] [(1, 1)]).degree).sum = 1 ∧
    (Graph1.mk1 [1] [(1, 1)]).edges.dedup.length = 1 := by decide

/-! ## C5: deletes on absent targets -/

/-- C5 (code bug).  Graph1's deleteEdge and Graph2's deleteVertex tolerate
absent targets, but `Graph2.deleteEdge(a, b)` evaluates `self.graph[a]`
before its ValueError handler can apply: when a is not a vertex at all the
uncaught KeyError escapes instead of the documented no-op. -/
theorem c5_code_bug_eval :
    Graph2.hasEdge [(2, [3]), (3, [2])] 1 2 = false ∧
    Graph2.deleteEdge [(2, [3]), (3, [2])] 1 2 = none ∧
    Graph1.deleteEdge (Graph1.mk1 [2, 3] [(2, 3)]) 1 2 = Graph1.mk1 [2, 3] [(2, 3)] ∧
    Graph2.deleteVertex [(2, [3]), (3, [2])] 1 = some [(2, [3]), (3, [2])] := by decide

/-! ## C10: the Graph2 adjacency symmetry invariant -/

theorem countAdj_eq_count {d : Adj} {x : Int} {ns : List Int}
    (h : alook d x = some ns) (y : Int) : countAdj d x y = ns.count y := by
  unfold countAdj
  rw [h]
  rfl

theorem countAdj_eq_zero_of_none {d : Adj} {x : Int} (h : alook d x = none)
    (y : Int) : countAdj d x y = 0 := by
  unfold countAdj
  rw [h]
  rfl

theorem countAdj_zero_of_not_mem {d : Adj} {x : Int} (h : x ∉ akeys d) (y : Int) :
    countAdj d x y = 0 := by
  cases hl : alook d x with
  | none => exact countAdj_eq_zero_of_none hl y
  | some ns => exact absurd (mem_akeys_of_alook hl) h

theorem countAdj_aput (d : Adj) (k : Int) (l : List Int) (x y : Int) :
    countAdj (aput d k l) x y = if x = k then l.count y else countAdj d x y := by
  by_cases hx : x = k
  · subst hx
    rw [if_pos rfl]
    unfold countAdj
    rw [alook_aput_self]
    rfl
  · rw [if_neg hx]
    unfold countAdj
    rw [alook_aput_ne _ _ hx]

theorem countAdj_pos_iff {d : Adj} {x y : Int} :
    0 < countAdj d x y ↔ ∃ ns, alook d x = some ns ∧ y ∈ ns := by
  unfold countAdj
  cases h : alook d x with
  | none => simp
  | some ns =>
    simp only [Option.getD_some]
    rw [List.count_pos_iff]
    constructor
    · intro hm
      exact ⟨ns, rfl, hm⟩
    · rintro ⟨ms, hms, hm⟩
      injection hms with h2
      rw [h2]
      exact hm

theorem hasEdge_eq_decide_count (d : Adj) (a b : Int) :
    Graph2.hasEdge d a b = decide (0 < countAdj d a b) := by
  unfold Graph2.hasEdge countAdj
  cases h : alook d a with
  | none => simp
  | some ns =>
    simp only [Option.getD_some]
    rw [Bool.eq_iff_iff, decide_eq_true_eq, decide_eq_true_eq, List.count_pos_iff]

theorem count_singleton_int (z w : Int) :
    ([z] : List Int).count w = if w = z then 1 else 0 := by
  by_cases h : w = z
  · subst h
    simp
  · simp [List.count_cons, h]

theorem addVC_inv {d : Adj} (a : Int) (hinv : G2Inv d) :
    G2Inv (Graph2.addVertexCleanly d a).1 := by
  unfold Graph2.addVertexCleanly
  split_ifs with h
  · show G2Inv d
    exact hinv
  · show G2Inv (aput d a [])
    have hA : alook d a = none := Option.not_isSome_iff_eq_none.mp h
    have ha : a ∉ akeys d := fun hm => h (alook_isSome_of_mem hm)
    refine ⟨nodup_akeys_aput _ hinv.nodup, ?_, ?_, ?_⟩
    · rw [closed_alook (nodup_akeys_aput _ hinv.nodup)]
      intro x ns hx v hv
      rcases alook_aput_cases hx with ⟨rfl, rfl⟩ | ⟨hxa, hx2⟩
      · cases hv
      · exact mem_akeys_aput_left _
          ((closed_alook hinv.nodup).mp hinv.closed x ns hx2 v hv)
    · intro x y
      rw [countAdj_aput, countAdj_aput]
      by_cases hx : x = a
      · rw [if_pos hx]
        by_cases hy : y = a
        · rw [if_pos hy, List.count_nil, List.count_nil]
        · rw [if_neg hy, List.count_nil, hinv.symm y x, hx,
            countAdj_eq_zero_of_none hA y]
      · rw [if_neg hx]
        by_cases hy : y = a
        · rw [if_pos hy, List.count_nil, hy, hinv.symm x a,
            countAdj_eq_zero_of_none hA x]
        · rw [if_neg hy]
          exact hinv.symm x y
    · intro x
      rw [countAdj_aput]
      by_cases hx : x = a
      · rw [if_pos hx, List.count_nil]
      · rw [if_neg hx]
        exact hinv.noloop x

theorem addEdge2_same {d : Adj} {a b : Int}
    (h : Graph2.hasEdge d a b = true) : (Graph2.addEdge d a b).1 = d := by
  unfold Graph2.addEdge
  rw [if_pos h]

theorem addEdge2_eq {d : Adj} {a b : Int} (hab : a ≠ b)
    (hne : Graph2.hasEdge d a b = false) :
    (Graph2.addEdge d a b).1
      = aput (aput d a (Graph2.adj d a ++ [b])) b (Graph2.adj d b ++ [a]) := by
  unfold Graph2.addEdge Graph2.adj
  split_ifs with h1
  · rw [hne] at h1
    cases h1
  · cases ha : alook d a <;> cases hb : alook d b <;> dsimp only
    · rfl
    · rw [alook_aput_ne _ _ (Ne.symm hab), hb]
      rfl
    · rfl
    · rw [alook_aput_ne _ _ (Ne.symm hab), hb]
      rfl

theorem addEdge2_count_t {d : Adj} {a b : Int} (hab : a ≠ b)
    (hne : Graph2.hasEdge d a b = false) (x y : Int) :
    countAdj (Graph2.addEdge d a b).1 x y
      = countAdj d x y + (if x = a ∧ y = b then 1 else 0)
        + (if x = b ∧ y = a then 1 else 0) := by
  rw [addEdge2_eq hab hne, countAdj_aput, countAdj_aput]
  by_cases hxb : x = b
  · subst hxb
    rw [if_pos rfl, List.count_append, count_singleton_int,
      show Graph2.adj d x = (alook d x).getD [] from rfl,
      show countAdj d x y = ((alook d x).getD []).count y from rfl,
      if_neg (fun hc : x = a ∧ y = x => hab hc.1.symm)]
    by_cases hya : y = a
    · rw [if_pos hya, if_pos ⟨rfl, hya⟩]
    · rw [if_neg hya, if_neg (fun hc : x = x ∧ y = a => hya hc.2)]
  · rw [if_neg hxb]
    by_cases hxa : x = a
    · subst hxa
      rw [if_pos rfl, List.count_append, count_singleton_int,
        show Graph2.adj d x = (alook d x).getD [] from rfl,
        show countAdj d x y = ((alook d x).getD []).count y from rfl,
        if_neg (fun hc : x = b ∧ y = x => hxb hc.1)]
      by_cases hyb : y = b
      · rw [if_pos hyb, if_pos ⟨rfl, hyb⟩]
      · rw [if_neg hyb, if_neg (fun hc : x = x ∧ y = b => hyb hc.2)]
    · rw [if_neg hxa, if_neg (fun hc => hxa hc.1), if_neg (fun hc => hxb hc.1)]
      omega

theorem addEdge2_inv {d : Adj} {a b : Int} (hab : a ≠ b) (hinv : G2Inv d) :
    G2Inv (Graph2.addEdge d a b).1 := by
  cases hE : Graph2.hasEdge d a b with
  | true =>
    rw [addEdge2_same hE]
    exact hinv
  | false =>
    refine ⟨addEdge2_keys_nodup a b hinv.nodup,
      addEdge2_closed a b hinv.nodup hinv.closed, ?_, ?_⟩
    · intro x y
      rw [addEdge2_count_t hab hE, addEdge2_count_t hab hE]
      have hs := hinv.symm x y
      split_ifs <;> omega
    · intro x
      rw [addEdge2_count_t hab hE]
      have hz := hinv.noloop x
      split_ifs <;> omega

theorem addEdges2_inv : ∀ (es : List (Int × Int)) (d : Adj),
    (∀ e ∈ es, e.1 ≠ e.2) → G2Inv d → G2Inv (Graph2.addEdges d es) := by
  intro es
  induction es with
  | nil =>
    intro d _ h
    exact h
  | cons e es ih =>
    intro d hl hinv
    unfold Graph2.addEdges
    rw [List.foldl_cons]
    exact ih _ (fun f hf => hl f (by simp [hf]))
      (addEdge2_inv (hl e (by simp)) hinv)

theorem delEdge2_inv {d d₂ : Adj} {a b : Int} (hinv : G2Inv d)
    (h : Graph2.deleteEdge d a b = some d₂) : G2Inv d₂ := by
  unfold Graph2.deleteEdge at h
  cases ha : alook d a with
  | none =>
    rw [ha] at h
    cases h
  | some na =>
    rw [ha] at h
    dsimp only at h
    by_cases hb : b ∈ na
    · rw [if_pos hb] at h
      have hab : a ≠ b := by
        rintro rfl
        have hz := hinv.noloop a
        rw [countAdj_eq_count ha] at hz
        rw [← List.count_pos_iff] at hb
        omega
      have hbk : b ∈ akeys d :=
        (closed_alook hinv.nodup).mp hinv.closed a na ha b hb
      rcases Option.isSome_iff_exists.mp (alook_isSome_of_mem hbk) with ⟨nb, hnb⟩
      rw [alook_aput_ne _ _ (Ne.symm hab), hnb] at h
      dsimp only at h
      have hanb : a ∈ nb := by
        have hs := hinv.symm a b
        rw [countAdj_eq_count ha, countAdj_eq_count hnb] at hs
        rw [← List.count_pos_iff] at hb ⊢
        omega
      rw [if_pos hanb] at h
      have hd₂ : aput (aput d a (na.erase b)) b (nb.erase a) = d₂ :=
        Option.some.inj h
      rw [← hd₂]
      have hea : ∀ z : Int, (nb.erase a).count z
          = nb.count z - (if z = a then 1 else 0) := by
        intro z
        by_cases hz : z = a
        · rw [if_pos hz, hz, List.count_erase_self]
        · rw [if_neg hz, List.count_erase_of_ne hz]
          omega
      have heb : ∀ z : Int, (na.erase b).count z
          = na.count z - (if z = b then 1 else 0) := by
        intro z
        by_cases hz : z = b
        · rw [if_pos hz, hz, List.count_erase_self]
        · rw [if_neg hz, List.count_erase_of_ne hz]
          omega
      have key : ∀ z w : Int,
          (if z = b then (nb.erase a).count w
            else if z = a then (na.erase b).count w else countAdj d z w)
          = countAdj d z w - (if z = a ∧ w = b then 1 else 0)
            - (if z = b ∧ w = a then 1 else 0) := by
        intro z w
        by_cases hzb : z = b
        · rw [if_pos hzb, hea w, hzb, countAdj_eq_count hnb,
            if_neg (fun hc : b = a ∧ w = b => hab hc.1.symm)]
          by_cases hwa : w = a
          · rw [if_pos hwa, if_pos ⟨rfl, hwa⟩]
            omega
          · rw [if_neg hwa, if_neg (fun hc : b = b ∧ w = a => hwa hc.2)]
            omega
        · rw [if_neg hzb]
          by_cases hza : z = a
          · rw [if_pos hza, heb w, hza, countAdj_eq_count ha,
              if_neg (fun hc : a = b ∧ w = a => hab hc.1)]
            by_cases hwb : w = b
            · rw [if_pos hwb, if_pos ⟨rfl, hwb⟩]
              omega
            · rw [if_neg hwb, if_neg (fun hc : a = a ∧ w = b => hwb hc.2)]
              omega
          · rw [if_neg hza, if_neg (fun hc => hza hc.1),
              if_neg (fun hc => hzb hc.1)]
            omega
      have hcb : 0 < countAdj d a b := by
        rw [countAdj_eq_count ha]
        exact List.count_pos_iff.mpr hb
      have hca : 0 < countAdj d b a := by
        rw [countAdj_eq_count hnb]
        exact List.count_pos_iff.mpr hanb
      refine ⟨nodup_akeys_aput _ (nodup_akeys_aput _ hinv.nodup), ?_, ?_, ?_⟩
      · refine closed_two_aputs hinv.nodup hinv.closed ?_ ?_
        · intro v hv
          exact Or.inl ((closed_alook hinv.nodup).mp hinv.closed a na ha v
            (List.mem_of_mem_erase hv))
        · intro v hv
          exact Or.inl ((closed_alook hinv.nodup).mp hinv.closed b nb hnb v
            (List.mem_of_mem_erase hv))
      · intro x y
        rw [countAdj_aput, countAdj_aput, countAdj_aput, countAdj_aput,
          key x y, key y x]
        have hs := hinv.symm x y
        split_ifs <;> omega
      · intro x
        rw [countAdj_aput, countAdj_aput, key x x]
        have hz := hinv.noloop x
        split_ifs <;> omega
    · rw [if_neg hb] at h
      have hd : d = d₂ := Option.some.inj h
      rw [← hd]
      exact hinv

theorem stripFrom_spec : ∀ (xs : List Int) (e : Adj) (a : Int),
    (akeys e).Nodup → a ∉ akeys e →
    (∀ z ns, alook e z = some ns → ∀ v ∈ ns, v = a ∨ v ∈ akeys e) →
    (∀ x, countAdj e x a = xs.count x) →
    ∃ e₂, Graph2.stripFrom a e xs = some e₂ ∧
      akeys e₂ = akeys e ∧
      (∀ x, countAdj e₂ x a = 0) ∧
      (∀ x y, y ≠ a → countAdj e₂ x y = countAdj e x y) ∧
      (∀ z ns, alook e₂ z = some ns → ∀ v ∈ ns, v = a ∨ v ∈ akeys e₂) := by
  intro xs
  induction xs with
  | nil =>
    intro e a hnd hna hcl hcnt
    refine ⟨e, rfl, rfl, ?_, fun x y _ => rfl, hcl⟩
    intro x
    rw [hcnt x, List.count_nil]
  | cons x rest ih =>
    intro e a hnd hna hcl hcnt
    have hpos : 0 < countAdj e x a := by
      rw [hcnt x, List.count_cons_self]
      omega
    obtain ⟨nx, hx, hax⟩ := countAdj_pos_iff.mp hpos
    have hxk : x ∈ akeys e := mem_akeys_of_alook hx
    have hkeys1 : akeys (aput e x (nx.erase a)) = akeys e := akeys_aput_of_mem _ hxk
    have hnd1 : (akeys (aput e x (nx.erase a))).Nodup := by
      rw [hkeys1]
      exact hnd
    have hna1 : a ∉ akeys (aput e x (nx.erase a)) := by
      rw [hkeys1]
      exact hna
    have hcl1 : ∀ z ns, alook (aput e x (nx.erase a)) z = some ns →
        ∀ v ∈ ns, v = a ∨ v ∈ akeys (aput e x (nx.erase a)) := by
      intro z ns hz v hv
      rw [hkeys1]
      rcases alook_aput_cases hz with ⟨hz1, hns⟩ | ⟨hzx, hz2⟩
      · rw [hns] at hv
        exact hcl x nx hx v (List.mem_of_mem_erase hv)
      · exact hcl z ns hz2 v hv
    have hcnt1 : ∀ z, countAdj (aput e x (nx.erase a)) z a = rest.count z := by
      intro z
      rw [countAdj_aput]
      by_cases hz : z = x
      · rw [if_pos hz, List.count_erase_self, ← countAdj_eq_count hx a,
          hcnt x, List.count_cons_self, hz]
        omega
      · rw [if_neg hz, hcnt z, List.count_cons, if_neg (by simpa using Ne.symm hz)]
        omega
    obtain ⟨e₂, hrun, hkeys2, hz2, hpres2, hcl2⟩ :=
      ih (aput e x (nx.erase a)) a hnd1 hna1 hcl1 hcnt1
    refine ⟨e₂, ?_, by rw [hkeys2, hkeys1], hz2, ?_, hcl2⟩
    · show Graph2.stripFrom a e (x :: rest) = some e₂
      unfold Graph2.stripFrom
      rw [hx]
      dsimp only
      rw [if_pos hax]
      exact hrun
    · intro z y hy
      rw [hpres2 z y hy, countAdj_aput]
      by_cases hz : z = x
      · rw [if_pos hz, List.count_erase_of_ne hy, hz, countAdj_eq_count hx]
      · rw [if_neg hz]

theorem delVertex2_inv {d d₂ : Adj} {a : Int} (hinv : G2Inv d)
    (h : Graph2.deleteVertex d a = some d₂) : G2Inv d₂ := by
  unfold Graph2.deleteVertex at h
  cases ha : alook d a with
  | none =>
    rw [ha] at h
    dsimp only at h
    have hd : d = d₂ := Option.some.inj h
    rw [← hd]
    exact hinv
  | some ns =>
    rw [ha] at h
    dsimp only at h
    have hkeysdel : akeys (adel d a) = (akeys d).erase a := akeys_adel d a
    have hnd0 : (akeys (adel d a)).Nodup := by
      rw [hkeysdel]
      exact hinv.nodup.erase a
    have hna0 : a ∉ akeys (adel d a) := by
      rw [hkeysdel]
      intro hc
      exact ((hinv.nodup.mem_erase_iff).mp hc).1 rfl
    have hcl0 : ∀ z ms, alook (adel d a) z = some ms →
        ∀ v ∈ ms, v = a ∨ v ∈ akeys (adel d a) := by
      intro z ms hz v hv
      by_cases hza : z = a
      · rw [hza, alook_adel_self hinv.nodup] at hz
        cases hz
      · rw [alook_adel_ne _ hza] at hz
        have hvk : v ∈ akeys d :=
          (closed_alook hinv.nodup).mp hinv.closed z ms hz v hv
        by_cases hva : v = a
        · exact Or.inl hva
        · right
          rw [hkeysdel, hinv.nodup.mem_erase_iff]
          exact ⟨hva, hvk⟩
    have hcnt0 : ∀ x, countAdj (adel d a) x a = ns.count x := by
      intro x
      by_cases hxa : x = a
      · rw [hxa, countAdj_eq_zero_of_none (alook_adel_self hinv.nodup) a]
        have h2 := hinv.noloop a
        rw [countAdj_eq_count ha] at h2
        omega
      · have hstep : countAdj (adel d a) x a = countAdj d x a := by
          unfold countAdj
          rw [alook_adel_ne _ hxa]
        rw [hstep, hinv.symm x a, countAdj_eq_count ha]
    obtain ⟨e₂, hrun, hkeys2, hz2, hpres2, hcl2⟩ :=
      stripFrom_spec ns (adel d a) a hnd0 hna0 hcl0 hcnt0
    rw [hrun] at h
    have he : e₂ = d₂ := Option.some.inj h
    rw [← he]
    have hkeys : akeys e₂ = (akeys d).erase a := by
      rw [hkeys2, hkeysdel]
    have hnd2 : (akeys e₂).Nodup := by
      rw [hkeys]
      exact hinv.nodup.erase a
    have hna2 : a ∉ akeys e₂ := by
      rw [hkeys2]
      exact hna0
    have hcA : ∀ y, countAdj e₂ a y = 0 := fun y => countAdj_zero_of_not_mem hna2 y
    refine ⟨hnd2, ?_, ?_, ?_⟩
    · intro p hp v hv
      have hl2 : alook e₂ p.1 = some p.2 := alook_of_mem_nodup hnd2 hp
      rcases hcl2 p.1 p.2 hl2 v hv with hva | hvk
      · exfalso
        have hpos : 0 < countAdj e₂ p.1 a :=
          countAdj_pos_iff.mpr ⟨p.2, hl2, hva ▸ hv⟩
        rw [hz2 p.1] at hpos
        omega
      · exact hvk
    · intro x y
      by_cases hya : y = a
      · rw [hya, hz2 x, hcA x]
      · by_cases hxa : x = a
        · rw [hxa, hcA y, hz2 y]
        · rw [hpres2 x y hya, hpres2 y x hxa]
          have e1 : countAdj (adel d a) x y = countAdj d x y := by
            unfold countAdj
            rw [alook_adel_ne _ hxa]
          have e2 : countAdj (adel d a) y x = countAdj d y x := by
            unfold countAdj
            rw [alook_adel_ne _ hya]
          rw [e1, e2]
          exact hinv.symm x y
    · intro x
      by_cases hxa : x = a
      · rw [hxa, hz2 a]
      · rw [hpres2 x x hxa]
        have e1 : countAdj (adel d a) x x = countAdj d x x := by
          unfold countAdj
          rw [alook_adel_ne _ hxa]
        rw [e1]
        exact hinv.noloop x

theorem step2_inv {d d₂ : Adj} {op : G2Op} (hinv : G2Inv d)
    (hnl : op.noLoop = true) (h : Graph2.step d op = some d₂) : G2Inv d₂ := by
  cases op with
  | addVC a =>
    simp only [Graph2.step] at h
    have hd : (Graph2.addVertexCleanly d a).1 = d₂ := Option.some.inj h
    rw [← hd]
    exact addVC_inv a hinv
  | addE a b =>
    simp only [G2Op.noLoop, decide_eq_true_eq] at hnl
    simp only [Graph2.step] at h
    have hd : (Graph2.addEdge d a b).1 = d₂ := Option.some.inj h
    rw [← hd]
    exact addEdge2_inv hnl hinv
  | addEs es =>
    simp only [G2Op.noLoop, List.all_eq_true, decide_eq_true_eq] at hnl
    simp only [Graph2.step] at h
    have hd : Graph2.addEdges d es = d₂ := Option.some.inj h
    rw [← hd]
    exact addEdges2_inv es d hnl hinv
  | delV a =>
    simp only [Graph2.step] at h
    exact delVertex2_inv hinv h
  | delE a b =>
    simp only [Graph2.step] at h
    exact delEdge2_inv hinv h

theorem run2_inv : ∀ (ops : List G2Op) (d d₂ : Adj), G2Inv d →
    (∀ op ∈ ops, op.noLoop = true) → Graph2.run d ops = some d₂ → G2Inv d₂ := by
  intro ops
  induction ops with
  | nil =>
    intro d d₂ hinv _ h
    have hd : d = d₂ := Option.some.inj h
    rw [← hd]
    exact hinv
  | cons op ops ih =>
    intro d d₂ hinv hnl h
    unfold Graph2.run at h
    cases hs : Graph2.step d op with
    | none =>
      rw [hs] at h
      cases h
    | some d₁ =>
      rw [hs] at h
      dsimp only at h
      exact ih d₁ d₂ (step2_inv hinv (hnl op (by simp)) hs)
        (fun o ho => hnl o (by simp [ho])) h

theorem mk2_inv {vs : List Int} {es : List (Int × Int)} {d : Adj}
    (h : mkGraph2 vs es = some d) (hloop : ∀ e ∈ es, e.1 ≠ e.2) : G2Inv d := by
  refine ⟨mk2_keys_nodup h, mk2_closed h, ?_, ?_⟩
  · intro x y
    rw [mk2_count h, mk2_count h]
    omega
  · intro x
    rw [mk2_count h]
    have hx : (x, x) ∉ es := fun hc => hloop _ hc rfl
    rw [List.count_eq_zero.mpr hx]

/-- C10 (corrected).  The implicit adjacency symmetry invariant needs a
loop-freedom side condition the claim omits: a self-loop edge is accepted
by the constructor (its endpoints lie among the vertices), but it makes
deleteVertex hit its own deleted key inside the cleanup loop, silently
aborting it and leaving an asymmetric adjacency map (see the
counterexample).  Amended: for a successfully constructed Graph2 whose
input edges are loop-free, after any successful sequence of
addVertexCleanly, addEdge, addEdges (adding no self-loop), deleteEdge and
deleteVertex calls, vertex y occurs in x's neighbor list exactly as many
times as x occurs in y's, and consequently hasEdge(a,b) = hasEdge(b,a). -/
theorem c10_amended_symmetry : ∀ (vs : List Int) (es : List (Int × Int))
    (d d₂ : Adj) (ops : List G2Op) (a b : Int),
    mkGraph2 vs es = some d → (∀ e ∈ es, e.1 ≠ e.2) →
    (∀ op ∈ ops, op.noLoop = true) → Graph2.run d ops = some d₂ →
    (∀ x y, countAdj d₂ x y = countAdj d₂ y x) ∧
    Graph2.hasEdge d₂ a b = Graph2.hasEdge d₂ b a := by
  intro vs es d d₂ ops a b hmk hloop hnl hrun
  have hinv : G2Inv d₂ := run2_inv ops d d₂ (mk2_inv hmk hloop) hnl hrun
  refine ⟨hinv.symm, ?_⟩
  rw [hasEdge_eq_decide_count, hasEdge_eq_decide_count, hinv.symm a b]

/-- Witness for C10: the path 1-2, extended by addEdge(2,3) and with
vertex 1 then deleted. -/
theorem c10_amended_symmetry_witness :
    (mkGraph2 [1, 2] [(1, 2)] = some [(1, [2]), (2, [1])] ∧
     (∀ e ∈ ([(1, 2)] : List (Int × Int)), e.1 ≠ e.2) ∧
     (∀ op ∈ [G2Op.addE 2 3, G2Op.delV 1], op.noLoop = true) ∧
     Graph2.run [(1, [2]), (2, [1])] [G2Op.addE 2 3, G2Op.delV 1]
       = some [(2, [3]), (3, [2])]) ∧
    (∀ x y, countAdj [(2, [3]), (3, [2])] x y
      = countAdj [(2, [3]), (3, [2])] y x) ∧
    Graph2.hasEdge [(2, [3]), (3, [2])] 2 3
      = Graph2.hasEdge [(2, [3]), (3, [2])] 3 2 :=
  ⟨⟨by decide, by decide, by decide, by decide⟩,
   c10_amended_symmetry [1, 2] [(1, 2)] [(1, [2]), (2, [1])] [(2, [3]), (3, [2])]
     [G2Op.addE 2 3, G2Op.delV 1] 2 3 (by decide) (by decide) (by decide)
     (by decide)⟩

/-- C10 counterexample: the constructor accepts the self-loop (1,1), whose
endpoints lie among the vertices, and deleteVertex(1) then looks up the
already-deleted key 1 inside its own cleanup loop: the caught KeyError
aborts the loop early and leaves vertex 1 inside 2's neighbor list, so
hasEdge(2,1) is true while hasEdge(1,2) is false. -/
theorem c10_counterexample :
    edgeClosed [(1, 1), (1, 2)] [1, 2] ∧
    mkGraph2 [1, 2] [(1, 1), (1, 2)] = some [(1, [1, 1, 2]), (2, [1])] ∧
    Graph2.run [(1, [1, 1, 2]), (2, [1])] [G2Op.delV 1] = some [(2, [1])] ∧
    countAdj [(2, [1])] 2 1 = 1 ∧ countAdj [(2, [1])] 1 2 = 0 ∧
    Graph2.hasEdge [(2, [1])] 2 1 = true ∧
    Graph2.hasEdge [(2, [1])] 1 2 = false := by decide

/-! ## C1: connectivity — shared graph-semantic lemmas -/

theorem adjRel_symm {es : List (Int × Int)} {x y : Int} (h : adjRel es x y) :
    adjRel es y x := Or.symm h

theorem Reach.symm {es : List (Int × Int)} {x y : Int} (h : Reach es x y) :
    Reach es y x :=
  Relation.ReflTransGen.symmetric (fun _ _ ha => adjRel_symm ha) h

theorem Reach.trans {es : List (Int × Int)} {x y z : Int} (h₁ : Reach es x y)
    (h₂ : Reach es y z) : Reach es x z :=
  Relation.ReflTransGen.trans h₁ h₂

theorem Reach.single {es : List (Int × Int)} {x y : Int} (h : adjRel es x y) :
    Reach es x y := Relation.ReflTransGen.single h

theorem Reach_congr {es fs : List (Int × Int)}
    (h : ∀ x y, adjRel es x y ↔ adjRel fs x y) {x y : Int} :
    Reach es x y ↔ Reach fs x y :=
  ⟨Relation.ReflTransGen.mono (fun a b ha => (h a b).mp ha),
   Relation.ReflTransGen.mono (fun a b ha => (h a b).mpr ha)⟩

theorem ConnSpec_congr {vs : List Int} {es fs : List (Int × Int)}
    (h : ∀ x y, adjRel es x y ↔ adjRel fs x y) :
    ConnSpec vs es ↔ ConnSpec vs fs := by
  unfold ConnSpec
  constructor
  · rintro ⟨h1, h2⟩
    exact ⟨h1, fun x hx y hy => (Reach_congr h).mp (h2 x hx y hy)⟩
  · rintro ⟨h1, h2⟩
    exact ⟨h1, fun x hx y hy => (Reach_congr h).mpr (h2 x hx y hy)⟩

theorem adjRel_normPair {es : List (Int × Int)} (x y : Int) :
    adjRel (es.map normPair) x y ↔ adjRel es x y := by
  unfold adjRel
  constructor
  · rintro (h | h) <;> rcases List.mem_map.mp h with ⟨e, he, hn⟩ <;>
      rcases minmax_pair_cases e.1 e.2 with hc | hc <;>
      rw [show normPair e = (min e.1 e.2, max e.1 e.2) from rfl, hc] at hn <;>
      injection hn with h1 h2 <;> rw [← h1, ← h2]
    · exact Or.inl (by rwa [show (e.1, e.2) = e from rfl])
    · exact Or.inr (by rwa [show (e.1, e.2) = e from rfl])
    · exact Or.inr (by rwa [show (e.1, e.2) = e from rfl])
    · exact Or.inl (by rwa [show (e.1, e.2) = e from rfl])
  · rintro (h | h)
    · rcases minmax_pair_cases x y with hc | hc
      · exact Or.inl (List.mem_map.mpr ⟨(x, y), h, by
          show (min x y, max x y) = (x, y)
          rw [hc]⟩)
      · exact Or.inr (List.mem_map.mpr ⟨(x, y), h, by
          show (min x y, max x y) = (y, x)
          rw [hc]⟩)
    · rcases minmax_pair_cases y x with hc | hc
      · exact Or.inr (List.mem_map.mpr ⟨(y, x), h, by
          show (min y x, max y x) = (y, x)
          rw [hc]⟩)
      · exact Or.inl (List.mem_map.mpr ⟨(y, x), h, by
          show (min y x, max y x) = (x, y)
          rw [hc]⟩)

theorem distinctCount_eq_one_iff (b : Lbl) (vs : List Int) :
    distinctCount b vs = 1 ↔ vs ≠ [] ∧ ∀ x ∈ vs, ∀ y ∈ vs, b x = b y := by
  unfold distinctCount
  rw [List.length_eq_one]
  constructor
  · rintro ⟨c, hc⟩
    have hmem : ∀ z ∈ vs, b z = c := by
      intro z hz
      have : b z ∈ (vs.map b).dedup := List.mem_dedup.mpr (List.mem_map.mpr ⟨z, hz, rfl⟩)
      rw [hc] at this
      exact List.mem_singleton.mp this
    constructor
    · intro hnil
      rw [hnil] at hc
      simp at hc
    · intro x hx y hy
      rw [hmem x hx, hmem y hy]
  · rintro ⟨hne, hall⟩
    rcases List.exists_mem_of_ne_nil vs hne with ⟨v, hv⟩
    refine ⟨b v, ?_⟩
    have h1 : ∀ z ∈ (vs.map b).dedup, z = b v := by
      intro z hz
      rcases List.mem_map.mp (List.mem_dedup.mp hz) with ⟨w, hw, rfl⟩
      exact hall w hw v hv
    have h2 : b v ∈ (vs.map b).dedup := List.mem_dedup.mpr (List.mem_map.mpr ⟨v, hv, rfl⟩)
    have hnd : (vs.map b).dedup.Nodup := List.nodup_dedup _
    cases hd : (vs.map b).dedup with
    | nil =>
      rw [hd] at h2
      cases h2
    | cons z zs =>
      rw [hd] at h1 h2 hnd
      have hz : z = b v := h1 z (by simp)
      have hzs : zs = [] := by
        cases hzs : zs with
        | nil => rfl
        | cons w ws =>
          exfalso
          rw [hzs] at h1 hnd
          have hw : w = b v := h1 w (by simp)
          rw [List.nodup_cons] at hnd
          exact hnd.1 (by simp [hz, hw])
      rw [hz, hzs]

/-! ## C1: the direct partition-merge algorithm (isConnected1, Graph1 side) -/

theorem passMerge_coarser : ∀ (es : List (Int × Int)) (b : Lbl) (ch : Bool)
    (x y : Int), b x = b y → (passMerge es b ch).1 x = (passMerge es b ch).1 y := by
  intro es
  induction es with
  | nil =>
    intro b ch x y h
    exact h
  | cons e es ih =>
    intro b ch x y h
    unfold passMerge
    by_cases hc : b e.1 = b e.2
    · rw [if_pos hc]
      exact ih b ch x y h
    · rw [if_neg hc]
      refine ih _ true x y ?_
      show remapOne b (b e.2) (b e.1) x = remapOne b (b e.2) (b e.1) y
      unfold remapOne
      rw [h]

theorem passMerge_stable : ∀ (es : List (Int × Int)) (b : Lbl) (ch : Bool),
    ∀ e ∈ es, (passMerge es b ch).1 e.1 = (passMerge es b ch).1 e.2 := by
  intro es
  induction es with
  | nil =>
    intro b ch e he
    cases he
  | cons f es ih =>
    intro b ch e he
    unfold passMerge
    by_cases hc : b f.1 = b f.2
    · rw [if_pos hc]
      rcases List.mem_cons.mp he with rfl | he
      · exact passMerge_coarser es b ch e.1 e.2 hc
      · exact ih b ch e he
    · rw [if_neg hc]
      rcases List.mem_cons.mp he with rfl | he
      · refine passMerge_coarser es _ true e.1 e.2 ?_
        show remapOne b (b e.2) (b e.1) e.1 = remapOne b (b e.2) (b e.1) e.2
        unfold remapOne
        rw [if_neg hc, if_pos rfl]
      · exact ih _ true e he

theorem passMerge_nochange : ∀ (es : List (Int × Int)) (b : Lbl) (ch : Bool),
    (∀ e ∈ es, b e.1 = b e.2) → passMerge es b ch = (b, ch) := by
  intro es
  induction es with
  | nil =>
    intro b ch _
    rfl
  | cons e es ih =>
    intro b ch h
    unfold passMerge
    rw [if_pos (h e (by simp))]
    exact ih b ch (fun f hf => h f (by simp [hf]))

theorem passMerge_sound : ∀ (es : List (Int × Int)) (b : Lbl) (ch : Bool)
    (es₀ : List (Int × Int)), (∀ e ∈ es, e ∈ es₀) →
    (∀ x y, b x = b y → Reach es₀ x y) →
    ∀ x y, (passMerge es b ch).1 x = (passMerge es b ch).1 y → Reach es₀ x y := by
  intro es
  induction es with
  | nil =>
    intro b ch es₀ _ hinv x y h
    exact hinv x y h
  | cons e es ih =>
    intro b ch es₀ hsub hinv x y
    unfold passMerge
    by_cases hc : b e.1 = b e.2
    · rw [if_pos hc]
      exact ih b ch es₀ (fun f hf => hsub f (by simp [hf])) hinv x y
    · rw [if_neg hc]
      refine ih _ true es₀ (fun f hf => hsub f (by simp [hf])) ?_ x y
      intro u w h'
      have hadj : adjRel es₀ e.1 e.2 := Or.inl (by
        rw [show (e.1, e.2) = e from rfl]
        exact hsub e (by simp))
      have h'' : (if b u = b e.2 then b e.1 else b u)
          = (if b w = b e.2 then b e.1 else b w) := h'
      by_cases hu : b u = b e.2 <;> by_cases hw : b w = b e.2
      · exact (hinv u e.2 hu).trans (hinv w e.2 hw).symm
      · rw [if_pos hu, if_neg hw] at h''
        exact ((hinv u e.2 hu).trans (Reach.single (adjRel_symm hadj))).trans
          (hinv w e.1 h''.symm).symm
      · rw [if_neg hu, if_pos hw] at h''
        exact ((hinv u e.1 h'').trans (Reach.single hadj)).trans
          (hinv w e.2 hw).symm
      · rw [if_neg hu, if_neg hw] at h''
        exact hinv u w h''

theorem loopMerge3_eq (es : List (Int × Int)) (b : Lbl) :
    loopMerge 3 es b = some (passMerge es b false).1 := by
  have e1 : loopMerge 3 es b = (match passMerge es b false with
    | (b₂, true) => loopMerge 2 es b₂
    | (b₂, false) => some b₂) := rfl
  rw [e1]
  cases hp : passMerge es b false with
  | mk b₁ c =>
    cases c with
    | false => rfl
    | true =>
      dsimp only
      have hst : ∀ e ∈ es, b₁ e.1 = b₁ e.2 := by
        intro e he
        have h := passMerge_stable es b false e he
        rw [hp] at h
        exact h
      have e2 : loopMerge 2 es b₁ = (match passMerge es b₁ false with
        | (b₂, true) => loopMerge 1 es b₂
        | (b₂, false) => some b₂) := rfl
      rw [e2, passMerge_nochange es b₁ false hst]

theorem pm_main (es : List (Int × Int)) (vs : List Int) :
    ∃ b₁, loopMerge 3 es (fun v => v) = some b₁ ∧
      (distinctCount b₁ vs = 1 ↔ ConnSpec vs es) := by
  refine ⟨(passMerge es (fun v => v) false).1, loopMerge3_eq es _, ?_⟩
  rw [distinctCount_eq_one_iff]
  have hsound : ∀ x y, (passMerge es (fun v => v) false).1 x
      = (passMerge es (fun v => v) false).1 y → Reach es x y :=
    passMerge_sound es (fun v => v) false es (fun _ he => he)
      (fun x y h => by
        show Reach es x y
        rw [show x = y from h]
        exact Relation.ReflTransGen.refl)
  have hconst : ∀ x y, Reach es x y →
      (passMerge es (fun v => v) false).1 x = (passMerge es (fun v => v) false).1 y := by
    intro x y h
    induction h with
    | refl => rfl
    | tail h1 h2 ih =>
      rcases h2 with h2 | h2
      · exact ih.trans (passMerge_stable es (fun v => v) false _ h2)
      · exact ih.trans (passMerge_stable es (fun v => v) false _ h2).symm
  unfold ConnSpec
  constructor
  · rintro ⟨hne, hall⟩
    exact ⟨hne, fun x hx y hy => hsound x y (hall x hx y hy)⟩
  · rintro ⟨hne, hreach⟩
    exact ⟨hne, fun x hx y hy => hconst x y (hreach x hx y hy)⟩

/-! ## C1: the direct partition-merge algorithm (isConnected1, Graph2 side) -/

theorem remapSet_coarser {b : Lbl} {srcs : List Int} {tgt : Int} {x y : Int}
    (h : b x = b y) : remapSet b srcs tgt x = remapSet b srcs tgt y := by
  unfold remapSet
  rw [h]

theorem passMerge2_coarser (adj : Int → List Int) : ∀ (us : List Int) (b : Lbl)
    (ch : Bool) (x y : Int), b x = b y →
    (passMerge2 adj us b ch).1 x = (passMerge2 adj us b ch).1 y := by
  intro us
  induction us with
  | nil =>
    intro b ch x y h
    exact h
  | cons u us ih =>
    intro b ch x y h
    unfold passMerge2
    cases hm : ((adj u).filter (fun v => decide (b u ≠ b v))).map b with
    | nil => exact ih b ch x y h
    | cons n ns => exact ih _ true x y (remapSet_coarser h)

theorem tgt_not_mem_nc (adj : Int → List Int) (b : Lbl) (u : Int) :
    b u ∉ ((adj u).filter (fun v => decide (b u ≠ b v))).map b := by
  intro hm
  rcases List.mem_map.mp hm with ⟨w, hw, hbw⟩
  rcases List.mem_filter.mp hw with ⟨_, hww⟩
  rw [decide_eq_true_eq] at hww
  exact hww hbw.symm

theorem passMerge2_stable (adj : Int → List Int) : ∀ (us : List Int) (b : Lbl)
    (ch : Bool), ∀ u ∈ us, ∀ v ∈ adj u,
    (passMerge2 adj us b ch).1 v = (passMerge2 adj us b ch).1 u := by
  intro us
  induction us with
  | nil =>
    intro b ch u hu
    cases hu
  | cons w us ih =>
    intro b ch u hu v hv
    unfold passMerge2
    cases hm : ((adj w).filter (fun x => decide (b w ≠ b x))).map b with
    | nil =>
      rcases List.mem_cons.mp hu with rfl | hu
      · refine passMerge2_coarser adj us b ch v u ?_
        have hf : (adj u).filter (fun x => decide (b u ≠ b x)) = [] :=
          List.map_eq_nil_iff.mp hm
        have hz := List.filter_eq_nil_iff.mp hf v hv
        rw [decide_eq_true_eq] at hz
        exact (not_not.mp hz).symm
      · exact ih b ch u hu v hv
    | cons n ns =>
      rcases List.mem_cons.mp hu with rfl | hu
      · refine passMerge2_coarser adj us _ true v u ?_
        show (if b v ∈ n :: ns then b u else b v)
          = (if b u ∈ n :: ns then b u else b u)
        have hnu : b u ∉ n :: ns := by
          rw [← hm]
          exact tgt_not_mem_nc adj b u
        rw [if_neg hnu]
        by_cases hbv : b v = b u
        · rw [if_neg (by
            rw [hbv]
            exact hnu)]
          exact hbv
        · rw [if_pos (by
            rw [← hm]
            exact List.mem_map.mpr ⟨v, List.mem_filter.mpr ⟨hv, by
              rw [decide_eq_true_eq]
              exact fun hc => hbv hc.symm⟩, rfl⟩)]
      · exact ih _ true u hu v hv

theorem passMerge2_nochange (adj : Int → List Int) : ∀ (us : List Int) (b : Lbl)
    (ch : Bool), (∀ u ∈ us, ∀ v ∈ adj u, b u = b v) →
    passMerge2 adj us b ch = (b, ch) := by
  intro us
  induction us with
  | nil =>
    intro b ch _
    rfl
  | cons u us ih =>
    intro b ch h
    unfold passMerge2
    have hf : (adj u).filter (fun v => decide (b u ≠ b v)) = [] := by
      rw [List.filter_eq_nil_iff]
      intro v hv
      rw [decide_eq_true_eq]
      exact fun hc => hc (h u (by simp) v hv)
    rw [hf]
    exact ih b ch (fun w hw v hv => h w (by simp [hw]) v hv)

theorem passMerge2_sound (adj : Int → List Int) : ∀ (us : List Int) (b : Lbl)
    (ch : Bool) (es₀ : List (Int × Int)),
    (∀ u ∈ us, ∀ v ∈ adj u, adjRel es₀ u v) →
    (∀ x y, b x = b y → Reach es₀ x y) →
    ∀ x y, (passMerge2 adj us b ch).1 x = (passMerge2 adj us b ch).1 y →
      Reach es₀ x y := by
  intro us
  induction us with
  | nil =>
    intro b ch es₀ _ hinv x y h
    exact hinv x y h
  | cons u us ih =>
    intro b ch es₀ hadj hinv x y
    unfold passMerge2
    cases hm : ((adj u).filter (fun v => decide (b u ≠ b v))).map b with
    | nil => exact ih b ch es₀ (fun w hw => hadj w (by simp [hw])) hinv x y
    | cons n ns =>
      refine ih _ true es₀ (fun w hw => hadj w (by simp [hw])) ?_ x y
      have hsrc : ∀ z, b z ∈ n :: ns → Reach es₀ z u := by
        intro z hz
        rw [← hm] at hz
        rcases List.mem_map.mp hz with ⟨w, hwf, hbw⟩
        rcases List.mem_filter.mp hwf with ⟨hwa, _⟩
        exact (hinv z w hbw.symm).trans
          (Reach.single (adjRel_symm (hadj u (by simp) w hwa)))
      intro p q h'
      have h'' : (if b p ∈ n :: ns then b u else b p)
          = (if b q ∈ n :: ns then b u else b q) := h'
      by_cases hp : b p ∈ n :: ns <;> by_cases hq : b q ∈ n :: ns
      · exact (hsrc p hp).trans (hsrc q hq).symm
      · rw [if_pos hp, if_neg hq] at h''
        exact (hsrc p hp).trans (hinv q u h''.symm).symm
      · rw [if_neg hp, if_pos hq] at h''
        exact (hinv p u h'').trans (hsrc q hq).symm
      · rw [if_neg hp, if_neg hq] at h''
        exact hinv p q h''

theorem loopMerge2_3_eq (adj : Int → List Int) (us : List Int) (b : Lbl) :
    loopMerge2 3 adj us b = some (passMerge2 adj us b false).1 := by
  have e1 : loopMerge2 3 adj us b = (match passMerge2 adj us b false with
    | (b₂, true) => loopMerge2 2 adj us b₂
    | (b₂, false) => some b₂) := rfl
  rw [e1]
  cases hp : passMerge2 adj us b false with
  | mk b₁ c =>
    cases c with
    | false => rfl
    | true =>
      dsimp only
      have hst : ∀ u ∈ us, ∀ v ∈ adj u, b₁ u = b₁ v := by
        intro u hu v hv
        have h := passMerge2_stable adj us b false u hu v hv
        rw [hp] at h
        exact h.symm
      have e2 : loopMerge2 2 adj us b₁ = (match passMerge2 adj us b₁ false with
        | (b₂, true) => loopMerge2 1 adj us b₂
        | (b₂, false) => some b₂) := rfl
      rw [e2, passMerge2_nochange adj us b₁ false hst]

theorem pm2_main (adj : Int → List Int) (us : List Int) (es₀ : List (Int × Int))
    (hadj : ∀ u ∈ us, ∀ v ∈ adj u, adjRel es₀ u v)
    (hcov : ∀ x y, adjRel es₀ x y →
      (x ∈ us ∧ y ∈ adj x) ∨ (y ∈ us ∧ x ∈ adj y)) :
    ∃ b₁, loopMerge2 3 adj us (fun v => v) = some b₁ ∧
      (distinctCount b₁ us = 1 ↔ ConnSpec us es₀) := by
  refine ⟨(passMerge2 adj us (fun v => v) false).1, loopMerge2_3_eq adj us _, ?_⟩
  rw [distinctCount_eq_one_iff]
  have hsound : ∀ x y, (passMerge2 adj us (fun v => v) false).1 x
      = (passMerge2 adj us (fun v => v) false).1 y → Reach es₀ x y :=
    passMerge2_sound adj us (fun v => v) false es₀ hadj
      (fun x y h => by
        show Reach es₀ x y
        rw [show x = y from h]
        exact Relation.ReflTransGen.refl)
  have hconst : ∀ x y, Reach es₀ x y →
      (passMerge2 adj us (fun v => v) false).1 x
        = (passMerge2 adj us (fun v => v) false).1 y := by
    intro x y h
    induction h with
    | refl => rfl
    | tail h1 h2 ih =>
      rcases hcov _ _ h2 with ⟨hu, hv⟩ | ⟨hu, hv⟩
      · exact ih.trans (passMerge2_stable adj us (fun v => v) false _ hu _ hv).symm
      · exact ih.trans (passMerge2_stable adj us (fun v => v) false _ hu _ hv)
  unfold ConnSpec
  constructor
  · rintro ⟨hne, hall⟩
    exact ⟨hne, fun x hx y hy => hsound x y (hall x hx y hy)⟩
  · rintro ⟨hne, hreach⟩
    exact ⟨hne, fun x hx y hy => hconst x y (hreach x hx y hy)⟩

/-! ## C1: union-find root structure -/

theorem isRoot_iterate {b : Lbl} {r : Int} (h : IsRoot b r) : ∀ n, b^[n] r = r := by
  intro n
  induction n with
  | zero => rfl
  | succ n ih =>
    rw [Function.iterate_succ_apply, show b r = r from h]
    exact ih

theorem iterate_close {vs : List Int} {b : Lbl} (hc : ∀ x ∈ vs, b x ∈ vs) :
    ∀ n, ∀ x ∈ vs, b^[n] x ∈ vs := by
  intro n
  induction n with
  | zero =>
    intro x hx
    exact hx
  | succ n ih =>
    intro x hx
    rw [Function.iterate_succ_apply]
    exact ih _ (hc x hx)

theorem iterate_reach {vs : List Int} {es : List (Int × Int)} {b : Lbl}
    (hc : ∀ x ∈ vs, b x ∈ vs) (hr : ∀ x ∈ vs, Reach es x (b x)) :
    ∀ n, ∀ x ∈ vs, Reach es x (b^[n] x) := by
  intro n
  induction n with
  | zero =>
    intro x _
    exact Relation.ReflTransGen.refl
  | succ n ih =>
    intro x hx
    rw [Function.iterate_succ_apply]
    exact (hr x hx).trans (ih _ (hc x hx))

theorem rootedAt_unique {b : Lbl} {x r₁ r₂ : Int} (h₁ : RootedAt b x r₁)
    (h₂ : RootedAt b x r₂) : r₁ = r₂ := by
  obtain ⟨⟨i, hi⟩, hr₁⟩ := h₁
  obtain ⟨⟨j, hj⟩, hr₂⟩ := h₂
  rcases Nat.le_total i j with h | h
  · have hs : b^[j] x = b^[j - i] (b^[i] x) := by
      rw [← Function.iterate_add_apply, Nat.sub_add_cancel h]
    rw [hi, isRoot_iterate hr₁] at hs
    rw [← hj, hs]
  · have hs : b^[i] x = b^[i - j] (b^[j] x) := by
      rw [← Function.iterate_add_apply, Nat.sub_add_cancel h]
    rw [hj, isRoot_iterate hr₂] at hs
    rw [← hi, hs]

theorem rootedAt_terminates {b : Lbl} {x ρ : Int} (h : RootedAt b x ρ) :
    Terminates b x := by
  obtain ⟨⟨n, hn⟩, hρ⟩ := h
  refine ⟨n, ?_⟩
  rw [show IsRoot b (b^[n] x) = (b (b^[n] x) = b^[n] x) from rfl, hn]
  exact hρ

theorem terminates_rootedAt {b : Lbl} {x : Int} (h : Terminates b x) :
    ∃ ρ, RootedAt b x ρ := by
  obtain ⟨n, hn⟩ := h
  exact ⟨b^[n] x, ⟨n, rfl⟩, hn⟩

theorem sameRoot_symm {b : Lbl} {x y : Int} (h : SameRoot b x y) :
    SameRoot b y x := by
  obtain ⟨r, h1, h2⟩ := h
  exact ⟨r, h2, h1⟩

theorem sameRoot_trans {b : Lbl} {x y z : Int} (h₁ : SameRoot b x y)
    (h₂ : SameRoot b y z) : SameRoot b x z := by
  obtain ⟨r, h1, h2⟩ := h₁
  obtain ⟨s, h3, h4⟩ := h₂
  rw [rootedAt_unique h2 h3] at h1
  exact ⟨s, h1, h4⟩

theorem chain_bound {vs : List Int} {b : Lbl} (hc : ∀ x ∈ vs, b x ∈ vs)
    {v : Int} (hv : v ∈ vs) (ht : Terminates b v) :
    ∃ m, IsRoot b (b^[m] v) ∧ m < vs.length := by
  haveI : DecidablePred (fun n => IsRoot b (b^[n] v)) :=
    fun n => decidable_of_iff (b (b^[n] v) = b^[n] v) Iff.rfl
  refine ⟨Nat.find ht, Nat.find_spec ht, ?_⟩
  have hinj : ∀ i ∈ List.range (Nat.find ht + 1), ∀ j ∈ List.range (Nat.find ht + 1),
      b^[i] v = b^[j] v → i = j := by
    intro i hi j hj hij
    rw [List.mem_range] at hi hj
    by_contra hne
    rcases Nat.lt_or_ge i j with hlt | hge
    · have h1 : b^[Nat.find ht] v = b^[Nat.find ht - j] (b^[j] v) := by
        rw [← Function.iterate_add_apply, Nat.sub_add_cancel (by omega)]
      rw [← hij, ← Function.iterate_add_apply] at h1
      have hroot : IsRoot b (b^[Nat.find ht - j + i] v) := by
        rw [← h1]
        exact Nat.find_spec ht
      exact Nat.find_min ht (by omega) hroot
    · have hlt : j < i := by omega
      have h1 : b^[Nat.find ht] v = b^[Nat.find ht - i] (b^[i] v) := by
        rw [← Function.iterate_add_apply, Nat.sub_add_cancel (by omega)]
      rw [hij, ← Function.iterate_add_apply] at h1
      have hroot : IsRoot b (b^[Nat.find ht - i + j] v) := by
        rw [← h1]
        exact Nat.find_spec ht
      exact Nat.find_min ht (by omega) hroot
  have hnodup : ((List.range (Nat.find ht + 1)).map (fun i => b^[i] v)).Nodup :=
    List.Nodup.map_on hinj (List.nodup_range _)
  have hsub : ((List.range (Nat.find ht + 1)).map (fun i => b^[i] v)) ⊆ vs := by
    intro z hz
    rcases List.mem_map.mp hz with ⟨i, _, rfl⟩
    exact iterate_close hc i v hv
  have hlen := (List.subperm_of_subset hnodup hsub).length_le
  rw [List.length_map, List.length_range] at hlen
  omega

theorem rootedAt_update {b : Lbl} {v r : Int} (hvr : RootedAt b v r) :
    ∀ y ρ, RootedAt b y ρ → RootedAt (fun x => if x = v then r else b x) y ρ := by
  have hρroot : ∀ ρ, IsRoot b ρ → IsRoot (fun x => if x = v then r else b x) ρ := by
    intro ρ hρ
    show (if ρ = v then r else b ρ) = ρ
    by_cases hρv : ρ = v
    · rw [if_pos hρv]
      have h2 : RootedAt b ρ ρ := ⟨⟨0, rfl⟩, hρ⟩
      have h3 : RootedAt b ρ r := by
        rw [hρv]
        exact hvr
      exact rootedAt_unique h3 h2
    · rw [if_neg hρv]
      exact hρ
  have main : ∀ n y ρ, b^[n] y = ρ → IsRoot b ρ →
      RootedAt (fun x => if x = v then r else b x) y ρ := by
    intro n
    induction n with
    | zero =>
      intro y ρ h hρ
      exact ⟨⟨0, h⟩, hρroot ρ hρ⟩
    | succ n ih =>
      intro y ρ h hρ
      by_cases hyv : y = v
      · have hyρ : RootedAt b y ρ := ⟨⟨n + 1, h⟩, hρ⟩
        have hvρ : RootedAt b v ρ := by
          rw [← hyv]
          exact hyρ
        have hρr : ρ = r := rootedAt_unique hvρ hvr
        refine ⟨⟨1, ?_⟩, hρroot ρ hρ⟩
        show (if y = v then r else b y) = ρ
        rw [if_pos hyv, hρr]
      · have h' : b^[n] (b y) = ρ := by
          rw [← Function.iterate_succ_apply]
          exact h
        obtain ⟨⟨k, hk⟩, hρ'⟩ := ih (b y) ρ h' hρ
        refine ⟨⟨k + 1, ?_⟩, hρ'⟩
        rw [Function.iterate_succ_apply]
        show (fun x => if x = v then r else b x)^[k] (if y = v then r else b y) = ρ
        rw [if_neg hyv]
        exact hk
  intro y ρ hyρ
  obtain ⟨⟨n, hn⟩, hρ⟩ := hyρ
  exact main n y ρ hn hρ

theorem rootedAt_union {b : Lbl} {gg ff : Int} (hgg : IsRoot b gg)
    (hff : IsRoot b ff) (hne : gg ≠ ff) :
    ∀ y ρ, RootedAt b y ρ →
      RootedAt (fun x => if x = gg then ff else b x) y
        (if ρ = gg then ff else ρ) := by
  have hb'ff : IsRoot (fun x => if x = gg then ff else b x) ff := by
    show (if ff = gg then ff else b ff) = ff
    rw [if_neg (Ne.symm hne)]
    exact hff
  have hb'ρ : ∀ ρ, IsRoot b ρ → ρ ≠ gg →
      IsRoot (fun x => if x = gg then ff else b x) ρ := by
    intro ρ hρ hρg
    show (if ρ = gg then ff else b ρ) = ρ
    rw [if_neg hρg]
    exact hρ
  have main : ∀ n y ρ, b^[n] y = ρ → IsRoot b ρ →
      RootedAt (fun x => if x = gg then ff else b x) y
        (if ρ = gg then ff else ρ) := by
    intro n
    induction n with
    | zero =>
      intro y ρ h hρ
      have hy : y = ρ := h
      by_cases hρg : ρ = gg
      · rw [if_pos hρg]
        refine ⟨⟨1, ?_⟩, hb'ff⟩
        show (if y = gg then ff else b y) = ff
        rw [if_pos (hy.trans hρg)]
      · rw [if_neg hρg]
        exact ⟨⟨0, hy⟩, hb'ρ ρ hρ hρg⟩
    | succ n ih =>
      intro n2y ρ h hρ
      by_cases hyg : n2y = gg
      · have hρg : ρ = gg := by
          have hgf := isRoot_iterate hgg (n + 1)
          rw [hyg] at h
          rw [← h, hgf]
        rw [if_pos hρg]
        refine ⟨⟨1, ?_⟩, hb'ff⟩
        show (if n2y = gg then ff else b n2y) = ff
        rw [if_pos hyg]
      · have h' : b^[n] (b n2y) = ρ := by
          rw [← Function.iterate_succ_apply]
          exact h
        obtain ⟨⟨k, hk⟩, hρ'⟩ := ih (b n2y) ρ h' hρ
        refine ⟨⟨k + 1, ?_⟩, hρ'⟩
        rw [Function.iterate_succ_apply]
        show (fun x => if x = gg then ff else b x)^[k]
          (if n2y = gg then ff else b n2y) = _
        rw [if_neg hyg]
        exact hk
  intro y ρ h
  obtain ⟨⟨n, hn⟩, hρ⟩ := h
  exact main n y ρ hn hρ

theorem ufFind_spec {vs : List Int} {es₀ : List (Int × Int)} :
    ∀ (fuel : Nat) (b : Lbl) (v : Int) (m : Nat),
    UFInv vs es₀ b → v ∈ vs → IsRoot b (b^[m] v) → m < fuel →
    ∃ r b₂, ufFind fuel b v = some (r, b₂) ∧ RootedAt b v r ∧
      (∀ y ρ, RootedAt b y ρ → RootedAt b₂ y ρ) ∧
      (∀ y, IsRoot b₂ y ↔ IsRoot b y) ∧
      UFInv vs es₀ b₂ ∧
      rootCount b₂ vs = rootCount b vs := by
  intro fuel
  induction fuel with
  | zero =>
    intro b v m _ _ _ hm
    omega
  | succ fuel ih =>
    intro b v m hinv hv hroot hm
    by_cases hbv : b v = v
    · refine ⟨v, b, ?_, ⟨⟨0, rfl⟩, hbv⟩, fun y ρ h => h, fun y => Iff.rfl, hinv, rfl⟩
      unfold ufFind
      rw [if_pos hbv]
    · have hm1 : m ≠ 0 := by
        rintro rfl
        exact hbv hroot
      have hroot' : IsRoot b (b^[m - 1] (b v)) := by
        rw [← Function.iterate_succ_apply, show (m - 1).succ = m from by omega]
        exact hroot
      obtain ⟨r, b₂, hfind, hrooted, hpres, hroots, hinv₂, hcnt⟩ :=
        ih b (b v) (m - 1) hinv (hinv.close v hv) hroot' (by omega)
      have hvr : RootedAt b v r := by
        obtain ⟨⟨k, hk⟩, hr⟩ := hrooted
        refine ⟨⟨k + 1, ?_⟩, hr⟩
        rw [Function.iterate_succ_apply]
        exact hk
      have hrv : r ≠ v := by
        rintro rfl
        exact hbv hvr.2
      have hvr₂ : RootedAt b₂ v r := hpres v r hvr
      refine ⟨r, fun x => if x = v then r else b₂ x, ?_, hvr, ?_, ?_, ?_, ?_⟩
      · unfold ufFind
        rw [if_neg hbv, hfind]
      · intro y ρ h
        exact rootedAt_update hvr₂ y ρ (hpres y ρ h)
      · intro y
        by_cases hyv : y = v
        · constructor
          · intro hy
            exfalso
            have hc : (if y = v then r else b₂ y) = y := hy
            rw [if_pos hyv] at hc
            exact hrv (hc.trans hyv)
          · intro hy
            exfalso
            rw [hyv] at hy
            exact hbv hy
        · show ((if y = v then r else b₂ y) = y) ↔ _
          rw [if_neg hyv]
          exact hroots y
      · refine ⟨?_, ?_, ?_⟩
        · intro x hx
          show (if x = v then r else b₂ x) ∈ vs
          by_cases hxv : x = v
          · rw [if_pos hxv]
            obtain ⟨⟨k, hk⟩, _⟩ := hvr
            rw [← hk]
            exact iterate_close hinv.close k v hv
          · rw [if_neg hxv]
            exact hinv₂.close x hx
        · intro x hx
          show Reach es₀ x (if x = v then r else b₂ x)
          by_cases hxv : x = v
          · rw [if_pos hxv, hxv]
            obtain ⟨⟨k, hk⟩, _⟩ := hvr
            rw [← hk]
            exact iterate_reach hinv.close hinv.reach k v hv
          · rw [if_neg hxv]
            exact hinv₂.reach x hx
        · intro x hx
          obtain ⟨ρ, hρ⟩ := terminates_rootedAt (hinv.term x hx)
          exact rootedAt_terminates (rootedAt_update hvr₂ x ρ (hpres x ρ hρ))
      · rw [← hcnt]
        unfold rootCount
        congr 1
        apply List.filter_congr
        intro x hx
        rw [decide_eq_decide]
        by_cases hxv : x = v
        · constructor
          · intro hc
            exfalso
            have hc2 : (if x = v then r else b₂ x) = x := hc
            rw [if_pos hxv] at hc2
            exact hrv (hc2.trans hxv)
          · intro hc
            exfalso
            have hc2 : IsRoot b₂ x := hc
            rw [hxv] at hc2
            exact hbv ((hroots v).mp hc2)
        · show ((if x = v then r else b₂ x) = x) ↔ _
          rw [if_neg hxv]

theorem filter_flip_one : ∀ {vs : List Int}, vs.Nodup → ∀ {f g : Int → Bool}
    {a : Int}, a ∈ vs → f a = true → g a = false →
    (∀ x ∈ vs, x ≠ a → f x = g x) →
    (vs.filter f).length = (vs.filter g).length + 1 := by
  intro vs
  induction vs with
  | nil =>
    intro _ _ _ _ ha
    cases ha
  | cons w vs ih =>
    intro hnd f g a ha hfa hga hcong
    rw [List.nodup_cons] at hnd
    rw [List.filter_cons, List.filter_cons]
    rcases List.mem_cons.mp ha with rfl | ha
    · rw [if_pos hfa, if_neg (by
        rw [hga]
        exact Bool.false_ne_true), List.length_cons]
      have hfg : vs.filter f = vs.filter g :=
        List.filter_congr (fun x hx =>
          hcong x (List.mem_cons_of_mem _ hx) (fun hc => hnd.1 (hc ▸ hx)))
      rw [hfg]
    · have hwa : w ≠ a := fun hc => hnd.1 (hc ▸ ha)
      rw [hcong w (by simp) hwa]
      have hrest := ih hnd.2 ha hfa hga
        (fun x hx hxa => hcong x (by simp [hx]) hxa)
      by_cases hgw : g w = true
      · rw [if_pos hgw, if_pos hgw, List.length_cons, List.length_cons, hrest]
      · rw [if_neg hgw, if_neg hgw, hrest]

theorem ufProcess_spec {vs : List Int} {es₀ : List (Int × Int)} (hnd : vs.Nodup) :
    ∀ (ps : List (Int × Int)) (b : Lbl) (cnt : Int) (ch : Bool),
    UFInv vs es₀ b →
    (∀ e ∈ ps, e.1 ∈ vs ∧ e.2 ∈ vs ∧ adjRel es₀ e.1 e.2) →
    ∃ st₂, ufProcess (vs.length + 1) ps ⟨b, cnt, ch⟩ = some st₂ ∧
      UFInv vs es₀ st₂.par ∧
      (∀ x y, SameRoot b x y → SameRoot st₂.par x y) ∧
      (∀ e ∈ ps, SameRoot st₂.par e.1 e.2) ∧
      st₂.cnt - (rootCount st₂.par vs : Int) = cnt - (rootCount b vs : Int) ∧
      ((∀ e ∈ ps, SameRoot b e.1 e.2) → st₂.ch = ch ∧ st₂.cnt = cnt) := by
  intro ps
  induction ps with
  | nil =>
    intro b cnt ch hinv _
    exact ⟨⟨b, cnt, ch⟩, rfl, hinv, fun x y h => h,
      fun e he => absurd he (by simp), rfl, fun _ => ⟨rfl, rfl⟩⟩
  | cons e ps ih =>
    intro b cnt ch hinv hcl
    obtain ⟨he1, he2, headj⟩ := hcl e (by simp)
    obtain ⟨m₁, hm₁root, hm₁lt⟩ := chain_bound hinv.close he1 (hinv.term e.1 he1)
    obtain ⟨fu, b₁, hf₁, hr₁, hpres₁, hroots₁, hinv₁, hcnt₁⟩ :=
      ufFind_spec (vs.length + 1) b e.1 m₁ hinv he1 hm₁root (by omega)
    obtain ⟨m₂, hm₂root, hm₂lt⟩ := chain_bound hinv₁.close he2 (hinv₁.term e.2 he2)
    obtain ⟨fv, b₂, hf₂, hr₂, hpres₂, hroots₂, hinv₂, hcnt₂⟩ :=
      ufFind_spec (vs.length + 1) b₁ e.2 m₂ hinv₁ he2 hm₂root (by omega)
    by_cases hful : fu = fv
    · obtain ⟨st₂, hrun, hI, hS, hE, hC, hN⟩ :=
        ih b₂ cnt ch hinv₂ (fun f hf => hcl f (by simp [hf]))
      refine ⟨st₂, ?_, hI, ?_, ?_, ?_, ?_⟩
      · show ufProcess (vs.length + 1) (e :: ps) ⟨b, cnt, ch⟩ = some st₂
        unfold ufProcess
        dsimp only
        rw [hf₁]
        dsimp only
        rw [hf₂]
        dsimp only
        rw [if_pos hful]
        exact hrun
      · intro x y h
        refine hS x y ?_
        obtain ⟨ρ, hρ1, hρ2⟩ := h
        exact ⟨ρ, hpres₂ x ρ (hpres₁ x ρ hρ1), hpres₂ y ρ (hpres₁ y ρ hρ2)⟩
      · intro f hf
        rcases List.mem_cons.mp hf with rfl | hf
        · refine hS f.1 f.2 ⟨fu, hpres₂ _ _ (hpres₁ _ _ hr₁), ?_⟩
          rw [hful]
          exact hpres₂ _ _ hr₂
        · exact hE f hf
      · rw [hC, hcnt₂, hcnt₁]
      · intro hall
        refine hN ?_
        intro f hf
        obtain ⟨ρ, hρ1, hρ2⟩ := hall f (by simp [hf])
        exact ⟨ρ, hpres₂ _ _ (hpres₁ _ _ hρ1), hpres₂ _ _ (hpres₁ _ _ hρ2)⟩
    · have hfvfu : fv ≠ fu := fun hc => hful hc.symm
      have hfu2 : IsRoot b₂ fu := (hroots₂ fu).mpr ((hroots₁ fu).mpr hr₁.2)
      have hfv2 : IsRoot b₂ fv := (hroots₂ fv).mpr hr₂.2
      have hfuvs : fu ∈ vs := by
        obtain ⟨⟨k, hk⟩, _⟩ := hr₁
        rw [← hk]
        exact iterate_close hinv.close k _ he1
      have hfvvs : fv ∈ vs := by
        obtain ⟨⟨k, hk⟩, _⟩ := hr₂
        rw [← hk]
        exact iterate_close hinv₁.close k _ he2
      have hreachfvfu : Reach es₀ fv fu := by
        have r1 : Reach es₀ e.1 fu := by
          obtain ⟨⟨k, hk⟩, _⟩ := hr₁
          rw [← hk]
          exact iterate_reach hinv.close hinv.reach k _ he1
        have r2 : Reach es₀ e.2 fv := by
          obtain ⟨⟨k, hk⟩, _⟩ := hr₂
          rw [← hk]
          exact iterate_reach hinv₁.close hinv₁.reach k _ he2
        exact (r2.symm.trans (Reach.single (adjRel_symm headj))).trans r1
      have hinv₃ : UFInv vs es₀ (fun x => if x = fv then fu else b₂ x) := by
        refine ⟨?_, ?_, ?_⟩
        · intro x hx
          show (if x = fv then fu else b₂ x) ∈ vs
          by_cases hxf : x = fv
          · rw [if_pos hxf]
            exact hfuvs
          · rw [if_neg hxf]
            exact hinv₂.close x hx
        · intro x hx
          show Reach es₀ x (if x = fv then fu else b₂ x)
          by_cases hxf : x = fv
          · rw [if_pos hxf, hxf]
            exact hreachfvfu
          · rw [if_neg hxf]
            exact hinv₂.reach x hx
        · intro x hx
          obtain ⟨ρ, hρ⟩ := terminates_rootedAt (hinv₂.term x hx)
          exact rootedAt_terminates (rootedAt_union hfv2 hfu2 hfvfu x ρ hρ)
      have hrc : rootCount b₂ vs
          = rootCount (fun x => if x = fv then fu else b₂ x) vs + 1 := by
        unfold rootCount
        refine filter_flip_one hnd hfvvs ?_ ?_ ?_
        · rw [decide_eq_true_eq]
          exact hfv2
        · dsimp only
          rw [decide_eq_false_iff_not, if_pos rfl]
          exact hful
        · intro x hx hxf
          dsimp only
          rw [decide_eq_decide, if_neg hxf]
      obtain ⟨st₂, hrun, hI, hS, hE, hC, hN⟩ :=
        ih (fun x => if x = fv then fu else b₂ x) (cnt - 1) true hinv₃
          (fun f hf => hcl f (by simp [hf]))
      refine ⟨st₂, ?_, hI, ?_, ?_, ?_, ?_⟩
      · show ufProcess (vs.length + 1) (e :: ps) ⟨b, cnt, ch⟩ = some st₂
        unfold ufProcess
        dsimp only
        rw [hf₁]
        dsimp only
        rw [hf₂]
        dsimp only
        rw [if_neg hful]
        exact hrun
      · intro x y h
        refine hS x y ?_
        obtain ⟨ρ, hρ1, hρ2⟩ := h
        exact ⟨_, rootedAt_union hfv2 hfu2 hfvfu x ρ (hpres₂ x ρ (hpres₁ x ρ hρ1)),
          rootedAt_union hfv2 hfu2 hfvfu y ρ (hpres₂ y ρ (hpres₁ y ρ hρ2))⟩
      · intro f hf
        rcases List.mem_cons.mp hf with rfl | hf
        · have h1 := rootedAt_union hfv2 hfu2 hfvfu f.1 fu
            (hpres₂ _ _ (hpres₁ _ _ hr₁))
          have h2 := rootedAt_union hfv2 hfu2 hfvfu f.2 fv (hpres₂ _ _ hr₂)
          rw [if_neg hful] at h1
          rw [if_pos rfl] at h2
          exact hS f.1 f.2 ⟨fu, h1, h2⟩
        · exact hE f hf
      · rw [hC]
        have hbb : rootCount b₂ vs = rootCount b vs := by rw [hcnt₂, hcnt₁]
        omega
      · intro hall
        exfalso
        obtain ⟨ρ, hρ1, hρ2⟩ := hall e (by simp)
        have h1 : ρ = fu := rootedAt_unique hρ1 hr₁
        have h2 : ρ = fv := rootedAt_unique (hpres₁ e.2 ρ hρ2) hr₂
        exact hful (h1 ▸ h2)

theorem ufLoop_main {vs : List Int} {es₀ : List (Int × Int)} (hnd : vs.Nodup)
    (ps : List (Int × Int))
    (hcl : ∀ e ∈ ps, e.1 ∈ vs ∧ e.2 ∈ vs ∧ adjRel es₀ e.1 e.2) :
    ∃ st, ufLoop 3 (vs.length + 1) ps ⟨fun v => v, (vs.length : Int), false⟩
        = some st ∧
      UFInv vs es₀ st.par ∧
      (∀ e ∈ ps, SameRoot st.par e.1 e.2) ∧
      st.cnt = (rootCount st.par vs : Int) := by
  have hinv₀ : UFInv vs es₀ (fun v => v) :=
    ⟨fun x hx => hx, fun x _ => Relation.ReflTransGen.refl, fun x _ => ⟨0, rfl⟩⟩
  have hrc₀ : rootCount (fun v => v) vs = vs.length := by
    unfold rootCount
    rw [List.filter_eq_self.mpr (fun a _ => by rw [decide_eq_true_eq])]
  obtain ⟨st₁, hrun₁, hI₁, hS₁, hE₁, hC₁, hN₁⟩ :=
    ufProcess_spec hnd ps (fun v => v) (vs.length : Int) false hinv₀ hcl
  have e1 : ufLoop 3 (vs.length + 1) ps ⟨fun v => v, (vs.length : Int), false⟩
      = (match ufProcess (vs.length + 1) ps ⟨fun v => v, (vs.length : Int), false⟩ with
        | none => none
        | some st₂ => if st₂.ch then ufLoop 2 (vs.length + 1) ps st₂
            else some st₂) := rfl
  rw [e1, hrun₁]
  dsimp only
  rw [hrc₀] at hC₁
  cases hch : st₁.ch with
  | false =>
    rw [if_neg Bool.false_ne_true]
    refine ⟨st₁, rfl, hI₁, hE₁, ?_⟩
    omega
  | true =>
    rw [if_pos rfl]
    obtain ⟨st₂, hrun₂, hI₂, hS₂, hE₂, hC₂, hN₂⟩ :=
      ufProcess_spec hnd ps st₁.par st₁.cnt false hI₁ hcl
    have e2 : ufLoop 2 (vs.length + 1) ps st₁
        = (match ufProcess (vs.length + 1) ps ⟨st₁.par, st₁.cnt, false⟩ with
          | none => none
          | some st₂ => if st₂.ch then ufLoop 1 (vs.length + 1) ps st₂
              else some st₂) := rfl
    rw [e2, hrun₂]
    dsimp only
    obtain ⟨hch₂, hcnt₂⟩ := hN₂ hE₁
    rw [hch₂, if_neg Bool.false_ne_true]
    refine ⟨st₂, rfl, hI₂, ?_, ?_⟩
    · intro e he
      exact hS₂ _ _ (hE₁ e he)
    · omega

theorem uf_conn_iff {vs : List Int} {es₀ ps : List (Int × Int)} {b : Lbl}
    (hnd : vs.Nodup) (hinv : UFInv vs es₀ b)
    (hsr : ∀ e ∈ ps, SameRoot b e.1 e.2)
    (hcov : ∀ x y, adjRel es₀ x y → (x, y) ∈ ps ∨ (y, x) ∈ ps) :
    rootCount b vs = 1 ↔ ConnSpec vs es₀ := by
  have hroot : ∀ v ∈ vs, ∃ ρ, RootedAt b v ρ ∧
      ρ ∈ vs.filter (fun x => decide (b x = x)) := by
    intro v hv
    obtain ⟨ρ, hρ⟩ := terminates_rootedAt (hinv.term v hv)
    have hρvs : ρ ∈ vs := by
      obtain ⟨⟨k, hk⟩, _⟩ := hρ
      rw [← hk]
      exact iterate_close hinv.close k v hv
    exact ⟨ρ, hρ, List.mem_filter.mpr ⟨hρvs, by
      rw [decide_eq_true_eq]
      exact hρ.2⟩⟩
  have hsound : ∀ x y, SameRoot b x y → x ∈ vs → y ∈ vs → Reach es₀ x y := by
    rintro x y ⟨ρ, h1, h2⟩ hx hy
    have r1 : Reach es₀ x ρ := by
      obtain ⟨⟨k, hk⟩, _⟩ := h1
      rw [← hk]
      exact iterate_reach hinv.close hinv.reach k x hx
    have r2 : Reach es₀ y ρ := by
      obtain ⟨⟨k, hk⟩, _⟩ := h2
      rw [← hk]
      exact iterate_reach hinv.close hinv.reach k y hy
    exact r1.trans r2.symm
  have hstep : ∀ z w, adjRel es₀ z w → SameRoot b z w := by
    intro z w h
    rcases hcov z w h with hm | hm
    · exact hsr _ hm
    · exact sameRoot_symm (hsr _ hm)
  have hcomplete : ∀ x, x ∈ vs → ∀ y, Reach es₀ x y → SameRoot b x y := by
    intro x hx y h
    induction h with
    | refl =>
      obtain ⟨ρ, hρ, _⟩ := hroot x hx
      exact ⟨ρ, hρ, hρ⟩
    | tail h1 h2 ih => exact sameRoot_trans ih (hstep _ _ h2)
  constructor
  · intro h1
    unfold rootCount at h1
    rw [List.length_eq_one] at h1
    obtain ⟨r, hr⟩ := h1
    constructor
    · intro hnil
      rw [hnil] at hr
      simp at hr
    · intro x hx y hy
      obtain ⟨ρx, hρx, hfx⟩ := hroot x hx
      obtain ⟨ρy, hρy, hfy⟩ := hroot y hy
      rw [hr] at hfx hfy
      have hx1 : ρx = r := List.mem_singleton.mp hfx
      have hy1 : ρy = r := List.mem_singleton.mp hfy
      refine hsound x y ⟨r, ?_, ?_⟩ hx hy
      · rw [← hx1]
        exact hρx
      · rw [← hy1]
        exact hρy
  · rintro ⟨hne, hreach⟩
    obtain ⟨v, hv⟩ := List.exists_mem_of_ne_nil vs hne
    obtain ⟨ρ, hρ, hρf⟩ := hroot v hv
    have hall : ∀ w ∈ vs.filter (fun x => decide (b x = x)), w = ρ := by
      intro w hw
      rcases List.mem_filter.mp hw with ⟨hwvs, hwroot⟩
      rw [decide_eq_true_eq] at hwroot
      obtain ⟨σ, hσ1, hσ2⟩ := hcomplete w hwvs v (hreach w hwvs v hv)
      have hw2 : σ = w := rootedAt_unique hσ1 ⟨⟨0, rfl⟩, hwroot⟩
      have hρ2 : σ = ρ := rootedAt_unique hσ2 hρ
      rw [← hw2, hρ2]
    unfold rootCount
    have hnodupf : (vs.filter (fun x => decide (b x = x))).Nodup :=
      (List.filter_sublist vs).nodup hnd
    cases hf : vs.filter (fun x => decide (b x = x)) with
    | nil =>
      rw [hf] at hρf
      cases hρf
    | cons z zs =>
      rw [hf] at hall hnodupf
      have hz : z = ρ := hall z (by simp)
      cases hzs2 : zs with
      | nil => rfl
      | cons w ws =>
        exfalso
        rw [hzs2] at hall hnodupf
        have hw : w = ρ := hall w (by simp)
        rw [List.nodup_cons] at hnodupf
        exact hnodupf.1 (by
          rw [hz, ← hw]
          simp)

/-! ## C1: assembling the four algorithms -/

theorem g1_isConnected1 (g : Graph1) :
    ∃ bb : Bool, g.isConnected1 = some bb ∧
      (bb = true ↔ ConnSpec g.vertices g.edges) := by
  obtain ⟨b₁, hrun, hiff⟩ := pm_main g.edges g.vertices
  refine ⟨decide (distinctCount b₁ g.vertices = 1), ?_, ?_⟩
  · unfold Graph1.isConnected1
    rw [hrun]
    rfl
  · rw [decide_eq_true_eq]
    exact hiff

theorem g1_isConnected2 (g : Graph1) (hnd : g.vertices.Nodup)
    (hcl : edgeClosed g.edges g.vertices) :
    ∃ bb : Bool, g.isConnected2 = some bb ∧
      (bb = true ↔ ConnSpec g.vertices g.edges) := by
  have hcl' : ∀ e ∈ g.edges, e.1 ∈ g.vertices ∧ e.2 ∈ g.vertices ∧
      adjRel g.edges e.1 e.2 := by
    intro e he
    obtain ⟨h1, h2⟩ := hcl e he
    refine ⟨h1, h2, Or.inl ?_⟩
    rw [show (e.1, e.2) = e from rfl]
    exact he
  obtain ⟨st, hrun, hinv, hsr, hcnt⟩ := ufLoop_main hnd g.edges hcl'
  refine ⟨decide (st.cnt = 1), ?_, ?_⟩
  · unfold Graph1.isConnected2
    rw [hrun]
    rfl
  · rw [decide_eq_true_eq]
    have hiff := uf_conn_iff hnd hinv hsr (fun x y h => h)
    have hc2 : ((rootCount st.par g.vertices : Int) = 1) ↔
        rootCount st.par g.vertices = 1 := by omega
    rw [hcnt, hc2]
    exact hiff

theorem mem_arcs_iff {d : Adj} (hnd : (akeys d).Nodup) {u v : Int} :
    (u, v) ∈ Graph2.arcs d ↔ 0 < countAdj d u v := by
  unfold Graph2.arcs
  rw [countAdj_pos_iff]
  constructor
  · intro h
    obtain ⟨p, hp, hm⟩ := List.mem_flatMap.mp h
    obtain ⟨w, hw, hev⟩ := List.mem_map.mp hm
    injection hev with h1 h2
    refine ⟨p.2, ?_, ?_⟩
    · rw [← h1]
      exact alook_of_mem_nodup hnd (by
        show (p.1, p.2) ∈ d
        simpa using hp)
    · rw [← h2]
      exact hw
  · rintro ⟨ns, hns, hv⟩
    exact List.mem_flatMap.mpr ⟨(u, ns), alook_mem hns,
      List.mem_map.mpr ⟨v, hv, rfl⟩⟩

theorem arcs_endpoints {d : Adj} (hcl : Graph2.closed d) :
    ∀ e ∈ Graph2.arcs d, e.1 ∈ akeys d ∧ e.2 ∈ akeys d := by
  intro e he
  obtain ⟨p, hp, hm⟩ := List.mem_flatMap.mp he
  obtain ⟨w, hw, hev⟩ := List.mem_map.mp hm
  constructor
  · rw [← hev]
    exact List.mem_map.mpr ⟨p, hp, rfl⟩
  · rw [← hev]
    exact hcl p hp w hw

theorem g2_isConnected2 (d : Adj) (hnd : (akeys d).Nodup)
    (hcl : Graph2.closed d) :
    ∃ bb : Bool, Graph2.isConnected2 d = some bb ∧
      (bb = true ↔ ConnSpec (akeys d) (Graph2.arcs d)) := by
  have harc : ∀ e ∈ Graph2.arcs d, e.1 ∈ akeys d ∧ e.2 ∈ akeys d ∧
      adjRel (Graph2.arcs d) e.1 e.2 := by
    intro e he
    obtain ⟨h1, h2⟩ := arcs_endpoints hcl e he
    refine ⟨h1, h2, Or.inl ?_⟩
    rw [show (e.1, e.2) = e from rfl]
    exact he
  obtain ⟨st, hrun, hinv, hsr, hcnt⟩ := ufLoop_main hnd (Graph2.arcs d) harc
  refine ⟨decide (st.cnt = 1), ?_, ?_⟩
  · unfold Graph2.isConnected2
    rw [hrun]
    rfl
  · rw [decide_eq_true_eq]
    have hiff := uf_conn_iff hnd hinv hsr (fun x y h => h)
    have hc2 : ((rootCount st.par (akeys d) : Int) = 1) ↔
        rootCount st.par (akeys d) = 1 := by omega
    rw [hcnt, hc2]
    exact hiff

theorem g2_isConnected1 (d : Adj) (hnd : (akeys d).Nodup)
    (hcl : Graph2.closed d) :
    ∃ bb : Bool, Graph2.isConnected1 d = some bb ∧
      (bb = true ↔ ConnSpec (akeys d) (Graph2.arcs d)) := by
  have hadj : ∀ u ∈ akeys d, ∀ v ∈ Graph2.adj d u,
      adjRel (Graph2.arcs d) u v := by
    intro u hu v hv
    rcases Option.isSome_iff_exists.mp (alook_isSome_of_mem hu) with ⟨ns, hns⟩
    have hv2 : v ∈ ns := by
      unfold Graph2.adj at hv
      rw [hns] at hv
      exact hv
    exact Or.inl (List.mem_flatMap.mpr ⟨(u, ns), alook_mem hns,
      List.mem_map.mpr ⟨v, hv2, rfl⟩⟩)
  have hcov : ∀ x y, adjRel (Graph2.arcs d) x y →
      (x ∈ akeys d ∧ y ∈ Graph2.adj d x) ∨ (y ∈ akeys d ∧ x ∈ Graph2.adj d y) := by
    intro x y h
    rcases h with h | h
    · left
      have := (mem_arcs_iff hnd).mp h
      rcases countAdj_pos_iff.mp this with ⟨ns, hns, hy⟩
      refine ⟨mem_akeys_of_alook hns, ?_⟩
      unfold Graph2.adj
      rw [hns]
      exact hy
    · right
      have := (mem_arcs_iff hnd).mp h
      rcases countAdj_pos_iff.mp this with ⟨ns, hns, hy⟩
      refine ⟨mem_akeys_of_alook hns, ?_⟩
      unfold Graph2.adj
      rw [hns]
      exact hy
  obtain ⟨b₁, hrun, hiff⟩ :=
    pm2_main (Graph2.adj d) (akeys d) (Graph2.arcs d) hadj hcov
  refine ⟨decide (distinctCount b₁ (akeys d) = 1), ?_, ?_⟩
  · unfold Graph2.isConnected1
    rw [hrun]
    rfl
  · rw [decide_eq_true_eq]
    exact hiff

theorem arcs_adjRel_iff {vs : List Int} {es : List (Int × Int)} {d : Adj}
    (h : mkGraph2 vs es = some d) (x y : Int) :
    adjRel (Graph2.arcs d) x y ↔ adjRel es x y := by
  have hnd := mk2_keys_nodup h
  constructor
  · intro hc
    rcases hc with hm | hm
    · have hp := (mem_arcs_iff hnd).mp hm
      rw [mk2_count h] at hp
      rcases Nat.lt_or_ge 0 (es.count (x, y)) with hq | hq
      · exact Or.inl (List.count_pos_iff.mp hq)
      · exact Or.inr (List.count_pos_iff.mp (by omega))
    · have hp := (mem_arcs_iff hnd).mp hm
      rw [mk2_count h] at hp
      rcases Nat.lt_or_ge 0 (es.count (y, x)) with hq | hq
      · exact Or.inr (List.count_pos_iff.mp hq)
      · exact Or.inl (List.count_pos_iff.mp (by omega))
  · intro hc
    refine Or.inl ((mem_arcs_iff hnd).mpr ?_)
    rw [mk2_count h]
    rcases hc with hm | hm
    · have := List.count_pos_iff.mpr hm
      omega
    · have := List.count_pos_iff.mpr hm
      omega

/-- C1 (corrected).  The equivalence of the two connectivity algorithms
needs a duplicate-free vertex list, which the claim omits: isConnected2
initializes its component counter to len(vertices) with duplicates counted,
while isConnected1 counts distinct bucket labels, so Graph1([1,1],[]) gets
True from the first and False from the second (see the counterexample).
Amended: on a duplicate-free vertex list whose edges' endpoints all appear
among the vertices (for Graph2, on duplicate-free keys with every neighbor
a key), isConnected1 and isConnected2 terminate with the same boolean,
which decides graph connectivity; and the four runs on a Graph1 and a
successfully constructed Graph2 over the same duplicate-free (vertices,
edges) input all agree. -/
theorem c1_amended_connectivity : ∀ (g : Graph1) (d : Adj) (vs : List Int)
    (es : List (Int × Int)),
    (g.vertices.Nodup → edgeClosed g.edges g.vertices →
      ∃ bb : Bool, g.isConnected1 = some bb ∧ g.isConnected2 = some bb ∧
        (bb = true ↔ ConnSpec g.vertices g.edges)) ∧
    ((akeys d).Nodup → Graph2.closed d →
      ∃ bb : Bool, Graph2.isConnected1 d = some bb ∧
        Graph2.isConnected2 d = some bb ∧
        (bb = true ↔ ConnSpec (akeys d) (Graph2.arcs d))) ∧
    (vs.Nodup → mkGraph2 vs es = some d →
      ∃ bb : Bool, (Graph1.mk1 vs es).isConnected1 = some bb ∧
        (Graph1.mk1 vs es).isConnected2 = some bb ∧
        Graph2.isConnected1 d = some bb ∧ Graph2.isConnected2 d = some bb ∧
        (bb = true ↔ ConnSpec vs es)) := by
  intro g d vs es
  refine ⟨?_, ?_, ?_⟩
  · intro hnd hcl
    obtain ⟨b₁, h₁, hiff₁⟩ := g1_isConnected1 g
    obtain ⟨b₂, h₂, hiff₂⟩ := g1_isConnected2 g hnd hcl
    have hb : b₁ = b₂ := by
      rw [Bool.eq_iff_iff, hiff₁, hiff₂]
    refine ⟨b₁, h₁, ?_, hiff₁⟩
    rw [hb]
    exact h₂
  · intro hnd hcl
    obtain ⟨b₁, h₁, hiff₁⟩ := g2_isConnected1 d hnd hcl
    obtain ⟨b₂, h₂, hiff₂⟩ := g2_isConnected2 d hnd hcl
    have hb : b₁ = b₂ := by
      rw [Bool.eq_iff_iff, hiff₁, hiff₂]
    refine ⟨b₁, h₁, ?_, hiff₁⟩
    rw [hb]
    exact h₂
  · intro hnd hmk
    have hklnd := mk2_keys_nodup hmk
    have hkcl := mk2_closed hmk
    have hkeq : akeys d = vs := mk2_keys_eq hmk hnd
    have hclosed : edgeClosed es vs := by
      intro e he
      obtain ⟨h1, h2⟩ := mk2_edge_endpoints hmk e he
      rw [mk2_mem_keys hmk] at h1 h2
      exact ⟨h1, h2⟩
    have hg1nd : (Graph1.mk1 vs es).vertices.Nodup := hnd
    have hg1cl : edgeClosed (Graph1.mk1 vs es).edges (Graph1.mk1 vs es).vertices :=
      mk1_closed hclosed
    have hspec1 : ConnSpec (Graph1.mk1 vs es).vertices (Graph1.mk1 vs es).edges
        ↔ ConnSpec vs es := by
      show ConnSpec vs (es.map normPair) ↔ ConnSpec vs es
      exact ConnSpec_congr (fun x y => adjRel_normPair x y)
    have hspec2 : ConnSpec (akeys d) (Graph2.arcs d) ↔ ConnSpec vs es := by
      rw [hkeq]
      exact ConnSpec_congr (fun x y => arcs_adjRel_iff hmk x y)
    obtain ⟨b₁, h₁, hiff₁⟩ := g1_isConnected1 (Graph1.mk1 vs es)
    obtain ⟨b₂, h₂, hiff₂⟩ := g1_isConnected2 (Graph1.mk1 vs es) hg1nd hg1cl
    obtain ⟨b₃, h₃, hiff₃⟩ := g2_isConnected1 d hklnd hkcl
    obtain ⟨b₄, h₄, hiff₄⟩ := g2_isConnected2 d hklnd hkcl
    rw [hspec1] at hiff₁ hiff₂
    rw [hspec2] at hiff₃ hiff₄
    have hb2 : b₁ = b₂ := by rw [Bool.eq_iff_iff, hiff₁, hiff₂]
    have hb3 : b₁ = b₃ := by rw [Bool.eq_iff_iff, hiff₁, hiff₃]
    have hb4 : b₁ = b₄ := by rw [Bool.eq_iff_iff, hiff₁, hiff₄]
    refine ⟨b₁, h₁, ?_, ?_, ?_, hiff₁⟩
    · rw [hb2]
      exact h₂
    · rw [hb3]
      exact h₃
    · rw [hb4]
      exact h₄

/-- Witness for C1: the single-edge graph on vertices 0, 1 in both
representations. -/
theorem c1_amended_connectivity_witness :
    ((Graph1.mk1 [0, 1] [(0, 1)]).vertices.Nodup ∧
     edgeClosed (Graph1.mk1 [0, 1] [(0, 1)]).edges
       (Graph1.mk1 [0, 1] [(0, 1)]).vertices ∧
     ([1, 2] : List Int).Nodup ∧
     mkGraph2 [1, 2] [(1, 2)] = some [(1, [2]), (2, [1])]) ∧
    (∃ bb : Bool, (Graph1.mk1 [0, 1] [(0, 1)]).isConnected1 = some bb ∧
      (Graph1.mk1 [0, 1] [(0, 1)]).isConnected2 = some bb ∧
      (bb = true ↔ ConnSpec (Graph1.mk1 [0, 1] [(0, 1)]).vertices
        (Graph1.mk1 [0, 1] [(0, 1)]).edges)) ∧
    (∃ bb : Bool, (Graph1.mk1 [1, 2] [(1, 2)]).isConnected1 = some bb ∧
      (Graph1.mk1 [1, 2] [(1, 2)]).isConnected2 = some bb ∧
      Graph2.isConnected1 [(1, [2]), (2, [1])] = some bb ∧
      Graph2.isConnected2 [(1, [2]), (2, [1])] = some bb ∧
      (bb = true ↔ ConnSpec [1, 2] [(1, 2)])) :=
  ⟨⟨by decide, by decide, by decide, by decide⟩,
   (c1_amended_connectivity (Graph1.mk1 [0, 1] [(0, 1)]) [(1, [2]), (2, [1])]
     [1, 2] [(1, 2)]).1 (by decide) (by decide),
   (c1_amended_connectivity (Graph1.mk1 [0, 1] [(0, 1)]) [(1, [2]), (2, [1])]
     [1, 2] [(1, 2)]).2.2 (by decide) (by decide)⟩

/-- C1 counterexample: Graph1([1,1],[]) satisfies the claim's endpoint
condition (it has no edges), yet isConnected1 answers True while
isConnected2 answers False, because the union-find counter starts at the
duplicate-counting len(vertices); the Graph2 built from the same input
dedups the key 1 and answers True from both, diverging from the Graph1
isConnected2 result. -/
theorem c1_counterexample :
    edgeClosed (Graph1.mk1 [1, 1] []).edges (Graph1.mk1 [1, 1] []).vertices ∧
    (Graph1.mk1 [1, 1] []).isConnected1 = some true ∧
    (Graph1.mk1 [1, 1] []).isConnected2 = some false ∧
    mkGraph2 [1, 1] [] = some [(1, [])] ∧
    Graph2.isConnected1 [(1, [])] = some true ∧
    Graph2.isConnected2 [(1, [])] = some true := by decide

/-! ## C3: store cell access lemmas -/

theorem getD_set_self {α : Type} (l : List α) (i : Nat) (x d : α)
    (h : i < l.length) : (l.set i x).getD i d = x := by
  rw [List.getD_eq_getElem?_getD, List.getElem?_set_self h]
  rfl

theorem getD_set_ne {α : Type} (l : List α) {i j : Nat} (x d : α) (h : i ≠ j) :
    (l.set i x).getD j d = l.getD j d := by
  rw [List.getD_eq_getElem?_getD, List.getElem?_set_ne h,
    ← List.getD_eq_getElem?_getD]

theorem getD_append_self {α : Type} (l : List α) (x d : α) :
    (l ++ [x]).getD l.length d = x := by
  rw [List.getD_eq_getElem?_getD, List.getElem?_append_right (Nat.le_refl _)]
  simp

theorem readI_writeI_self {s : St} {i : Nat} (h : i < s.ilists.length)
    (l : List Int) : readI (writeI s i l) i = l := getD_set_self _ _ _ _ h

theorem readI_writeI_ne (s : St) {i j : Nat} (l : List Int) (h : i ≠ j) :
    readI (writeI s i l) j = readI s j := getD_set_ne _ _ _ h

theorem readI_allocI_lt {s : St} {i : Nat} (h : i < s.ilists.length)
    (l : List Int) : readI (allocI s l).2 i = readI s i :=
  List.getD_append _ _ _ _ h

theorem readI_allocI_self (s : St) (l : List Int) :
    readI (allocI s l).2 s.ilists.length = l := getD_append_self _ _ _

theorem readP_writeP_self {s : St} {i : Nat} (h : i < s.plists.length)
    (l : List (Int × Int)) : readP (writeP s i l) i = l := getD_set_self _ _ _ _ h

theorem readP_writeP_ne (s : St) {i j : Nat} (l : List (Int × Int)) (h : i ≠ j) :
    readP (writeP s i l) j = readP s j := getD_set_ne _ _ _ h

theorem readP_allocP_lt {s : St} {i : Nat} (h : i < s.plists.length)
    (l : List (Int × Int)) : readP (allocP s l).2 i = readP s i :=
  List.getD_append _ _ _ _ h

theorem readP_allocP_self (s : St) (l : List (Int × Int)) :
    readP (allocP s l).2 s.plists.length = l := getD_append_self _ _ _

theorem readD_writeD_self {s : St} {j : Nat} (h : j < s.dicts.length)
    (d : List (Int × Nat)) : readD (writeD s j d) j = d := getD_set_self _ _ _ _ h

theorem readD_writeD_ne (s : St) {i j : Nat} (d : List (Int × Nat)) (h : i ≠ j) :
    readD (writeD s i d) j = readD s j := getD_set_ne _ _ _ h

theorem readD_allocD_lt {s : St} {j : Nat} (h : j < s.dicts.length)
    (d : List (Int × Nat)) : readD (allocD s d).2 j = readD s j :=
  List.getD_append _ _ _ _ h

theorem readD_allocD_self (s : St) (d : List (Int × Nat)) :
    readD (allocD s d).2 s.dicts.length = d := getD_append_self _ _ _

/-! ## C3: frame composition and view preservation -/

theorem hg2Frame_refl (g : G2) (s : St) : hg2Frame g s s := ⟨rfl, fun _ _ => rfl⟩

theorem hg2Fp_eq_of_frame {g : G2} {s s' : St} (h : hg2Frame g s s') :
    hg2Fp g s' = hg2Fp g s := by
  unfold hg2Fp
  rw [h.1]

theorem hg2Frame_trans {g : G2} {s s₁ s₂ : St} (h₁ : hg2Frame g s s₁)
    (h₂ : hg2Frame g s₁ s₂) : hg2Frame g s s₂ := by
  refine ⟨h₂.1.trans h₁.1, ?_⟩
  intro i hi
  rw [h₂.2 i (by rwa [hg2Fp_eq_of_frame h₁]), h₁.2 i hi]

theorem hg2Vertices_eq_of_frame {g : G2} {s s' : St} (h : hg2Frame g s s') :
    hg2Vertices g s' = hg2Vertices g s := by
  unfold hg2Vertices
  rw [h.1]

theorem hg2Edges_eq_of_frame {g : G2} {s s' : St} (h : hg2Frame g s s') :
    hg2Edges g s' = hg2Edges g s := by
  unfold hg2Edges
  rw [h.1]
  have hmap : (hg2Dict g s).map
      (fun p => ((readI s' p.2).filter (fun v => decide (p.1 < v))).map
        (fun v => (p.1, v)))
      = (hg2Dict g s).map
      (fun p => ((readI s p.2).filter (fun v => decide (p.1 < v))).map
        (fun v => (p.1, v))) := by
    apply List.map_congr_left
    intro p hp
    rw [h.2 p.2 (List.mem_map.mpr ⟨p, hp, rfl⟩)]
  rw [List.flatMap_def, hmap, ← List.flatMap_def]

theorem hg2Valid_of_frame {g : G2} {s s' : St} (hf : hg2Frame g s s')
    (hv : hg2Valid g s) (hgi : s.ilists.length ≤ s'.ilists.length)
    (hgd : s.dicts.length ≤ s'.dicts.length) : hg2Valid g s' := by
  obtain ⟨hd, hfp⟩ := hv
  refine ⟨by omega, ?_⟩
  intro i hi
  rw [hg2Fp_eq_of_frame hf] at hi
  have := hfp i hi
  omega

theorem frame_writeI {g : G2} {s : St} {i : Nat} (h : i ∉ hg2Fp g s)
    (l : List Int) : hg2Frame g s (writeI s i l) := by
  refine ⟨rfl, ?_⟩
  intro j hj
  refine readI_writeI_ne s l (fun hc => h ?_)
  rw [hc]
  exact hj

theorem frame_writeD {g : G2} (s : St) {j : Nat} (h : j ≠ g.dref)
    (d : List (Int × Nat)) : hg2Frame g s (writeD s j d) := by
  refine ⟨?_, fun _ _ => rfl⟩
  show readD (writeD s j d) g.dref = readD s g.dref
  exact readD_writeD_ne s d h

theorem frame_allocI {g : G2} {s : St} (hv : hg2Valid g s) (l : List Int) :
    hg2Frame g s (allocI s l).2 := by
  refine ⟨rfl, ?_⟩
  intro i hi
  exact readI_allocI_lt (hv.2 i hi) l

theorem frame_allocP (g : G2) (s : St) (l : List (Int × Int)) :
    hg2Frame g s (allocP s l).2 := ⟨rfl, fun _ _ => rfl⟩

theorem frame_allocD {g : G2} {s : St} (hv : hg2Valid g s)
    (d : List (Int × Nat)) : hg2Frame g s (allocD s d).2 := by
  refine ⟨?_, fun _ _ => rfl⟩
  show readD (allocD s d).2 g.dref = readD s g.dref
  exact readD_allocD_lt hv.1 d

theorem hg2Disj_symm {c g : G2} {s : St} (h : hg2Disj c g s) : hg2Disj g c s := by
  refine ⟨h.1.symm, ?_⟩
  intro i hi hc
  exact h.2 i hc hi

theorem hg2Disj_maintain {c g : G2} {s s' : St} (hdisj : hg2Disj c g s)
    (hvg : hg2Valid g s) (hf : hg2Frame g s s')
    (hfp : ∀ i ∈ hg2Fp c s', i ∈ hg2Fp c s ∨ (s.ilists.length ≤ i ∧
      i < s'.ilists.length)) :
    hg2Disj c g s' := by
  refine ⟨hdisj.1, ?_⟩
  intro i hi
  rw [hg2Fp_eq_of_frame hf]
  rcases hfp i hi with h | h
  · exact hdisj.2 i h
  · intro hc
    have := hvg.2 i hc
    omega

theorem hg2StepOk_refl (c g : G2) (s : St) : hg2StepOk c g s s :=
  ⟨hg2Frame_refl g s, Nat.le_refl _, Nat.le_refl _, fun i hi => Or.inl hi⟩

theorem hg2StepOk_trans {c g : G2} {s s₁ s₂ : St} (h₁ : hg2StepOk c g s s₁)
    (h₂ : hg2StepOk c g s₁ s₂) : hg2StepOk c g s s₂ := by
  obtain ⟨hf₁, hi₁, hd₁, hp₁⟩ := h₁
  obtain ⟨hf₂, hi₂, hd₂, hp₂⟩ := h₂
  refine ⟨hg2Frame_trans hf₁ hf₂, by omega, by omega, ?_⟩
  intro i hi
  rcases hp₂ i hi with h | h
  · rcases hp₁ i h with h' | h'
    · exact Or.inl h'
    · exact Or.inr ⟨h'.1, by omega⟩
  · exact Or.inr ⟨by omega, h.2⟩

theorem hg2StepOk_hyps {c g : G2} {s s' : St} (hvg : hg2Valid g s)
    (hvc : hg2Valid c s) (hdisj : hg2Disj c g s) (hok : hg2StepOk c g s s') :
    hg2Valid g s' ∧ hg2Valid c s' ∧ hg2Disj c g s' := by
  obtain ⟨hf, hi, hd, hp⟩ := hok
  refine ⟨hg2Valid_of_frame hf hvg hi hd, ⟨by
    have := hvc.1
    omega, ?_⟩, hg2Disj_maintain hdisj hvg hf hp⟩
  intro i hi2
  rcases hp i hi2 with h | h
  · have := hvc.2 i h
    omega
  · omega

theorem mem_fp_of_alook {c : G2} {s : St} {x : Int} {i : Nat}
    (h : alook (hg2Dict c s) x = some i) : i ∈ hg2Fp c s :=
  List.mem_map.mpr ⟨(x, i), alook_mem h, rfl⟩

theorem hg2AddVertex_ok {c g : G2} {s : St} (hvg : hg2Valid g s)
    (hvc : hg2Valid c s) (hdisj : hg2Disj c g s) (a : Int) :
    hg2StepOk c g s (hg2AddVertex c a s) := by
  have e1 : hg2AddVertex c a s
      = writeD (allocI s []).2 c.dref
          (aput (readD (allocI s []).2 c.dref) a (allocI s []).1) := rfl
  rw [e1]
  refine ⟨?_, ?_, ?_, ?_⟩
  · exact hg2Frame_trans (frame_allocI hvg []) (frame_writeD _ hdisj.1 _)
  · show s.ilists.length ≤ (s.ilists ++ [[]]).length
    rw [List.length_append]
    omega
  · show s.dicts.length ≤ (s.dicts.set c.dref _).length
    rw [List.length_set]
  · intro i hi
    have hd : readD (writeD (allocI s []).2 c.dref
          (aput (readD (allocI s []).2 c.dref) a (allocI s []).1)) c.dref
        = aput (readD (allocI s []).2 c.dref) a (allocI s []).1 :=
      readD_writeD_self (show c.dref < (allocI s []).2.dicts.length from hvc.1) _
    unfold hg2Fp hg2Dict at hi
    rw [hd] at hi
    rcases List.mem_map.mp hi with ⟨p, hp, rfl⟩
    rcases mem_aput_cases hp with rfl | hp2
    · right
      have h2 : (writeD (allocI s []).2 c.dref
          (aput (readD (allocI s []).2 c.dref) a (allocI s []).1)).ilists.length
          = s.ilists.length + 1 := by
        rw [show (writeD (allocI s []).2 c.dref
          (aput (readD (allocI s []).2 c.dref) a (allocI s []).1)).ilists
          = s.ilists ++ [[]] from rfl, List.length_append]
        rfl
      rw [show ((a, (allocI s []).1) : Int × Nat).2 = s.ilists.length from rfl, h2]
      omega
    · left
      exact List.mem_map.mpr ⟨p, hp2, rfl⟩

theorem hg2Dict_writeI (c : G2) (s : St) (i : Nat) (l : List Int) :
    hg2Dict c (writeI s i l) = hg2Dict c s := rfl

theorem hg2Dict_allocI (c : G2) (s : St) (l : List Int) :
    hg2Dict c (allocI s l).2 = hg2Dict c s := rfl

theorem writeI_ilists_length (s : St) (i : Nat) (l : List Int) :
    (writeI s i l).ilists.length = s.ilists.length := List.length_set _ _ _

theorem hg2Valid_writeI {g : G2} {s : St} (hv : hg2Valid g s) (i : Nat)
    (l : List Int) : hg2Valid g (writeI s i l) := by
  refine ⟨hv.1, ?_⟩
  intro k hk
  rw [writeI_ilists_length]
  exact hv.2 k hk

theorem hg2Valid_writeD {g : G2} {s : St} (hv : hg2Valid g s) {j : Nat}
    (h : j ≠ g.dref) (d : List (Int × Nat)) : hg2Valid g (writeD s j d) := by
  refine ⟨?_, ?_⟩
  · rw [show (writeD s j d).dicts = s.dicts.set j d from rfl, List.length_set]
    exact hv.1
  · intro k hk
    have hk2 : k ∈ hg2Fp g s := by
      unfold hg2Fp hg2Dict at hk ⊢
      rwa [readD_writeD_ne s d h] at hk
    exact hv.2 k hk2

theorem hg2Valid_allocI {g : G2} {s : St} (hv : hg2Valid g s) (l : List Int) :
    hg2Valid g (allocI s l).2 := by
  refine ⟨hv.1, ?_⟩
  intro k hk
  have := hv.2 k hk
  rw [show (allocI s l).2.ilists = s.ilists ++ [l] from rfl, List.length_append]
  omega

theorem hg2Fp_writeD_ne {g : G2} (s : St) {j : Nat} (h : j ≠ g.dref)
    (d : List (Int × Nat)) : hg2Fp g (writeD s j d) = hg2Fp g s := by
  unfold hg2Fp hg2Dict
  rw [readD_writeD_ne s d h]

theorem stepOk_writeI {c g : G2} {s : St} {i : Nat} (h : i ∉ hg2Fp g s)
    (l : List Int) : hg2StepOk c g s (writeI s i l) := by
  refine ⟨frame_writeI h l, ?_, Nat.le_refl _, fun k hk => Or.inl hk⟩
  rw [writeI_ilists_length]

theorem mem_adel {β : Type} {d : List (Int × β)} {a : Int} {p : Int × β}
    (h : p ∈ adel d a) : p ∈ d := by
  induction d with
  | nil => simpa [adel] using h
  | cons q rest ih =>
    by_cases hq : q.1 = a
    · rw [show adel (q :: rest) a = (if q.1 = a then rest
        else q :: adel rest a) from rfl, if_pos hq] at h
      exact List.mem_cons_of_mem _ h
    · rw [show adel (q :: rest) a = (if q.1 = a then rest
        else q :: adel rest a) from rfl, if_neg hq] at h
      rcases List.mem_cons.mp h with rfl | h
      · exact List.mem_cons_self _ _
      · exact List.mem_cons_of_mem _ (ih h)

theorem hg2AddVertexCleanly_ok {c g : G2} {s : St} (hvg : hg2Valid g s)
    (hvc : hg2Valid c s) (hdisj : hg2Disj c g s) (a : Int) :
    hg2StepOk c g s (hg2AddVertexCleanly c a s) := by
  unfold hg2AddVertexCleanly
  split_ifs with h
  · exact hg2StepOk_refl c g s
  · exact hg2AddVertex_ok hvg hvc hdisj a

theorem stepOk_allocI {c g : G2} {s : St} (hvg : hg2Valid g s)
    (l : List Int) : hg2StepOk c g s (allocI s l).2 := by
  refine ⟨frame_allocI hvg l, ?_, Nat.le_refl _, fun k hk => Or.inl hk⟩
  rw [show (allocI s l).2.ilists = s.ilists ++ [l] from rfl, List.length_append]
  omega

theorem hg2AddEdge_ok {c g : G2} {s : St} (hvg : hg2Valid g s)
    (hvc : hg2Valid c s) (hdisj : hg2Disj c g s) (a b : Int) :
    hg2StepOk c g s (hg2AddEdge c a b s) := by
  unfold hg2AddEdge
  split_ifs with hE
  · exact hg2StepOk_refl c g s
  · cases ha : alook (hg2Dict c s) a with
    | none =>
      cases hb : alook (hg2Dict c s) b with
      | none =>
        dsimp only
        show hg2StepOk c g s (writeD (allocI (writeD (allocI s [b]).2 c.dref (aput (readD (allocI s [b]).2 c.dref) a (allocI s [b]).1)) [a]).2 c.dref (aput (readD (allocI (writeD (allocI s [b]).2 c.dref (aput (readD (allocI s [b]).2 c.dref) a (allocI s [b]).1)) [a]).2 c.dref) b (allocI (writeD (allocI s [b]).2 c.dref (aput (readD (allocI s [b]).2 c.dref) a (allocI s [b]).1)) [a]).1))
        have hd1 : readD (allocI s [b]).2 c.dref = readD s c.dref := rfl
        have hd2 : readD (allocI (writeD (allocI s [b]).2 c.dref (aput (readD (allocI s [b]).2 c.dref) a (allocI s [b]).1)) [a]).2 c.dref
            = aput (readD s c.dref) a (allocI s [b]).1 := by
          rw [show readD (allocI (writeD (allocI s [b]).2 c.dref (aput (readD (allocI s [b]).2 c.dref) a (allocI s [b]).1)) [a]).2 c.dref = readD (writeD (allocI s [b]).2 c.dref (aput (readD (allocI s [b]).2 c.dref) a (allocI s [b]).1)) c.dref from rfl,
            readD_writeD_self (show c.dref < (allocI s [b]).2.dicts.length from hvc.1), hd1]
        have hlen1 : ((allocI s [b]).2).ilists.length = s.ilists.length + 1 := by
          rw [show (allocI s [b]).2.ilists = s.ilists ++ [[b]] from rfl, List.length_append]
          rfl
        have hlen2 : ((allocI (writeD (allocI s [b]).2 c.dref (aput (readD (allocI s [b]).2 c.dref) a (allocI s [b]).1)) [a]).2).ilists.length = s.ilists.length + 2 := by
          rw [show (allocI (writeD (allocI s [b]).2 c.dref (aput (readD (allocI s [b]).2 c.dref) a (allocI s [b]).1)) [a]).2.ilists = (allocI s [b]).2.ilists ++ [[a]] from rfl,
            List.length_append, hlen1]
          rfl
        refine ⟨?_, ?_, ?_, ?_⟩
        · refine hg2Frame_trans (frame_allocI hvg [b])
            (hg2Frame_trans (frame_writeD _ hdisj.1 _)
              (hg2Frame_trans (frame_allocI ?_ [a]) (frame_writeD _ hdisj.1 _)))
          exact hg2Valid_writeD (hg2Valid_allocI hvg [b]) hdisj.1 _
        · rw [show (writeD (allocI (writeD (allocI s [b]).2 c.dref (aput (readD (allocI s [b]).2 c.dref) a (allocI s [b]).1)) [a]).2 c.dref (aput (readD (allocI (writeD (allocI s [b]).2 c.dref (aput (readD (allocI s [b]).2 c.dref) a (allocI s [b]).1)) [a]).2 c.dref) b (allocI (writeD (allocI s [b]).2 c.dref (aput (readD (allocI s [b]).2 c.dref) a (allocI s [b]).1)) [a]).1)).ilists = (allocI (writeD (allocI s [b]).2 c.dref (aput (readD (allocI s [b]).2 c.dref) a (allocI s [b]).1)) [a]).2.ilists from rfl, hlen2]
          omega
        · rw [show (writeD (allocI (writeD (allocI s [b]).2 c.dref (aput (readD (allocI s [b]).2 c.dref) a (allocI s [b]).1)) [a]).2 c.dref (aput (readD (allocI (writeD (allocI s [b]).2 c.dref (aput (readD (allocI s [b]).2 c.dref) a (allocI s [b]).1)) [a]).2 c.dref) b (allocI (writeD (allocI s [b]).2 c.dref (aput (readD (allocI s [b]).2 c.dref) a (allocI s [b]).1)) [a]).1)).dicts = (allocI (writeD (allocI s [b]).2 c.dref (aput (readD (allocI s [b]).2 c.dref) a (allocI s [b]).1)) [a]).2.dicts.set c.dref _ from rfl,
            List.length_set, show (allocI (writeD (allocI s [b]).2 c.dref (aput (readD (allocI s [b]).2 c.dref) a (allocI s [b]).1)) [a]).2.dicts = (writeD (allocI s [b]).2 c.dref (aput (readD (allocI s [b]).2 c.dref) a (allocI s [b]).1)).dicts from rfl,
            show (writeD (allocI s [b]).2 c.dref (aput (readD (allocI s [b]).2 c.dref) a (allocI s [b]).1)).dicts = (allocI s [b]).2.dicts.set c.dref _ from rfl,
            List.length_set]
          exact Nat.le_refl _
        · intro k hk
          have hdc : hg2Dict c (writeD (allocI (writeD (allocI s [b]).2 c.dref (aput (readD (allocI s [b]).2 c.dref) a (allocI s [b]).1)) [a]).2 c.dref (aput (readD (allocI (writeD (allocI s [b]).2 c.dref (aput (readD (allocI s [b]).2 c.dref) a (allocI s [b]).1)) [a]).2 c.dref) b (allocI (writeD (allocI s [b]).2 c.dref (aput (readD (allocI s [b]).2 c.dref) a (allocI s [b]).1)) [a]).1))
              = aput (aput (readD s c.dref) a (allocI s [b]).1) b (allocI (writeD (allocI s [b]).2 c.dref (aput (readD (allocI s [b]).2 c.dref) a (allocI s [b]).1)) [a]).1 := by
            show readD (writeD (allocI (writeD (allocI s [b]).2 c.dref (aput (readD (allocI s [b]).2 c.dref) a (allocI s [b]).1)) [a]).2 c.dref (aput (readD (allocI (writeD (allocI s [b]).2 c.dref (aput (readD (allocI s [b]).2 c.dref) a (allocI s [b]).1)) [a]).2 c.dref) b (allocI (writeD (allocI s [b]).2 c.dref (aput (readD (allocI s [b]).2 c.dref) a (allocI s [b]).1)) [a]).1)) c.dref = _
            rw [readD_writeD_self (show c.dref < (allocI (writeD (allocI s [b]).2 c.dref (aput (readD (allocI s [b]).2 c.dref) a (allocI s [b]).1)) [a]).2.dicts.length from by
              rw [show (allocI (writeD (allocI s [b]).2 c.dref (aput (readD (allocI s [b]).2 c.dref) a (allocI s [b]).1)) [a]).2.dicts = (writeD (allocI s [b]).2 c.dref (aput (readD (allocI s [b]).2 c.dref) a (allocI s [b]).1)).dicts from rfl,
                show (writeD (allocI s [b]).2 c.dref (aput (readD (allocI s [b]).2 c.dref) a (allocI s [b]).1)).dicts = (allocI s [b]).2.dicts.set c.dref _ from rfl,
                List.length_set]
              exact hvc.1), hd2]
          unfold hg2Fp at hk
          rw [hdc] at hk
          rcases List.mem_map.mp hk with ⟨p, hp, rfl⟩
          rcases mem_aput_cases hp with rfl | hp2
          · right
            rw [show (((b : Int), (allocI (writeD (allocI s [b]).2 c.dref (aput (readD (allocI s [b]).2 c.dref) a (allocI s [b]).1)) [a]).1) : Int × Nat).2 = (writeD (allocI s [b]).2 c.dref (aput (readD (allocI s [b]).2 c.dref) a (allocI s [b]).1)).ilists.length
                from rfl,
              show (writeD (allocI s [b]).2 c.dref (aput (readD (allocI s [b]).2 c.dref) a (allocI s [b]).1)).ilists = (allocI s [b]).2.ilists from rfl, hlen1,
              show (writeD (allocI (writeD (allocI s [b]).2 c.dref (aput (readD (allocI s [b]).2 c.dref) a (allocI s [b]).1)) [a]).2 c.dref (aput (readD (allocI (writeD (allocI s [b]).2 c.dref (aput (readD (allocI s [b]).2 c.dref) a (allocI s [b]).1)) [a]).2 c.dref) b (allocI (writeD (allocI s [b]).2 c.dref (aput (readD (allocI s [b]).2 c.dref) a (allocI s [b]).1)) [a]).1)).ilists = (allocI (writeD (allocI s [b]).2 c.dref (aput (readD (allocI s [b]).2 c.dref) a (allocI s [b]).1)) [a]).2.ilists from rfl, hlen2]
            omega
          · rcases mem_aput_cases hp2 with rfl | hp3
            · right
              rw [show (((a : Int), (allocI s [b]).1) : Int × Nat).2 = s.ilists.length
                  from rfl,
                show (writeD (allocI (writeD (allocI s [b]).2 c.dref (aput (readD (allocI s [b]).2 c.dref) a (allocI s [b]).1)) [a]).2 c.dref (aput (readD (allocI (writeD (allocI s [b]).2 c.dref (aput (readD (allocI s [b]).2 c.dref) a (allocI s [b]).1)) [a]).2 c.dref) b (allocI (writeD (allocI s [b]).2 c.dref (aput (readD (allocI s [b]).2 c.dref) a (allocI s [b]).1)) [a]).1)).ilists = (allocI (writeD (allocI s [b]).2 c.dref (aput (readD (allocI s [b]).2 c.dref) a (allocI s [b]).1)) [a]).2.ilists from rfl, hlen2]
              omega
            · left
              exact List.mem_map.mpr ⟨p, hp3, rfl⟩
      | some j =>
        dsimp only
        show hg2StepOk c g s (writeI (writeD (allocI s [b]).2 c.dref (aput (readD (allocI s [b]).2 c.dref) a (allocI s [b]).1)) j (readI (writeD (allocI s [b]).2 c.dref (aput (readD (allocI s [b]).2 c.dref) a (allocI s [b]).1)) j ++ [a]))
        have hj : j ∉ hg2Fp g s := hdisj.2 j (mem_fp_of_alook hb)
        have hd1 : readD (allocI s [b]).2 c.dref = readD s c.dref := rfl
        have hlen1 : ((allocI s [b]).2).ilists.length = s.ilists.length + 1 := by
          rw [show (allocI s [b]).2.ilists = s.ilists ++ [[b]] from rfl, List.length_append]
          rfl
        have hdc2 : hg2Dict c (writeD (allocI s [b]).2 c.dref (aput (readD (allocI s [b]).2 c.dref) a (allocI s [b]).1)) = aput (readD s c.dref) a (allocI s [b]).1 := by
          show readD (writeD (allocI s [b]).2 c.dref (aput (readD (allocI s [b]).2 c.dref) a (allocI s [b]).1)) c.dref = _
          rw [readD_writeD_self (show c.dref < (allocI s [b]).2.dicts.length from hvc.1), hd1]
        refine ⟨?_, ?_, ?_, ?_⟩
        · refine hg2Frame_trans (frame_allocI hvg [b])
            (hg2Frame_trans (frame_writeD _ hdisj.1 _) (frame_writeI ?_ _))
          rw [hg2Fp_writeD_ne _ hdisj.1]
          exact hj
        · rw [show (writeI (writeD (allocI s [b]).2 c.dref (aput (readD (allocI s [b]).2 c.dref) a (allocI s [b]).1)) j (readI (writeD (allocI s [b]).2 c.dref (aput (readD (allocI s [b]).2 c.dref) a (allocI s [b]).1)) j ++ [a])).ilists = (writeD (allocI s [b]).2 c.dref (aput (readD (allocI s [b]).2 c.dref) a (allocI s [b]).1)).ilists.set j _ from rfl, List.length_set,
            show (writeD (allocI s [b]).2 c.dref (aput (readD (allocI s [b]).2 c.dref) a (allocI s [b]).1)).ilists = (allocI s [b]).2.ilists from rfl, hlen1]
          omega
        · rw [show (writeI (writeD (allocI s [b]).2 c.dref (aput (readD (allocI s [b]).2 c.dref) a (allocI s [b]).1)) j (readI (writeD (allocI s [b]).2 c.dref (aput (readD (allocI s [b]).2 c.dref) a (allocI s [b]).1)) j ++ [a])).dicts = (writeD (allocI s [b]).2 c.dref (aput (readD (allocI s [b]).2 c.dref) a (allocI s [b]).1)).dicts from rfl,
            show (writeD (allocI s [b]).2 c.dref (aput (readD (allocI s [b]).2 c.dref) a (allocI s [b]).1)).dicts = (allocI s [b]).2.dicts.set c.dref _ from rfl,
            List.length_set]
          exact Nat.le_refl _
        · intro k hk
          have hdc : hg2Dict c (writeI (writeD (allocI s [b]).2 c.dref (aput (readD (allocI s [b]).2 c.dref) a (allocI s [b]).1)) j (readI (writeD (allocI s [b]).2 c.dref (aput (readD (allocI s [b]).2 c.dref) a (allocI s [b]).1)) j ++ [a])) = aput (readD s c.dref) a (allocI s [b]).1 := by
            rw [show hg2Dict c (writeI (writeD (allocI s [b]).2 c.dref (aput (readD (allocI s [b]).2 c.dref) a (allocI s [b]).1)) j (readI (writeD (allocI s [b]).2 c.dref (aput (readD (allocI s [b]).2 c.dref) a (allocI s [b]).1)) j ++ [a])) = hg2Dict c (writeD (allocI s [b]).2 c.dref (aput (readD (allocI s [b]).2 c.dref) a (allocI s [b]).1)) from rfl, hdc2]
          unfold hg2Fp at hk
          rw [hdc] at hk
          rcases List.mem_map.mp hk with ⟨p, hp, rfl⟩
          rcases mem_aput_cases hp with rfl | hp2
          · right
            rw [show (((a : Int), (allocI s [b]).1) : Int × Nat).2 = s.ilists.length
                from rfl,
              show (writeI (writeD (allocI s [b]).2 c.dref (aput (readD (allocI s [b]).2 c.dref) a (allocI s [b]).1)) j (readI (writeD (allocI s [b]).2 c.dref (aput (readD (allocI s [b]).2 c.dref) a (allocI s [b]).1)) j ++ [a])).ilists = (writeD (allocI s [b]).2 c.dref (aput (readD (allocI s [b]).2 c.dref) a (allocI s [b]).1)).ilists.set j _ from rfl, List.length_set,
              show (writeD (allocI s [b]).2 c.dref (aput (readD (allocI s [b]).2 c.dref) a (allocI s [b]).1)).ilists = (allocI s [b]).2.ilists from rfl, hlen1]
            omega
          · left
            exact List.mem_map.mpr ⟨p, hp2, rfl⟩
    | some i =>
      have hi : i ∉ hg2Fp g s := hdisj.2 i (mem_fp_of_alook ha)
      cases hb : alook (hg2Dict c s) b with
      | none =>
        dsimp only
        show hg2StepOk c g s (writeD (allocI (writeI s i (readI s i ++ [b])) [a]).2 c.dref (aput (readD (allocI (writeI s i (readI s i ++ [b])) [a]).2 c.dref) b (allocI (writeI s i (readI s i ++ [b])) [a]).1))
        have hlenW : (writeI s i (readI s i ++ [b])).ilists.length = s.ilists.length :=
          writeI_ilists_length s i _
        have hlenA : ((allocI (writeI s i (readI s i ++ [b])) [a]).2).ilists.length = s.ilists.length + 1 := by
          rw [show (allocI (writeI s i (readI s i ++ [b])) [a]).2.ilists = (writeI s i (readI s i ++ [b])).ilists ++ [[a]] from rfl,
            List.length_append, hlenW]
          rfl
        have hdc2 : readD (allocI (writeI s i (readI s i ++ [b])) [a]).2 c.dref = readD s c.dref := rfl
        refine ⟨?_, ?_, ?_, ?_⟩
        · exact hg2Frame_trans (frame_writeI hi _)
            (hg2Frame_trans (frame_allocI (hg2Valid_writeI hvg i _) [a])
              (frame_writeD _ hdisj.1 _))
        · rw [show (writeD (allocI (writeI s i (readI s i ++ [b])) [a]).2 c.dref (aput (readD (allocI (writeI s i (readI s i ++ [b])) [a]).2 c.dref) b (allocI (writeI s i (readI s i ++ [b])) [a]).1)).ilists = (allocI (writeI s i (readI s i ++ [b])) [a]).2.ilists from rfl, hlenA]
          omega
        · rw [show (writeD (allocI (writeI s i (readI s i ++ [b])) [a]).2 c.dref (aput (readD (allocI (writeI s i (readI s i ++ [b])) [a]).2 c.dref) b (allocI (writeI s i (readI s i ++ [b])) [a]).1)).dicts = (allocI (writeI s i (readI s i ++ [b])) [a]).2.dicts.set c.dref _ from rfl,
            List.length_set]
          exact Nat.le_refl _
        · intro k hk
          have hdc : hg2Dict c (writeD (allocI (writeI s i (readI s i ++ [b])) [a]).2 c.dref (aput (readD (allocI (writeI s i (readI s i ++ [b])) [a]).2 c.dref) b (allocI (writeI s i (readI s i ++ [b])) [a]).1))
              = aput (readD s c.dref) b (allocI (writeI s i (readI s i ++ [b])) [a]).1 := by
            show readD (writeD (allocI (writeI s i (readI s i ++ [b])) [a]).2 c.dref (aput (readD (allocI (writeI s i (readI s i ++ [b])) [a]).2 c.dref) b (allocI (writeI s i (readI s i ++ [b])) [a]).1)) c.dref = _
            rw [readD_writeD_self (show c.dref < (allocI (writeI s i (readI s i ++ [b])) [a]).2.dicts.length from hvc.1),
              hdc2]
          unfold hg2Fp at hk
          rw [hdc] at hk
          rcases List.mem_map.mp hk with ⟨p, hp, rfl⟩
          rcases mem_aput_cases hp with rfl | hp2
          · right
            rw [show (((b : Int), (allocI (writeI s i (readI s i ++ [b])) [a]).1) : Int × Nat).2 = (writeI s i (readI s i ++ [b])).ilists.length
                from rfl, hlenW,
              show (writeD (allocI (writeI s i (readI s i ++ [b])) [a]).2 c.dref (aput (readD (allocI (writeI s i (readI s i ++ [b])) [a]).2 c.dref) b (allocI (writeI s i (readI s i ++ [b])) [a]).1)).ilists = (allocI (writeI s i (readI s i ++ [b])) [a]).2.ilists from rfl, hlenA]
            omega
          · left
            exact List.mem_map.mpr ⟨p, hp2, rfl⟩
      | some j0 =>
        dsimp only
        rw [show hg2Dict c (writeI s i (readI s i ++ [b])) = hg2Dict c s from rfl, hb]
        dsimp only
        show hg2StepOk c g s
          (writeI (writeI s i (readI s i ++ [b])) j0 (readI (writeI s i (readI s i ++ [b])) j0 ++ [a]))
        have hj : j0 ∉ hg2Fp g s := hdisj.2 j0 (mem_fp_of_alook hb)
        exact hg2StepOk_trans (stepOk_writeI hi _)
          (@stepOk_writeI c g (writeI s i (readI s i ++ [b])) j0 hj (readI (writeI s i (readI s i ++ [b])) j0 ++ [a]))

theorem hg2DeleteEdge_ok {c g : G2} {s s' : St} (hvg : hg2Valid g s)
    (hvc : hg2Valid c s) (hdisj : hg2Disj c g s) {a b : Int}
    (h : hg2DeleteEdge c a b s = some s') : hg2StepOk c g s s' := by
  unfold hg2DeleteEdge at h
  cases ha : alook (hg2Dict c s) a with
  | none =>
    rw [ha] at h
    cases h
  | some i =>
    rw [ha] at h
    dsimp only at h
    have hi : i ∉ hg2Fp g s := hdisj.2 i (mem_fp_of_alook ha)
    by_cases hbm : b ∈ readI s i
    · rw [if_pos hbm] at h
      rw [show hg2Dict c (writeI s i ((readI s i).erase b)) = hg2Dict c s from rfl] at h
      cases hbl : alook (hg2Dict c s) b with
      | none =>
        rw [hbl] at h
        cases h
      | some j =>
        rw [hbl] at h
        dsimp only at h
        have hj : j ∉ hg2Fp g s := hdisj.2 j (mem_fp_of_alook hbl)
        by_cases ham : a ∈ readI (writeI s i ((readI s i).erase b)) j
        · rw [if_pos ham] at h
          have hs : writeI (writeI s i ((readI s i).erase b)) j ((readI (writeI s i ((readI s i).erase b)) j).erase a) = s' :=
            Option.some.inj h
          rw [← hs]
          exact hg2StepOk_trans (stepOk_writeI hi _)
            (@stepOk_writeI c g (writeI s i ((readI s i).erase b)) j hj ((readI (writeI s i ((readI s i).erase b)) j).erase a))
        · rw [if_neg ham] at h
          have hs : writeI s i ((readI s i).erase b) = s' := Option.some.inj h
          rw [← hs]
          exact stepOk_writeI hi _
    · rw [if_neg hbm] at h
      have hs : s = s' := Option.some.inj h
      rw [← hs]
      exact hg2StepOk_refl c g s

theorem hg2StripGo_ok {c g : G2} {a : Int} : ∀ (xs : List Int) (s s' : St),
    hg2Valid g s → hg2Valid c s → hg2Disj c g s →
    hg2StripGo c a xs s = some s' → hg2StepOk c g s s' := by
  intro xs
  induction xs with
  | nil =>
    intro s s' _ _ _ h
    have hs : s = s' := Option.some.inj h
    rw [← hs]
    exact hg2StepOk_refl c g s
  | cons x xs ih =>
    intro s s' hvg hvc hdisj h
    unfold hg2StripGo at h
    cases hx : alook (hg2Dict c s) x with
    | none =>
      rw [hx] at h
      have hs : s = s' := Option.some.inj h
      rw [← hs]
      exact hg2StepOk_refl c g s
    | some j =>
      rw [hx] at h
      dsimp only at h
      by_cases ham : a ∈ readI s j
      · rw [if_pos ham] at h
        have hj : j ∉ hg2Fp g s := hdisj.2 j (mem_fp_of_alook hx)
        have hok₁ : hg2StepOk c g s (writeI s j ((readI s j).erase a)) :=
          stepOk_writeI hj _
        refine hg2StepOk_trans hok₁ (ih _ s' ?_ ?_ ?_ h)
        · exact hg2Valid_writeI hvg j _
        · exact hg2Valid_writeI hvc j _
        · exact hdisj
      · rw [if_neg ham] at h
        cases h

theorem hg2DeleteVertex_ok {c g : G2} {s s' : St} (hvg : hg2Valid g s)
    (hvc : hg2Valid c s) (hdisj : hg2Disj c g s) {a : Int}
    (h : hg2DeleteVertex c a s = some s') : hg2StepOk c g s s' := by
  unfold hg2DeleteVertex at h
  cases ha : alook (hg2Dict c s) a with
  | none =>
    rw [ha] at h
    have hs : s = s' := Option.some.inj h
    rw [← hs]
    exact hg2StepOk_refl c g s
  | some i =>
    rw [ha] at h
    dsimp only at h
    have hdc : hg2Dict c (writeD s c.dref (adel (readD s c.dref) a))
        = adel (hg2Dict c s) a := by
      show readD (writeD s c.dref (adel (readD s c.dref) a)) c.dref = _
      rw [readD_writeD_self hvc.1]
      rfl
    have hok₁ : hg2StepOk c g s (writeD s c.dref (adel (readD s c.dref) a)) := by
      refine ⟨frame_writeD _ hdisj.1 _, Nat.le_refl _, ?_, ?_⟩
      · rw [show (writeD s c.dref (adel (readD s c.dref) a)).dicts
            = s.dicts.set c.dref _ from rfl, List.length_set]
      · intro k hk
        left
        unfold hg2Fp at hk
        rw [hdc] at hk
        rcases List.mem_map.mp hk with ⟨p, hp, rfl⟩
        exact List.mem_map.mpr ⟨p, mem_adel hp, rfl⟩
    have hvg₂ : hg2Valid g (writeD s c.dref (adel (readD s c.dref) a)) :=
      hg2Valid_writeD hvg hdisj.1 _
    have hvc₂ : hg2Valid c (writeD s c.dref (adel (readD s c.dref) a)) := by
      refine ⟨?_, ?_⟩
      · rw [show (writeD s c.dref (adel (readD s c.dref) a)).dicts
            = s.dicts.set c.dref _ from rfl, List.length_set]
        exact hvc.1
      · intro k hk
        unfold hg2Fp at hk
        rw [hdc] at hk
        rcases List.mem_map.mp hk with ⟨p, hp, rfl⟩
        have : p.2 ∈ hg2Fp c s := List.mem_map.mpr ⟨p, mem_adel hp, rfl⟩
        rw [show (writeD s c.dref (adel (readD s c.dref) a)).ilists
          = s.ilists from rfl]
        exact hvc.2 p.2 this
    have hdisj₂ : hg2Disj c g (writeD s c.dref (adel (readD s c.dref) a)) := by
      refine ⟨hdisj.1, ?_⟩
      intro k hk
      unfold hg2Fp at hk
      rw [hdc] at hk
      rcases List.mem_map.mp hk with ⟨p, hp, rfl⟩
      rw [hg2Fp_writeD_ne _ hdisj.1]
      exact hdisj.2 p.2 (List.mem_map.mpr ⟨p, mem_adel hp, rfl⟩)
    exact hg2StepOk_trans hok₁
      (hg2StripGo_ok (readI s i) _ s' hvg₂ hvc₂ hdisj₂ h)

theorem hg2AddEdges_ok {c g : G2} : ∀ (es : List (Int × Int)) (s : St),
    hg2Valid g s → hg2Valid c s → hg2Disj c g s →
    hg2StepOk c g s (es.foldl (fun t e => hg2AddEdge c e.1 e.2 t) s) := by
  intro es
  induction es with
  | nil =>
    intro s _ _ _
    exact hg2StepOk_refl c g s
  | cons e es ih =>
    intro s hvg hvc hdisj
    rw [List.foldl_cons]
    have hok₁ : hg2StepOk c g s (hg2AddEdge c e.1 e.2 s) :=
      hg2AddEdge_ok hvg hvc hdisj e.1 e.2
    obtain ⟨hvg₂, hvc₂, hdisj₂⟩ := hg2StepOk_hyps hvg hvc hdisj hok₁
    exact hg2StepOk_trans hok₁ (ih _ hvg₂ hvc₂ hdisj₂)

theorem hg2Step_ok {c g : G2} {s s' : St} {op : HOp} (hvg : hg2Valid g s)
    (hvc : hg2Valid c s) (hdisj : hg2Disj c g s)
    (h : hg2Step c s op = some s') : hg2StepOk c g s s' := by
  cases op with
  | addV a =>
    have hs : hg2AddVertex c a s = s' := Option.some.inj h
    rw [← hs]
    exact hg2AddVertex_ok hvg hvc hdisj a
  | addVC a =>
    have hs : hg2AddVertexCleanly c a s = s' := Option.some.inj h
    rw [← hs]
    exact hg2AddVertexCleanly_ok hvg hvc hdisj a
  | addE a b =>
    have hs : hg2AddEdge c a b s = s' := Option.some.inj h
    rw [← hs]
    exact hg2AddEdge_ok hvg hvc hdisj a b
  | addEs es =>
    have hs : es.foldl (fun t e => hg2AddEdge c e.1 e.2 t) s = s' :=
      Option.some.inj h
    rw [← hs]
    exact hg2AddEdges_ok es s hvg hvc hdisj
  | delV a => exact hg2DeleteVertex_ok hvg hvc hdisj h
  | delE a b => exact hg2DeleteEdge_ok hvg hvc hdisj h

theorem hg2Run_ok {c g : G2} : ∀ (ops : List HOp) (s s' : St),
    hg2Valid g s → hg2Valid c s → hg2Disj c g s →
    hg2Run c ops s = some s' → hg2StepOk c g s s' := by
  intro ops
  induction ops with
  | nil =>
    intro s s' _ _ _ h
    have hs : s = s' := Option.some.inj h
    rw [← hs]
    exact hg2StepOk_refl c g s
  | cons op ops ih =>
    intro s s' hvg hvc hdisj h
    unfold hg2Run at h
    cases hs : hg2Step c s op with
    | none =>
      rw [hs] at h
      cases h
    | some s₁ =>
      rw [hs] at h
      dsimp only at h
      have hok₁ := hg2Step_ok hvg hvc hdisj hs
      obtain ⟨hvg₂, hvc₂, hdisj₂⟩ := hg2StepOk_hyps hvg hvc hdisj hok₁
      exact hg2StepOk_trans hok₁ (ih s₁ s' hvg₂ hvc₂ hdisj₂ h)

theorem hg2AllocKeys_spec : ∀ (vs : List Int) (d : List (Int × Nat)) (s : St),
    (hg2AllocKeys vs d s).2.plists = s.plists ∧
    (hg2AllocKeys vs d s).2.dicts = s.dicts ∧
    s.ilists.length ≤ (hg2AllocKeys vs d s).2.ilists.length ∧
    (∀ j, j < s.ilists.length → readI (hg2AllocKeys vs d s).2 j = readI s j) ∧
    (∀ p ∈ (hg2AllocKeys vs d s).1, p ∈ d ∨
      (s.ilists.length ≤ p.2 ∧ p.2 < (hg2AllocKeys vs d s).2.ilists.length)) := by
  intro vs
  induction vs with
  | nil =>
    intro d s
    exact ⟨rfl, rfl, Nat.le_refl _, fun _ _ => rfl, fun p hp => Or.inl hp⟩
  | cons v vs ih =>
    intro d s
    have he : hg2AllocKeys (v :: vs) d s
        = hg2AllocKeys vs (aput d v (allocI s []).1) (allocI s []).2 := rfl
    rw [he]
    obtain ⟨h1, h2, h3, h4, h5⟩ := ih (aput d v (allocI s []).1) (allocI s []).2
    have hlen : (allocI s []).2.ilists.length = s.ilists.length + 1 := by
      rw [show (allocI s []).2.ilists = s.ilists ++ [[]] from rfl,
        List.length_append]
      rfl
    refine ⟨h1, h2, by omega, ?_, ?_⟩
    · intro j hj
      rw [h4 j (by omega)]
      exact readI_allocI_lt hj []
    · intro p hp
      rcases h5 p hp with hp2 | hp2
      · rcases mem_aput_cases hp2 with rfl | hp3
        · right
          rw [show ((v, (allocI s []).1) : Int × Nat).2 = s.ilists.length
            from rfl]
          omega
        · exact Or.inl hp3
      · right
        omega

theorem hg2InsEdges_spec : ∀ (es : List (Int × Int)) (d : List (Int × Nat))
    (s s' : St), hg2InsEdges d es s = some s' →
    s'.plists = s.plists ∧ s'.dicts = s.dicts ∧
    s'.ilists.length = s.ilists.length ∧
    ∀ j, j ∉ d.map Prod.snd → readI s' j = readI s j := by
  intro es
  induction es with
  | nil =>
    intro d s s' h
    have hs : s = s' := Option.some.inj h
    rw [← hs]
    exact ⟨rfl, rfl, rfl, fun _ _ => rfl⟩
  | cons e es ih =>
    intro d s s' h
    unfold hg2InsEdges hg2ArcIns at h
    cases h1 : alook d e.1 with
    | none =>
      rw [h1] at h
      cases h
    | some i =>
      rw [h1] at h
      dsimp only at h
      cases h2 : alook d e.2 with
      | none =>
        rw [h2] at h
        cases h
      | some j =>
        rw [h2] at h
        dsimp only at h
        obtain ⟨g1, g2, g3, g4⟩ := ih d _ s' h
        have hi : i ∈ d.map Prod.snd :=
          List.mem_map.mpr ⟨(e.1, i), alook_mem h1, rfl⟩
        have hj : j ∈ d.map Prod.snd :=
          List.mem_map.mpr ⟨(e.2, j), alook_mem h2, rfl⟩
        refine ⟨g1, g2, by
          rw [g3, writeI_ilists_length, writeI_ilists_length], ?_⟩
        intro k hk
        rw [g4 k hk, readI_writeI_ne _ _ (fun hc => hk (by
            rw [← hc]
            exact hj)),
          readI_writeI_ne _ _ (fun hc => hk (by
            rw [← hc]
            exact hi))]

theorem aput_of_not_mem {β : Type} {d : List (Int × β)} {a : Int} (x : β)
    (h : a ∉ akeys d) : aput d a x = d ++ [(a, x)] := by
  induction d with
  | nil => rfl
  | cons p rest ih =>
    obtain ⟨k, y⟩ := p
    rw [show akeys ((k, y) :: rest) = k :: akeys rest from rfl] at h
    simp only [List.mem_cons, not_or] at h
    rw [aput, if_neg (fun hk => h.1 hk.symm), ih h.2]
    rfl

theorem idxFrom_keys : ∀ (vs : List Int) (n : Nat),
    (idxFrom vs n).map Prod.fst = vs := by
  intro vs
  induction vs with
  | nil => intro n; rfl
  | cons v vs ih =>
    intro n
    show v :: (idxFrom vs (n + 1)).map Prod.fst = v :: vs
    rw [ih]

theorem idxFrom_ge : ∀ (vs : List Int) (n : Nat) (p : Int × Nat),
    p ∈ idxFrom vs n → n ≤ p.2 := by
  intro vs
  induction vs with
  | nil =>
    intro n p hp
    rw [show idxFrom [] n = ([] : List (Int × Nat)) from rfl] at hp
    cases hp
  | cons v vs ih =>
    intro n p hp
    rw [show idxFrom (v :: vs) n = (v, n) :: idxFrom vs (n + 1) from rfl] at hp
    rcases List.mem_cons.mp hp with rfl | hp
    · exact Nat.le_refl _
    · have := ih (n + 1) p hp
      omega

theorem idxFrom_lt : ∀ (vs : List Int) (n : Nat) (p : Int × Nat),
    p ∈ idxFrom vs n → p.2 < n + vs.length := by
  intro vs
  induction vs with
  | nil =>
    intro n p hp
    rw [show idxFrom [] n = ([] : List (Int × Nat)) from rfl] at hp
    cases hp
  | cons v vs ih =>
    intro n p hp
    rw [show idxFrom (v :: vs) n = (v, n) :: idxFrom vs (n + 1) from rfl] at hp
    rcases List.mem_cons.mp hp with rfl | hp
    · show n < n + (v :: vs).length
      rw [List.length_cons]
      omega
    · have := ih (n + 1) p hp
      rw [List.length_cons]
      omega

theorem idxFrom_inj : ∀ (vs : List Int) (n : Nat) (p q : Int × Nat),
    p ∈ idxFrom vs n → q ∈ idxFrom vs n → p.2 = q.2 → p = q := by
  intro vs
  induction vs with
  | nil =>
    intro n p q hp _ _
    rw [show idxFrom [] n = ([] : List (Int × Nat)) from rfl] at hp
    cases hp
  | cons v vs ih =>
    intro n p q hp hq hpq
    rw [show idxFrom (v :: vs) n = (v, n) :: idxFrom vs (n + 1) from rfl] at hp hq
    rcases List.mem_cons.mp hp with rfl | hp
    · rcases List.mem_cons.mp hq with rfl | hq
      · rfl
      · have h2 : n = q.2 := hpq
        have h3 := idxFrom_ge vs (n + 1) q hq
        exfalso
        omega
    · rcases List.mem_cons.mp hq with rfl | hq
      · have h2 : p.2 = n := hpq
        have h3 := idxFrom_ge vs (n + 1) p hp
        exfalso
        omega
      · exact ih (n + 1) p q hp hq hpq

theorem hg2AllocKeys_len : ∀ (vs : List Int) (d₀ : List (Int × Nat)) (s : St),
    (hg2AllocKeys vs d₀ s).2.ilists.length = s.ilists.length + vs.length := by
  intro vs
  induction vs with
  | nil => intro d₀ s; rfl
  | cons v vs ih =>
    intro d₀ s
    have he : hg2AllocKeys (v :: vs) d₀ s
        = hg2AllocKeys vs (aput d₀ v (allocI s []).1) (allocI s []).2 := rfl
    rw [he, ih]
    rw [show (allocI s []).2.ilists = s.ilists ++ [[]] from rfl,
      List.length_append]
    show s.ilists.length + 1 + vs.length = s.ilists.length + (vs.length + 1)
    omega

theorem hg2AllocKeys_eq : ∀ (vs : List Int) (d₀ : List (Int × Nat)) (s : St),
    (∀ v ∈ vs, v ∉ akeys d₀) → vs.Nodup →
    (hg2AllocKeys vs d₀ s).1 = d₀ ++ idxFrom vs s.ilists.length := by
  intro vs
  induction vs with
  | nil =>
    intro d₀ s _ _
    show d₀ = d₀ ++ idxFrom [] s.ilists.length
    rw [show idxFrom [] s.ilists.length = ([] : List (Int × Nat)) from rfl,
      List.append_nil]
  | cons v vs ih =>
    intro d₀ s hf hnd
    rw [List.nodup_cons] at hnd
    have he : hg2AllocKeys (v :: vs) d₀ s
        = hg2AllocKeys vs (aput d₀ v (allocI s []).1) (allocI s []).2 := rfl
    have hap : aput d₀ v (allocI s []).1 = d₀ ++ [(v, (allocI s []).1)] :=
      aput_of_not_mem _ (hf v (List.mem_cons_self v vs))
    have hfresh : ∀ u ∈ vs, u ∉ akeys (aput d₀ v (allocI s []).1) := by
      intro u hu hmem
      rw [hap] at hmem
      rw [show akeys (d₀ ++ [(v, (allocI s []).1)]) = akeys d₀ ++ [v] from by
        show (d₀ ++ [(v, (allocI s []).1)]).map Prod.fst = akeys d₀ ++ [v]
        rw [List.map_append]
        rfl] at hmem
      rcases List.mem_append.mp hmem with h | h
      · exact hf u (List.mem_cons_of_mem _ hu) h
      · rw [List.mem_singleton] at h
        subst h
        exact hnd.1 hu
    rw [he, ih _ _ hfresh hnd.2, hap, List.append_assoc]
    rw [show (allocI s []).2.ilists.length = s.ilists.length + 1 from by
      rw [show (allocI s []).2.ilists = s.ilists ++ [[]] from rfl,
        List.length_append]
      rfl]
    rfl

theorem hg2AllocKeys_content : ∀ (vs : List Int) (d₀ : List (Int × Nat))
    (s : St), ∀ p ∈ (hg2AllocKeys vs d₀ s).1,
    p ∈ d₀ ∨ readI (hg2AllocKeys vs d₀ s).2 p.2 = [] := by
  intro vs
  induction vs with
  | nil =>
    intro d₀ s p hp
    exact Or.inl hp
  | cons v vs ih =>
    intro d₀ s p hp
    have he : hg2AllocKeys (v :: vs) d₀ s
        = hg2AllocKeys vs (aput d₀ v (allocI s []).1) (allocI s []).2 := rfl
    rw [he] at hp ⊢
    rcases ih _ _ p hp with hmem | hread
    · rcases mem_aput_cases hmem with rfl | hmem2
      · right
        obtain ⟨-, -, -, h4, -⟩ :=
          hg2AllocKeys_spec vs (aput d₀ v (allocI s []).1) (allocI s []).2
        have hlt2 : ((v, (allocI s []).1) : Int × Nat).2
            < (allocI s []).2.ilists.length := by
          rw [show (allocI s []).2.ilists = s.ilists ++ [[]] from rfl,
            List.length_append]
          show s.ilists.length < s.ilists.length + 1
          omega
        rw [h4 _ hlt2]
        exact readI_allocI_self s []
      · exact Or.inl hmem2
    · exact Or.inr hread

theorem insEdges_adj : ∀ (es : List (Int × Int)) (d : List (Int × Nat))
    (s s' : St), hg2InsEdges d es s = some s' →
    (∀ p ∈ d, ∀ q ∈ d, p.2 = q.2 → p.1 = q.1) →
    (∀ p ∈ d, p.2 < s.ilists.length) →
    (∀ e ∈ es, e.1 ≠ e.2) →
    ∀ (a : Int) (i : Nat), alook d a = some i →
    readI s' i = readI s i ++ es.flatMap (fun e =>
      (if e.1 = a then [e.2] else []) ++ (if e.2 = a then [e.1] else [])) := by
  intro es
  induction es with
  | nil =>
    intro d s s' h _ _ _ a i _
    have hs : s = s' := Option.some.inj h
    subst hs
    exact (List.append_nil _).symm
  | cons e es ih =>
    intro d s s' h hinj hlt hne a i ha
    unfold hg2InsEdges hg2ArcIns at h
    cases h1 : alook d e.1 with
    | none =>
      rw [h1] at h
      cases h
    | some i₁ =>
      rw [h1] at h
      dsimp only at h
      cases h2 : alook d e.2 with
      | none =>
        rw [h2] at h
        cases h
      | some i₂ =>
        rw [h2] at h
        dsimp only at h
        have hmem_a : (a, i) ∈ d := alook_mem ha
        have hmem1 : (e.1, i₁) ∈ d := alook_mem h1
        have hmem2 : (e.2, i₂) ∈ d := alook_mem h2
        have hia : i < s.ilists.length := hlt _ hmem_a
        have hrec := ih d _ s' h hinj (by
            intro p hp
            rw [writeI_ilists_length, writeI_ilists_length]
            exact hlt p hp)
          (fun e' he' => hne e' (List.mem_cons_of_mem _ he')) a i ha
        rw [hrec]
        rw [show (e :: es).flatMap (fun e =>
            (if e.1 = a then [e.2] else []) ++ (if e.2 = a then [e.1] else []))
          = ((if e.1 = a then [e.2] else []) ++ (if e.2 = a then [e.1] else []))
            ++ es.flatMap (fun e =>
              (if e.1 = a then [e.2] else []) ++ (if e.2 = a then [e.1] else []))
          from rfl]
        by_cases hc1 : e.1 = a
        · have hi₁ : i₁ = i := by
            rw [hc1] at h1
            exact Option.some.inj (h1.symm.trans ha)
          rw [hi₁]
          have hc2 : e.2 ≠ a := fun hx =>
            hne e (List.mem_cons_self e es) (hc1.trans hx.symm)
          have hi₂ : i₂ ≠ i := by
            intro hx
            exact hc2 (hinj _ hmem2 _ hmem_a hx)
          rw [if_pos hc1, if_neg hc2]
          have hread : readI (writeI (writeI s i (readI s i ++ [e.2])) i₂
              (readI (writeI s i (readI s i ++ [e.2])) i₂ ++ [e.1])) i
              = readI s i ++ [e.2] := by
            rw [readI_writeI_ne _ _ hi₂]
            exact readI_writeI_self hia _
          rw [hread, List.append_assoc]
          rfl
        · by_cases hc2 : e.2 = a
          · have hi₂ : i₂ = i := by
              rw [hc2] at h2
              exact Option.some.inj (h2.symm.trans ha)
            rw [hi₂]
            have hi₁ : i₁ ≠ i := by
              intro hx
              exact hc1 (hinj _ hmem1 _ hmem_a hx)
            rw [if_neg hc1, if_pos hc2]
            have hr1 : readI (writeI s i₁ (readI s i₁ ++ [e.2])) i
                = readI s i := readI_writeI_ne _ _ hi₁
            have hb : i < (writeI s i₁ (readI s i₁ ++ [e.2])).ilists.length := by
              rw [writeI_ilists_length]
              exact hia
            have hread : readI (writeI (writeI s i₁ (readI s i₁ ++ [e.2])) i
                (readI (writeI s i₁ (readI s i₁ ++ [e.2])) i ++ [e.1])) i
                = readI s i ++ [e.1] := by
              rw [readI_writeI_self hb, hr1]
            rw [hread, List.append_assoc]
            rfl
          · have hi₁ : i₁ ≠ i := fun hx => hc1 (hinj _ hmem1 _ hmem_a hx)
            have hi₂ : i₂ ≠ i := fun hx => hc2 (hinj _ hmem2 _ hmem_a hx)
            rw [if_neg hc1, if_neg hc2]
            have hread : readI (writeI (writeI s i₁ (readI s i₁ ++ [e.2])) i₂
                (readI (writeI s i₁ (readI s i₁ ++ [e.2])) i₂ ++ [e.1])) i
                = readI s i := by
              rw [readI_writeI_ne _ _ hi₂, readI_writeI_ne _ _ hi₁]
            rw [hread]
            rfl

theorem adj_block : ∀ (es : List (Int × Int)) (a : Int),
    (∀ e ∈ es, e.1 < e.2) →
    ((es.flatMap (fun e => (if e.1 = a then [e.2] else []) ++
        (if e.2 = a then [e.1] else []))).filter
      (fun v => decide (a < v))).map (fun v => (a, v))
    = es.filter (fun e => decide (e.1 = a)) := by
  intro es
  induction es with
  | nil => intro a _; rfl
  | cons e es ih =>
    intro a hlt
    have hlt_e : e.1 < e.2 := hlt e (List.mem_cons_self e es)
    have htail := ih a (fun e' he' => hlt e' (List.mem_cons_of_mem _ he'))
    rw [show (e :: es).flatMap (fun e => (if e.1 = a then [e.2] else []) ++
        (if e.2 = a then [e.1] else []))
      = ((if e.1 = a then [e.2] else []) ++ (if e.2 = a then [e.1] else []))
        ++ es.flatMap (fun e => (if e.1 = a then [e.2] else []) ++
          (if e.2 = a then [e.1] else [])) from rfl]
    rw [List.filter_append, List.map_append, htail, List.filter_cons]
    by_cases hc1 : e.1 = a
    · have hc2 : e.2 ≠ a := by
        intro hx
        rw [hc1, hx] at hlt_e
        exact lt_irrefl a hlt_e
      rw [if_pos hc1, if_neg hc2]
      rw [show ([e.2] ++ ([] : List Int)) = [e.2] from rfl, List.filter_cons]
      rw [if_pos (show decide (a < e.2) = true from by
        rw [decide_eq_true_eq, ← hc1]
        exact hlt_e)]
      rw [if_pos (show decide (e.1 = a) = true from by
        rw [decide_eq_true_eq]
        exact hc1)]
      simp only [List.filter_nil, List.map_cons, List.map_nil,
        List.singleton_append]
      rw [show ((a, e.2) : Int × Int) = e from by rw [← hc1]]
    · by_cases hc2 : e.2 = a
      · rw [if_neg hc1, if_pos hc2]
        rw [show (([] : List Int) ++ [e.1]) = [e.1] from rfl, List.filter_cons]
        rw [if_neg (show ¬ decide (a < e.1) = true from by
          rw [decide_eq_true_eq, ← hc2]
          omega)]
        rw [if_neg (show ¬ decide (e.1 = a) = true from by
          rw [decide_eq_true_eq]
          exact hc1)]
        simp only [List.filter_nil, List.map_nil, List.nil_append]
      · rw [if_neg hc1, if_neg hc2]
        rw [if_neg (show ¬ decide (e.1 = a) = true from by
          rw [decide_eq_true_eq]
          exact hc1)]
        simp only [List.nil_append, List.filter_nil, List.map_nil]

theorem hg2Edges_lt (g : G2) (s : St) : ∀ e ∈ hg2Edges g s, e.1 < e.2 := by
  intro e he
  unfold hg2Edges at he
  rcases List.mem_flatMap.mp he with ⟨p, hp, hmem⟩
  rcases List.mem_map.mp hmem with ⟨v, hv, rfl⟩
  have hfil := List.of_mem_filter hv
  rw [decide_eq_true_eq] at hfil
  exact hfil

theorem flatMap_congr_mem {α β : Type} : ∀ (l : List α) (f g : α → List β),
    (∀ x ∈ l, f x = g x) → l.flatMap f = l.flatMap g := by
  intro l f g
  induction l with
  | nil => intro _; rfl
  | cons x l ih =>
    intro h
    simp only [List.flatMap_cons]
    rw [h x (List.mem_cons_self x l),
      ih (fun y hy => h y (List.mem_cons_of_mem _ hy))]

theorem flatMap_fst {β : Type} : ∀ (l : List (Int × Nat)) (f : Int → List β),
    l.flatMap (fun q => f q.1) = (l.map Prod.fst).flatMap f := by
  intro l f
  induction l with
  | nil => rfl
  | cons q l ih =>
    simp only [List.flatMap_cons, List.map_cons]
    rw [ih]

theorem flatMap_filter_regroup : ∀ (d : List (Int × Nat))
    (F : Int × Nat → List (Int × Int)),
    (akeys d).Nodup → (∀ p ∈ d, ∀ e ∈ F p, e.1 = p.1) →
    (akeys d).flatMap (fun a => (d.flatMap F).filter (fun e => decide (e.1 = a)))
      = d.flatMap F := by
  intro d
  induction d with
  | nil => intro F _ _; rfl
  | cons p d ih =>
    intro F hnd hF
    rw [show akeys (p :: d) = p.1 :: akeys d from rfl] at hnd
    rw [List.nodup_cons] at hnd
    have hE : (p :: d).flatMap F = F p ++ d.flatMap F := rfl
    have hmem_d : ∀ e ∈ d.flatMap F, e.1 ∈ akeys d := by
      intro e he
      rcases List.mem_flatMap.mp he with ⟨q, hq, hqe⟩
      rw [hF q (List.mem_cons_of_mem _ hq) e hqe]
      exact List.mem_map.mpr ⟨q, hq, rfl⟩
    have hhead : (F p ++ d.flatMap F).filter (fun e => decide (e.1 = p.1))
        = F p := by
      have h1 : (F p).filter (fun e => decide (e.1 = p.1)) = F p :=
        List.filter_eq_self.mpr (fun e he => by
          rw [decide_eq_true_eq]
          exact hF p (List.mem_cons_self p d) e he)
      have h2 : (d.flatMap F).filter (fun e => decide (e.1 = p.1)) = [] :=
        List.filter_eq_nil_iff.mpr (fun e he => by
          rw [decide_eq_true_eq]
          intro hx
          exact hnd.1 (hx ▸ hmem_d e he))
      rw [List.filter_append, h1, h2, List.append_nil]
    have htail : ∀ a ∈ akeys d,
        (F p ++ d.flatMap F).filter (fun e => decide (e.1 = a))
          = (d.flatMap F).filter (fun e => decide (e.1 = a)) := by
      intro a ha
      have h3 : (F p).filter (fun e => decide (e.1 = a)) = [] :=
        List.filter_eq_nil_iff.mpr (fun e he => by
          rw [decide_eq_true_eq]
          intro hx
          have hpa : p.1 = a := (hF p (List.mem_cons_self p d) e he).symm.trans hx
          exact hnd.1 (by rw [hpa]; exact ha))
      rw [List.filter_append, h3, List.nil_append]
    rw [show akeys (p :: d) = p.1 :: akeys d from rfl]
    rw [show (p.1 :: akeys d).flatMap
        (fun a => ((p :: d).flatMap F).filter (fun e => decide (e.1 = a)))
      = ((p :: d).flatMap F).filter (fun e => decide (e.1 = p.1))
        ++ (akeys d).flatMap
          (fun a => ((p :: d).flatMap F).filter (fun e => decide (e.1 = a)))
      from rfl]
    rw [hE, hhead]
    rw [flatMap_congr_mem (akeys d)
      (fun a => (F p ++ d.flatMap F).filter (fun e => decide (e.1 = a)))
      (fun a => (d.flatMap F).filter (fun e => decide (e.1 = a))) htail]
    rw [ih F hnd.2 (fun q hq e he => hF q (List.mem_cons_of_mem _ hq) e he)]

theorem hg1AddEdge_verts (g : G1) (a b : Int) (s : St)
    (hv : g.vref < s.ilists.length) :
    readI (hg1AddEdge g a b s) g.vref =
      if (min a b, max a b) ∈ readP s g.eref then readI s g.vref
      else if a ∈ readI s g.vref ∧ b ∈ readI s g.vref then readI s g.vref
      else if a ∈ readI s g.vref then readI s g.vref ++ [b]
      else if b ∈ readI s g.vref then readI s g.vref ++ [a]
      else readI s g.vref ++ [a, b] := by
  unfold hg1AddEdge
  split_ifs with h1 h2 h3 h4
  · rfl
  · rfl
  · exact readI_writeI_self hv _
  · exact readI_writeI_self hv _
  · exact readI_writeI_self hv _

theorem hg2Copy_spec {g : G2} {s : St} {c : G2} {s₂ : St}
    (hvg : hg2Valid g s) (h : hg2Copy g s = some (c, s₂)) :
    hg2Frame g s s₂ ∧ hg2Valid g s₂ ∧ hg2Valid c s₂ ∧ hg2Disj c g s₂ ∧
    ((hg2Vertices g s).Nodup →
      hg2Vertices c s₂ = hg2Vertices g s ∧ hg2Edges c s₂ = hg2Edges g s) := by
  unfold hg2Copy hg2Init at h
  obtain ⟨hp, hdicts, hile, hrd, hmem⟩ :=
    hg2AllocKeys_spec (hg2Vertices g s) [] s
  cases hAK : hg2AllocKeys (hg2Vertices g s) [] s with
  | mk d s₁ =>
    rw [hAK] at h hp hdicts hile hrd hmem
    dsimp only at h hp hdicts hile hrd hmem
    cases hIE : hg2InsEdges d (hg2Edges g s) s₁ with
    | none =>
      rw [hIE] at h
      cases h
    | some s₁' =>
      rw [hIE] at h
      dsimp only at h
      obtain ⟨i1, i2, i3, i4⟩ := hg2InsEdges_spec (hg2Edges g s) d s₁ s₁' hIE
      have hpair : ((⟨s₁'.dicts.length⟩ : G2),
          ({ s₁' with dicts := s₁'.dicts ++ [d] } : St)) = (c, s₂) :=
        Option.some.inj h
      have hc : (⟨s₁'.dicts.length⟩ : G2) = c := congrArg Prod.fst hpair
      have hs₂ : ({ s₁' with dicts := s₁'.dicts ++ [d] } : St) = s₂ :=
        congrArg Prod.snd hpair
      have hdlen : s₁'.dicts.length = s.dicts.length := by
        rw [i2, hdicts]
      have hfresh : ∀ p ∈ d, s.ilists.length ≤ p.2 ∧ p.2 < s₁.ilists.length := by
        intro p hp2
        rcases hmem p hp2 with hc2 | hc2
        · cases hc2
        · exact hc2
      have hcd : c.dref = s.dicts.length := by
        rw [← hc, hdlen]
      have hdictc : hg2Dict c s₂ = d := by
        unfold hg2Dict
        rw [← hs₂, ← hc]
        show ((s₁'.dicts ++ [d]).getD s₁'.dicts.length []) = d
        exact getD_append_self _ _ _
      have hilists₂ : s₂.ilists = s₁'.ilists := by
        rw [← hs₂]
      have hframe : hg2Frame g s s₂ := by
        constructor
        · unfold hg2Dict
          show readD s₂ g.dref = readD s g.dref
          rw [← hs₂]
          show (s₁'.dicts ++ [d]).getD g.dref [] = readD s g.dref
          rw [List.getD_append _ _ _ _ (by
            rw [hdlen]
            exact hvg.1)]
          show s₁'.dicts.getD g.dref [] = readD s g.dref
          rw [i2, hdicts]
          rfl
        · intro k hk
          have hklt : k < s.ilists.length := hvg.2 k hk
          have e1 : readI s₂ k = readI s₁' k := by
            rw [← hs₂]
            rfl
          rw [e1, i4 k (by
            intro hkd
            rcases List.mem_map.mp hkd with ⟨p, hp2, rfl⟩
            have := (hfresh p hp2).1
            omega), hrd k hklt]
      have hgrow_i : s.ilists.length ≤ s₂.ilists.length := by
        rw [hilists₂, i3]
        exact hile
      have hgrow_d : s.dicts.length ≤ s₂.dicts.length := by
        rw [← hs₂]
        show s.dicts.length ≤ (s₁'.dicts ++ [d]).length
        rw [List.length_append, hdlen]
        omega
      refine ⟨hframe, hg2Valid_of_frame hframe hvg hgrow_i hgrow_d, ?_, ?_, ?_⟩
      · refine ⟨?_, ?_⟩
        · rw [hcd, ← hs₂]
          show s.dicts.length < (s₁'.dicts ++ [d]).length
          rw [List.length_append, hdlen,
            show ([d] : List (List (Int × Nat))).length = 1 from rfl]
          omega
        · intro k hk
          unfold hg2Fp at hk
          rw [hdictc] at hk
          rcases List.mem_map.mp hk with ⟨p, hp2, rfl⟩
          have := (hfresh p hp2).2
          rw [hilists₂, i3]
          omega
      · refine ⟨?_, ?_⟩
        · rw [hcd]
          intro hceq
          have := hvg.1
          omega
        · intro k hk
          unfold hg2Fp at hk
          rw [hdictc] at hk
          rcases List.mem_map.mp hk with ⟨p, hp2, rfl⟩
          rw [hg2Fp_eq_of_frame hframe]
          intro hcg
          have := hvg.2 p.2 hcg
          have := (hfresh p hp2).1
          omega
      · intro hnd
        have hdeq : d = idxFrom (hg2Vertices g s) s.ilists.length := by
          have hq := hg2AllocKeys_eq (hg2Vertices g s) [] s
            (fun v _ hv2 => absurd hv2 (List.not_mem_nil v)) hnd
          rw [hAK] at hq
          exact hq
        have hkeys : akeys d = hg2Vertices g s := by
          rw [hdeq]
          exact idxFrom_keys _ _
        have hndk : (akeys d).Nodup := by
          rw [hkeys]
          exact hnd
        constructor
        · show (hg2Dict c s₂).map Prod.fst = hg2Vertices g s
          rw [hdictc]
          exact hkeys
        · show (hg2Dict c s₂).flatMap (fun p =>
            ((readI s₂ p.2).filter (fun v => decide (p.1 < v))).map
              (fun v => (p.1, v))) = hg2Edges g s
          rw [hdictc]
          have hinjd : ∀ p ∈ d, ∀ q ∈ d, p.2 = q.2 → p.1 = q.1 := by
            intro p hp0 q hq0 hpq
            rw [hdeq] at hp0 hq0
            rw [idxFrom_inj _ _ _ _ hp0 hq0 hpq]
          have hltd : ∀ p ∈ d, p.2 < s₁.ilists.length :=
            fun p hp0 => (hfresh p hp0).2
          have hlt_es : ∀ e ∈ hg2Edges g s, e.1 < e.2 := hg2Edges_lt g s
          have hne_es : ∀ e ∈ hg2Edges g s, e.1 ≠ e.2 :=
            fun e he => Int.ne_of_lt (hlt_es e he)
          have hcont : ∀ p ∈ d, readI s₁ p.2 = [] := by
            intro p hp0
            have hq := hg2AllocKeys_content (hg2Vertices g s) [] s p
              (by rw [hAK]; exact hp0)
            rw [hAK] at hq
            rcases hq with hin | hread
            · exact absurd hin (List.not_mem_nil p)
            · exact hread
          have hGq : ∀ q ∈ d,
              ((readI s₂ q.2).filter (fun v => decide (q.1 < v))).map
                (fun v => (q.1, v))
              = (hg2Edges g s).filter (fun e => decide (e.1 = q.1)) := by
            intro q hq0
            have halq : alook d q.1 = some q.2 := alook_of_mem_nodup hndk hq0
            have hadj := insEdges_adj (hg2Edges g s) d s₁ s₁' hIE hinjd hltd
              hne_es q.1 q.2 halq
            rw [hcont q hq0, List.nil_append] at hadj
            have hs₂read : readI s₂ q.2 = readI s₁' q.2 := by
              rw [← hs₂]
              rfl
            rw [hs₂read, hadj]
            exact adj_block (hg2Edges g s) q.1 hlt_es
          rw [flatMap_congr_mem d
            (fun q => ((readI s₂ q.2).filter (fun v => decide (q.1 < v))).map
              (fun v => (q.1, v)))
            (fun q => (hg2Edges g s).filter (fun e => decide (e.1 = q.1))) hGq]
          rw [flatMap_fst d (fun a => (hg2Edges g s).filter
            (fun e => decide (e.1 = a)))]
          rw [show d.map Prod.fst = akeys d from rfl, hkeys]
          have hreg := flatMap_filter_regroup (hg2Dict g s)
            (fun p => ((readI s p.2).filter (fun v => decide (p.1 < v))).map
              (fun v => (p.1, v)))
            (by exact hnd)
            (by
              intro p hp0 e he0
              rcases List.mem_map.mp he0 with ⟨v, hv0, rfl⟩
              rfl)
          exact hreg

/-- C3 (corrected).  Graph2's copy is independent: it rebuilds the dict and
every neighbor list in fresh cells, so the copy and the original share no
mutable cell, the original's views survive the copy, for a duplicate-free
key list the copy's vertex and edge views equal the original's, and
arbitrary successful call sequences on either leave the other's vertex and
edge views unchanged.  Graph1's copy is NOT independent:
`Graph1(self.vertices, self.edges)` passes the vertex list object itself to
the constructor, which stores it as is, so the copy shares the vertex list
with the original — addVertex on the copy appends to the original's vertex
view, and addEdge on the copy appends any endpoint that is not yet a vertex
to the original's vertex view (the exact if-tree below, read over the
original's views, characterizes the shared-list effect).  The edge list is
rebuilt fresh, so edge mutations on the copy leave the original's edges
unchanged, and deleteEdge also leaves the original's vertices unchanged. -/
theorem c3_amended_copy : ∀ (g1 c1 : G1) (s s₁ t : St) (a b : Int)
    (g2 c2 : G2) (s₂ : St) (ops : List HOp),
    (hg1Valid g1 s → hg1Copy g1 s = (c1, s₁) →
      (c1.vref = g1.vref ∧ c1.eref ≠ g1.eref ∧
       hg1Vertices g1 s₁ = hg1Vertices g1 s ∧
       hg1Edges g1 s₁ = hg1Edges g1 s ∧
       hg1Vertices c1 s₁ = hg1Vertices g1 s ∧
       hg1Edges c1 s₁ = (hg1Edges g1 s).map normPair ∧
       hg1Vertices g1 (hg1AddVertex c1 a s₁) = hg1Vertices g1 s ++ [a] ∧
       hg1Edges g1 (hg1DeleteEdge c1 a b s₁) = hg1Edges g1 s ∧
       hg1Vertices g1 (hg1DeleteEdge c1 a b s₁) = hg1Vertices g1 s ∧
       hg1Edges g1 (hg1AddEdge c1 a b s₁) = hg1Edges g1 s ∧
       hg1Vertices g1 (hg1AddEdge c1 a b s₁) =
         (if (min a b, max a b) ∈ hg1Edges c1 s₁ then hg1Vertices g1 s
          else if a ∈ hg1Vertices g1 s ∧ b ∈ hg1Vertices g1 s then
            hg1Vertices g1 s
          else if a ∈ hg1Vertices g1 s then hg1Vertices g1 s ++ [b]
          else if b ∈ hg1Vertices g1 s then hg1Vertices g1 s ++ [a]
          else hg1Vertices g1 s ++ [a, b]))) ∧
    (hg2Valid g2 t → hg2Copy g2 t = some (c2, s₂) →
      (hg2Disj c2 g2 s₂ ∧
       hg2Vertices g2 s₂ = hg2Vertices g2 t ∧
       hg2Edges g2 s₂ = hg2Edges g2 t ∧
       ((hg2Vertices g2 t).Nodup →
         hg2Vertices c2 s₂ = hg2Vertices g2 t ∧
         hg2Edges c2 s₂ = hg2Edges g2 t) ∧
       (∀ s₃, hg2Run c2 ops s₂ = some s₃ →
         hg2Vertices g2 s₃ = hg2Vertices g2 t ∧
         hg2Edges g2 s₃ = hg2Edges g2 t) ∧
       (∀ s₃, hg2Run g2 ops s₂ = some s₃ →
         hg2Vertices c2 s₃ = hg2Vertices c2 s₂ ∧
         hg2Edges c2 s₃ = hg2Edges c2 s₂))) := by
  intro g1 c1 s s₁ t a b g2 c2 s₂ ops
  constructor
  · intro hv hcopy
    have he : hg1Copy g1 s = (⟨g1.vref, s.plists.length⟩,
        { s with plists := s.plists ++ [(hg1Edges g1 s).map normPair] }) := rfl
    rw [he] at hcopy
    injection hcopy with hc1 hs1
    subst hc1
    subst hs1
    have hedges₁ : hg1Edges g1
        { s with plists := s.plists ++ [(hg1Edges g1 s).map normPair] }
        = hg1Edges g1 s := List.getD_append _ _ _ _ hv.2
    refine ⟨rfl, ?_, rfl, hedges₁, rfl, ?_, ?_, ?_, rfl, ?_, ?_⟩
    · show s.plists.length ≠ g1.eref
      have := hv.2
      omega
    · exact getD_append_self _ _ _
    · show readI (writeI _ g1.vref _) g1.vref = _
      exact @readI_writeI_self
        { s with plists := s.plists ++ [(hg1Edges g1 s).map normPair] }
        g1.vref hv.1 _
    · show readP (writeP _ s.plists.length _) g1.eref = _
      rw [readP_writeP_ne _ _ (by
        have := hv.2
        omega)]
      exact hedges₁
    · unfold hg1AddEdge
      split_ifs with h1 h2 h3 h4
      · exact hedges₁
      · show readP (writeP _ s.plists.length _) g1.eref = _
        rw [readP_writeP_ne _ _ (by
          have := hv.2
          omega)]
        exact hedges₁
      · show readP (writeP _ s.plists.length _) g1.eref = _
        rw [readP_writeP_ne _ _ (by
          have := hv.2
          omega)]
        exact hedges₁
      · show readP (writeP _ s.plists.length _) g1.eref = _
        rw [readP_writeP_ne _ _ (by
          have := hv.2
          omega)]
        exact hedges₁
      · show readP (writeP _ s.plists.length _) g1.eref = _
        rw [readP_writeP_ne _ _ (by
          have := hv.2
          omega)]
        exact hedges₁
    · exact hg1AddEdge_verts ⟨g1.vref, s.plists.length⟩ a b
        { s with plists := s.plists ++ [(hg1Edges g1 s).map normPair] } hv.1
  · intro hv hcopy
    obtain ⟨hframe, hvg₂, hvc₂, hdisj₂, hviews⟩ := hg2Copy_spec hv hcopy
    refine ⟨hdisj₂, hg2Vertices_eq_of_frame hframe, hg2Edges_eq_of_frame hframe,
      hviews, ?_, ?_⟩
    · intro s₃ hrun
      obtain ⟨hf₃, _, _, _⟩ := hg2Run_ok ops s₂ s₃ hvg₂ hvc₂ hdisj₂ hrun
      have hf := hg2Frame_trans hframe hf₃
      exact ⟨hg2Vertices_eq_of_frame hf, hg2Edges_eq_of_frame hf⟩
    · intro s₃ hrun
      obtain ⟨hf₃, _, _, _⟩ :=
        hg2Run_ok ops s₂ s₃ hvc₂ hvg₂ (hg2Disj_symm hdisj₂) hrun
      exact ⟨hg2Vertices_eq_of_frame hf₃, hg2Edges_eq_of_frame hf₃⟩

/-- Witness for C3: a one-vertex Graph1 with one edge, and a two-vertex
Graph2 with the edge (1,2), copied and then mutated; addEdge(5,6) on the
Graph1 copy appends both fresh endpoints to the shared vertex list, and the
Graph2 copy's vertex and edge views equal the original's. -/
theorem c3_amended_copy_witness :
    (hg1Valid (⟨0, 0⟩ : G1) (⟨[[1]], [[(1, 2)]], []⟩ : St) ∧
     hg1Copy (⟨0, 0⟩ : G1) (⟨[[1]], [[(1, 2)]], []⟩ : St) = ((⟨0, 1⟩ : G1), (⟨[[1]], [[(1, 2)], [(1, 2)]], []⟩ : St)) ∧
     hg2Valid (⟨0⟩ : G2) (⟨[[2], [1]], [], [[(1, 0), (2, 1)]]⟩ : St) ∧
     hg2Copy (⟨0⟩ : G2) (⟨[[2], [1]], [], [[(1, 0), (2, 1)]]⟩ : St) = some ((⟨1⟩ : G2), (⟨[[2], [1], [2], [1]], [], [[(1, 0), (2, 1)], [(1, 2), (2, 3)]]⟩ : St))) ∧
    ((⟨0, 1⟩ : G1).vref = (⟨0, 0⟩ : G1).vref ∧ (⟨0, 1⟩ : G1).eref ≠ (⟨0, 0⟩ : G1).eref ∧
     hg1Vertices (⟨0, 0⟩ : G1) (⟨[[1]], [[(1, 2)], [(1, 2)]], []⟩ : St) = hg1Vertices (⟨0, 0⟩ : G1) (⟨[[1]], [[(1, 2)]], []⟩ : St) ∧
     hg1Edges (⟨0, 0⟩ : G1) (⟨[[1]], [[(1, 2)], [(1, 2)]], []⟩ : St) = hg1Edges (⟨0, 0⟩ : G1) (⟨[[1]], [[(1, 2)]], []⟩ : St) ∧
     hg1Vertices (⟨0, 1⟩ : G1) (⟨[[1]], [[(1, 2)], [(1, 2)]], []⟩ : St) = hg1Vertices (⟨0, 0⟩ : G1) (⟨[[1]], [[(1, 2)]], []⟩ : St) ∧
     hg1Edges (⟨0, 1⟩ : G1) (⟨[[1]], [[(1, 2)], [(1, 2)]], []⟩ : St) = (hg1Edges (⟨0, 0⟩ : G1) (⟨[[1]], [[(1, 2)]], []⟩ : St)).map normPair ∧
     hg1Vertices (⟨0, 0⟩ : G1) (hg1AddVertex (⟨0, 1⟩ : G1) 5 (⟨[[1]], [[(1, 2)], [(1, 2)]], []⟩ : St))
       = hg1Vertices (⟨0, 0⟩ : G1) (⟨[[1]], [[(1, 2)]], []⟩ : St) ++ [5] ∧
     hg1Edges (⟨0, 0⟩ : G1) (hg1DeleteEdge (⟨0, 1⟩ : G1) 5 6 (⟨[[1]], [[(1, 2)], [(1, 2)]], []⟩ : St)) = hg1Edges (⟨0, 0⟩ : G1) (⟨[[1]], [[(1, 2)]], []⟩ : St) ∧
     hg1Vertices (⟨0, 0⟩ : G1) (hg1DeleteEdge (⟨0, 1⟩ : G1) 5 6 (⟨[[1]], [[(1, 2)], [(1, 2)]], []⟩ : St))
       = hg1Vertices (⟨0, 0⟩ : G1) (⟨[[1]], [[(1, 2)]], []⟩ : St) ∧
     hg1Edges (⟨0, 0⟩ : G1) (hg1AddEdge (⟨0, 1⟩ : G1) 5 6 (⟨[[1]], [[(1, 2)], [(1, 2)]], []⟩ : St)) = hg1Edges (⟨0, 0⟩ : G1) (⟨[[1]], [[(1, 2)]], []⟩ : St) ∧
     hg1Vertices (⟨0, 0⟩ : G1) (hg1AddEdge (⟨0, 1⟩ : G1) 5 6 (⟨[[1]], [[(1, 2)], [(1, 2)]], []⟩ : St)) =
       (if (min 5 6, max 5 6) ∈ hg1Edges (⟨0, 1⟩ : G1) (⟨[[1]], [[(1, 2)], [(1, 2)]], []⟩ : St) then hg1Vertices (⟨0, 0⟩ : G1) (⟨[[1]], [[(1, 2)]], []⟩ : St)
        else if 5 ∈ hg1Vertices (⟨0, 0⟩ : G1) (⟨[[1]], [[(1, 2)]], []⟩ : St) ∧ 6 ∈ hg1Vertices (⟨0, 0⟩ : G1) (⟨[[1]], [[(1, 2)]], []⟩ : St) then
          hg1Vertices (⟨0, 0⟩ : G1) (⟨[[1]], [[(1, 2)]], []⟩ : St)
        else if 5 ∈ hg1Vertices (⟨0, 0⟩ : G1) (⟨[[1]], [[(1, 2)]], []⟩ : St) then hg1Vertices (⟨0, 0⟩ : G1) (⟨[[1]], [[(1, 2)]], []⟩ : St) ++ [6]
        else if 6 ∈ hg1Vertices (⟨0, 0⟩ : G1) (⟨[[1]], [[(1, 2)]], []⟩ : St) then hg1Vertices (⟨0, 0⟩ : G1) (⟨[[1]], [[(1, 2)]], []⟩ : St) ++ [5]
        else hg1Vertices (⟨0, 0⟩ : G1) (⟨[[1]], [[(1, 2)]], []⟩ : St) ++ [5, 6])) ∧
    (hg2Disj (⟨1⟩ : G2) (⟨0⟩ : G2) (⟨[[2], [1], [2], [1]], [], [[(1, 0), (2, 1)], [(1, 2), (2, 3)]]⟩ : St) ∧
     hg2Vertices (⟨0⟩ : G2) (⟨[[2], [1], [2], [1]], [], [[(1, 0), (2, 1)], [(1, 2), (2, 3)]]⟩ : St) = hg2Vertices (⟨0⟩ : G2) (⟨[[2], [1]], [], [[(1, 0), (2, 1)]]⟩ : St) ∧
     hg2Edges (⟨0⟩ : G2) (⟨[[2], [1], [2], [1]], [], [[(1, 0), (2, 1)], [(1, 2), (2, 3)]]⟩ : St) = hg2Edges (⟨0⟩ : G2) (⟨[[2], [1]], [], [[(1, 0), (2, 1)]]⟩ : St) ∧
     ((hg2Vertices (⟨0⟩ : G2) (⟨[[2], [1]], [], [[(1, 0), (2, 1)]]⟩ : St)).Nodup →
       hg2Vertices (⟨1⟩ : G2) (⟨[[2], [1], [2], [1]], [], [[(1, 0), (2, 1)], [(1, 2), (2, 3)]]⟩ : St) = hg2Vertices (⟨0⟩ : G2) (⟨[[2], [1]], [], [[(1, 0), (2, 1)]]⟩ : St) ∧
       hg2Edges (⟨1⟩ : G2) (⟨[[2], [1], [2], [1]], [], [[(1, 0), (2, 1)], [(1, 2), (2, 3)]]⟩ : St) = hg2Edges (⟨0⟩ : G2) (⟨[[2], [1]], [], [[(1, 0), (2, 1)]]⟩ : St)) ∧
     (∀ s₃, hg2Run (⟨1⟩ : G2) [HOp.addE 2 3] (⟨[[2], [1], [2], [1]], [], [[(1, 0), (2, 1)], [(1, 2), (2, 3)]]⟩ : St) = some s₃ →
       hg2Vertices (⟨0⟩ : G2) s₃ = hg2Vertices (⟨0⟩ : G2) (⟨[[2], [1]], [], [[(1, 0), (2, 1)]]⟩ : St) ∧
       hg2Edges (⟨0⟩ : G2) s₃ = hg2Edges (⟨0⟩ : G2) (⟨[[2], [1]], [], [[(1, 0), (2, 1)]]⟩ : St)) ∧
     (∀ s₃, hg2Run (⟨0⟩ : G2) [HOp.addE 2 3] (⟨[[2], [1], [2], [1]], [], [[(1, 0), (2, 1)], [(1, 2), (2, 3)]]⟩ : St) = some s₃ →
       hg2Vertices (⟨1⟩ : G2) s₃ = hg2Vertices (⟨1⟩ : G2) (⟨[[2], [1], [2], [1]], [], [[(1, 0), (2, 1)], [(1, 2), (2, 3)]]⟩ : St) ∧
       hg2Edges (⟨1⟩ : G2) s₃ = hg2Edges (⟨1⟩ : G2) (⟨[[2], [1], [2], [1]], [], [[(1, 0), (2, 1)], [(1, 2), (2, 3)]]⟩ : St))) ∧
    (hg2Vertices (⟨1⟩ : G2) (⟨[[2], [1], [2], [1]], [], [[(1, 0), (2, 1)], [(1, 2), (2, 3)]]⟩ : St) = hg2Vertices (⟨0⟩ : G2) (⟨[[2], [1]], [], [[(1, 0), (2, 1)]]⟩ : St) ∧
     hg2Edges (⟨1⟩ : G2) (⟨[[2], [1], [2], [1]], [], [[(1, 0), (2, 1)], [(1, 2), (2, 3)]]⟩ : St) = hg2Edges (⟨0⟩ : G2) (⟨[[2], [1]], [], [[(1, 0), (2, 1)]]⟩ : St)) :=
  ⟨⟨by decide, by decide, by decide, by decide⟩,
   (c3_amended_copy (⟨0, 0⟩ : G1) (⟨0, 1⟩ : G1) (⟨[[1]], [[(1, 2)]], []⟩ : St) (⟨[[1]], [[(1, 2)], [(1, 2)]], []⟩ : St) (⟨[[2], [1]], [], [[(1, 0), (2, 1)]]⟩ : St) 5 6 (⟨0⟩ : G2) (⟨1⟩ : G2) (⟨[[2], [1], [2], [1]], [], [[(1, 0), (2, 1)], [(1, 2), (2, 3)]]⟩ : St) [HOp.addE 2 3]).1 (by decide) (by decide),
   (c3_amended_copy (⟨0, 0⟩ : G1) (⟨0, 1⟩ : G1) (⟨[[1]], [[(1, 2)]], []⟩ : St) (⟨[[1]], [[(1, 2)], [(1, 2)]], []⟩ : St) (⟨[[2], [1]], [], [[(1, 0), (2, 1)]]⟩ : St) 5 6 (⟨0⟩ : G2) (⟨1⟩ : G2) (⟨[[2], [1], [2], [1]], [], [[(1, 0), (2, 1)], [(1, 2), (2, 3)]]⟩ : St) [HOp.addE 2 3]).2 (by decide) (by decide),
   ((c3_amended_copy (⟨0, 0⟩ : G1) (⟨0, 1⟩ : G1) (⟨[[1]], [[(1, 2)]], []⟩ : St) (⟨[[1]], [[(1, 2)], [(1, 2)]], []⟩ : St) (⟨[[2], [1]], [], [[(1, 0), (2, 1)]]⟩ : St) 5 6 (⟨0⟩ : G2) (⟨1⟩ : G2) (⟨[[2], [1], [2], [1]], [], [[(1, 0), (2, 1)], [(1, 2), (2, 3)]]⟩ : St) [HOp.addE 2 3]).2 (by decide) (by decide)).2.2.2.1 (by decide)⟩

/-- C3 counterexample: Graph1's copy shares the vertex list object, so
mutating the copy changes the original's vertex view — addVertex(2) on the
copy turns the original's vertices [1] into [1, 2], and addEdge(5,6) on the
copy turns them into [1, 5, 6] (both fresh endpoints are appended to the
shared list) while the new edge lands only in the copy's edge list — the
claim's mutation independence fails for Graph1. -/
theorem c3_counterexample :
    hg1New [1] [] St.mt = ((⟨0, 0⟩ : G1), (⟨[[1]], [[]], []⟩ : St)) ∧
    hg1Copy (⟨0, 0⟩ : G1) (⟨[[1]], [[]], []⟩ : St)
      = ((⟨0, 1⟩ : G1), (⟨[[1]], [[], []], []⟩ : St)) ∧
    hg1Vertices (⟨0, 0⟩ : G1) (⟨[[1]], [[], []], []⟩ : St) = [1] ∧
    hg1AddVertex (⟨0, 1⟩ : G1) 2 (⟨[[1]], [[], []], []⟩ : St)
      = (⟨[[1, 2]], [[], []], []⟩ : St) ∧
    hg1Vertices (⟨0, 0⟩ : G1) (⟨[[1, 2]], [[], []], []⟩ : St) = [1, 2] ∧
    hg1AddEdge (⟨0, 1⟩ : G1) 5 6 (⟨[[1]], [[], []], []⟩ : St)
      = (⟨[[1, 5, 6]], [[], [(5, 6)]], []⟩ : St) ∧
    hg1Vertices (⟨0, 0⟩ : G1) (⟨[[1, 5, 6]], [[], [(5, 6)]], []⟩ : St)
      = [1, 5, 6] ∧
    hg1Edges (⟨0, 0⟩ : G1) (⟨[[1, 5, 6]], [[], [(5, 6)]], []⟩ : St) = [] := by
  decide

end TutorGraph
